import Mathlib

/-!
# The mers tree-sitter grammar (`tree-sitter-mers/grammar.js`)

The program is a grammar: a set of rules built from `seq`, `choice`, `repeat`,
`optional`, `prec.left`, literal tokens and four regular-expression tokens.  What it
computes is the syntax tree of a text.  The embedding has four layers.

* `RE`: the regular expressions of the four pattern tokens, translated
  constructor by constructor, with an executable matcher (`RE.fullMatch`,
  Brzozowski derivatives) and its language (`RE.lang`).
* `Derives`: the derivations of the rules, one constructor per alternative of
  each rule.  A token may be preceded by whitespace: the grammar declares no
  `extras`, so tree-sitter's default `extras: [/\s/]` applies.  The rules alone do not
  say where a token ends nor which of two rules reads a text, so a text can have
  several derivations: `Derives` holds every tree the parser can return, and more.
* `definitionP`, `sourceFileP`: an executable enumeration of all derivations of
  a text, complete for `Derives` (`sourceFileP_complete`), used to show that a text
  has no derivation of some kind.
* `lex`, `parseDefinition`, `parseFile`: the parser, a function.  It takes from
  tree-sitter what the rules leave open: the lexer tries the token kinds the parse
  state expects, the longest match wins and a literal wins a tie, whitespace is the
  separator where a separator is expected, and `prec.left` ends an `if` before an
  `else` that an enclosing `if` can take.  Its result is one of the derivations
  (`parseFile_sound`) and obeys `prec.left` (`parseFile_leftAssoc`).

What holds of every derivation holds of the parser's tree, and a text without a
derivation is rejected; that a text is accepted, and with which tree, is said of
`parseFile`.
-/

namespace Mers

/-- A text is a list of characters. -/
abbrev Text := List Char

/-! ## Character classes -/

/-- The class `\s` of an ECMAScript regular expression. -/
def isSpace (c : Char) : Bool :=
  c == ' ' || c == '\t' || c == '\n' || c == '\r' || c.toNat == 11 || c.toNat == 12 ||
  c.toNat == 0xA0 || c.toNat == 0x1680 || (0x2000 ≤ c.toNat && c.toNat ≤ 0x200A) ||
  c.toNat == 0x2028 || c.toNat == 0x2029 || c.toNat == 0x202F || c.toNat == 0x205F ||
  c.toNat == 0x3000 || c.toNat == 0xFEFF

/-- The class `\d`: the ASCII digits. -/
def isDigit (c : Char) : Bool := '0' ≤ c && c ≤ '9'

/-- The class `[\+-]` of the number pattern. -/
def isSign (c : Char) : Bool := c == '+' || c == '-'

/-- The class `[^\s:=\.\{\}\[\]\(\)\d"]` of the variable pattern. -/
def isVariableChar (c : Char) : Bool :=
  !(isSpace c || c == ':' || c == '=' || c == '.' || c == '{' || c == '}' || c == '[' ||
    c == ']' || c == '(' || c == ')' || isDigit c || c == '"')

/-- The class `[^\\"]` of the string content pattern. -/
def isPlainStringChar (c : Char) : Bool := !(c == '\\' || c == '"')

/-- The class `[\\.]` of the string content pattern: a backslash or a dot. -/
def isBackslashOrDot (c : Char) : Bool := c == '\\' || c == '.'

/-- Whether every character of a text is whitespace. -/
def allSpace (s : Text) : Bool := s.all isSpace

/-! ## Regular expressions -/

/-- Regular expressions over character classes. -/
inductive RE where
  | none : RE
  | eps : RE
  | cls (p : Char → Bool) : RE
  | seq (a b : RE) : RE
  | alt (a b : RE) : RE
  | star (a : RE) : RE

namespace RE

/-- A single given character. -/
def chr (c : Char) : RE := cls (fun d => d == c)

/-- The postfix `+`: one or more. -/
def plus (a : RE) : RE := seq a (star a)

/-- The postfix `?`: zero or one. -/
def opt (a : RE) : RE := alt eps a

/-- Whether the expression matches the empty text. -/
def nullable : RE → Bool
  | none => false
  | eps => true
  | cls _ => false
  | seq a b => a.nullable && b.nullable
  | alt a b => a.nullable || b.nullable
  | star _ => true

/-- The Brzozowski derivative of an expression by a character. -/
def deriv : RE → Char → RE
  | none, _ => none
  | eps, _ => none
  | cls p, c => if p c then eps else none
  | seq a b, c => if a.nullable then alt (seq (a.deriv c) b) (b.deriv c) else seq (a.deriv c) b
  | alt a b, c => alt (a.deriv c) (b.deriv c)
  | star a, c => seq (a.deriv c) (star a)

/-- Whether the expression matches the whole text. -/
def fullMatch (r : RE) : Text → Bool
  | [] => r.nullable
  | c :: cs => (r.deriv c).fullMatch cs

/-- The language of an expression. -/
def lang : RE → Language Char
  | none => 0
  | eps => 1
  | cls p => {w | ∃ c, w = [c] ∧ p c = true}
  | seq a b => a.lang * b.lang
  | alt a b => a.lang + b.lang
  | star a => KStar.kstar a.lang

end RE

/-- The pattern of `tuple_separator`: `/(,\s*)|\s+/`. -/
def tuple_separator : RE :=
  .alt (.seq (.chr ',') (.star (.cls isSpace))) (.plus (.cls isSpace))

/-- The pattern of `number`: `/[\+-]?(\d+)|(\d+\.\d+)/`.  The alternation binds
weakest, so the optional sign belongs to the first alternative only. -/
def number : RE :=
  .alt (.seq (.opt (.cls isSign)) (.plus (.cls isDigit)))
    (.seq (.plus (.cls isDigit)) (.seq (.chr '.') (.plus (.cls isDigit))))

/-- The pattern of `variable`: `/&?[^\s:=\.\{\}\[\]\(\)\d"]+/` (`variable` is a keyword of Lean). -/
def variable_pattern : RE :=
  .seq (.opt (.chr '&')) (.plus (.cls isVariableChar))

/-- The pattern of `string_content`: `/([^\\"]|[\\.])+/`. -/
def string_content : RE :=
  .plus (.alt (.cls isPlainStringChar) (.cls isBackslashOrDot))

/-- Every character of the text is in the class. -/
def allIn (p : Char → Bool) (w : Text) : Prop := ∀ c ∈ w, p c = true

/-! ## Syntax trees -/

/-- The nodes of a syntax tree.  Rules that are a bare reference or a choice of
references (`definition`, `definition_in_chain`, `func_arg`, ...) add no node. -/
inductive Tree where
  | init (target source : Tree)
  | assign (target source : Tree)
  | ifNode (cond thn : Tree) (els : Option Tree)
  | func (arg body : Tree)
  | block (body : List Tree)
  | tuple (elems : List Tree)
  | chain (link : Tree)
  | string (content : Text)
  | number (text : Text)
  | variable (name : Text)

namespace Tree

mutual
/-- Structural equality test on trees. -/
def beq : Tree → Tree → Bool
  | .init a b, .init c d => beq a c && beq b d
  | .assign a b, .assign c d => beq a c && beq b d
  | .ifNode a b e, .ifNode c d f => beq a c && beq b d && beqOpt e f
  | .func a b, .func c d => beq a c && beq b d
  | .block xs, .block ys => beqList xs ys
  | .tuple xs, .tuple ys => beqList xs ys
  | .chain a, .chain b => beq a b
  | .string a, .string b => a == b
  | .number a, .number b => a == b
  | .variable a, .variable b => a == b
  | _, _ => false
/-- Structural equality test on optional trees. -/
def beqOpt : Option Tree → Option Tree → Bool
  | Option.none, Option.none => true
  | some a, some b => beq a b
  | _, _ => false
/-- Structural equality test on lists of trees. -/
def beqList : List Tree → List Tree → Bool
  | [], [] => true
  | a :: as, b :: bs => beq a b && beqList as bs
  | _, _ => false
end

mutual
theorem beq_sound : ∀ (a b : Tree), beq a b = true → a = b
  | .init a b, t, h => by
    cases t <;> simp [beq] at h
    rename_i c d; rw [beq_sound a c h.1, beq_sound b d h.2]
  | .assign a b, t, h => by
    cases t <;> simp [beq] at h
    rename_i c d; rw [beq_sound a c h.1, beq_sound b d h.2]
  | .ifNode a b e, t, h => by
    cases t <;> simp [beq] at h
    rename_i c d f; rw [beq_sound a c h.1.1, beq_sound b d h.1.2, beqOpt_sound e f h.2]
  | .func a b, t, h => by
    cases t <;> simp [beq] at h
    rename_i c d; rw [beq_sound a c h.1, beq_sound b d h.2]
  | .block xs, t, h => by
    cases t <;> simp [beq] at h
    rename_i ys; rw [beqList_sound xs ys h]
  | .tuple xs, t, h => by
    cases t <;> simp [beq] at h
    rename_i ys; rw [beqList_sound xs ys h]
  | .chain a, t, h => by
    cases t <;> simp [beq] at h
    rename_i c; rw [beq_sound a c h]
  | .string a, t, h => by
    cases t <;> simp [beq] at h
    rw [h]
  | .number a, t, h => by
    cases t <;> simp [beq] at h
    rw [h]
  | .variable a, t, h => by
    cases t <;> simp [beq] at h
    rw [h]
theorem beqOpt_sound : ∀ (a b : Option Tree), beqOpt a b = true → a = b
  | Option.none, t, h => by cases t <;> simp [beqOpt] at h; rfl
  | some a, t, h => by
    cases t <;> simp [beqOpt] at h
    rename_i c; rw [beq_sound a c h]
theorem beqList_sound : ∀ (a b : List Tree), beqList a b = true → a = b
  | [], t, h => by cases t <;> simp [beqList] at h; rfl
  | a :: as, t, h => by
    cases t <;> simp [beqList] at h
    rename_i c cs; rw [beq_sound a c h.1, beqList_sound as cs h.2]
end

mutual
theorem beq_refl : ∀ (a : Tree), beq a a = true
  | .init a b => by simp [beq, beq_refl a, beq_refl b]
  | .assign a b => by simp [beq, beq_refl a, beq_refl b]
  | .ifNode a b e => by simp [beq, beq_refl a, beq_refl b, beqOpt_refl e]
  | .func a b => by simp [beq, beq_refl a, beq_refl b]
  | .block xs => by simp [beq, beqList_refl xs]
  | .tuple xs => by simp [beq, beqList_refl xs]
  | .chain a => by simp [beq, beq_refl a]
  | .string a => by simp [beq]
  | .number a => by simp [beq]
  | .variable a => by simp [beq]
theorem beqOpt_refl : ∀ (a : Option Tree), beqOpt a a = true
  | Option.none => by simp [beqOpt]
  | some a => by simp [beqOpt, beq_refl a]
theorem beqList_refl : ∀ (a : List Tree), beqList a a = true
  | [] => by simp [beqList]
  | a :: as => by simp [beqList, beq_refl a, beqList_refl as]
end

/-- Equality of trees is decidable, by `beq`. -/
instance : DecidableEq Tree := fun a b =>
  if h : beq a b = true then isTrue (beq_sound a b h)
  else isFalse (fun e => h (e ▸ beq_refl a))

end Tree

/-! ## The grammar -/

/-- The rules of the grammar that derive syntax tree nodes, and the two
repetitions inside them. -/
inductive Sym where
  | source_file
  | definitions
  | definition
  | definition_in_chain
  | definition_initable
  | definition_assignable
  | block
  | if_
  | func
  | init
  | assign
  | tuple
  | tuple_elems
  | chain
  | number
  | variable
  | string
  deriving DecidableEq

/-- A literal token: the text `l`, after any whitespace. -/
def Lit (l : String) (s : Text) : Prop :=
  ∃ ws : Text, allSpace ws = true ∧ s = ws ++ l.toList

/-- A pattern token: a text `tok` matched in full by `r`, after any whitespace. -/
def Pat (r : RE) (s tok : Text) : Prop :=
  ∃ ws : Text, allSpace ws = true ∧ r.fullMatch tok = true ∧ s = ws ++ tok

/-- The derivations of the grammar: `Derives X s ts` says that rule `X` derives the
text `s` with the syntax tree nodes `ts` (one node, but for the repetitions
`definitions` = `repeat($.definition)`, `tuple_elems` =
`repeat(seq($.definition, $.tuple_separator))` and `source_file`). -/
inductive Derives : Sym → Text → List Tree → Prop where
  -- source_file: repeat($.definition), then trailing whitespace
  | source_file {s a ws ts} : Derives .definitions a ts → allSpace ws = true → s = a ++ ws →
      Derives .source_file s ts
  | definitions_nil : Derives .definitions [] []
  | definitions_cons {s a b t ts} : Derives .definition a [t] → Derives .definitions b ts →
      s = a ++ b → Derives .definitions s (t :: ts)
  -- definition: choice of ten rules
  | definition_init {s ts} : Derives .init s ts → Derives .definition s ts
  | definition_assign {s ts} : Derives .assign s ts → Derives .definition s ts
  | definition_if {s ts} : Derives .if_ s ts → Derives .definition s ts
  | definition_func {s ts} : Derives .func s ts → Derives .definition s ts
  | definition_block {s ts} : Derives .block s ts → Derives .definition s ts
  | definition_tuple {s ts} : Derives .tuple s ts → Derives .definition s ts
  | definition_chain {s ts} : Derives .chain s ts → Derives .definition s ts
  | definition_string {s ts} : Derives .string s ts → Derives .definition s ts
  | definition_number {s ts} : Derives .number s ts → Derives .definition s ts
  | definition_variable {s ts} : Derives .variable s ts → Derives .definition s ts
  -- definition_in_chain
  | in_chain_block {s ts} : Derives .block s ts → Derives .definition_in_chain s ts
  | in_chain_tuple {s ts} : Derives .tuple s ts → Derives .definition_in_chain s ts
  | in_chain_string {s ts} : Derives .string s ts → Derives .definition_in_chain s ts
  | in_chain_number {s ts} : Derives .number s ts → Derives .definition_in_chain s ts
  | in_chain_variable {s ts} : Derives .variable s ts → Derives .definition_in_chain s ts
  -- definition_initable
  | initable_variable {s ts} : Derives .variable s ts → Derives .definition_initable s ts
  | initable_tuple {s ts} : Derives .tuple s ts → Derives .definition_initable s ts
  -- definition_assignable
  | assignable_variable {s ts} : Derives .variable s ts → Derives .definition_assignable s ts
  | assignable_tuple {s ts} : Derives .tuple s ts → Derives .definition_assignable s ts
  | assignable_block {s ts} : Derives .block s ts → Derives .definition_assignable s ts
  | assignable_string {s ts} : Derives .string s ts → Derives .definition_assignable s ts
  | assignable_number {s ts} : Derives .number s ts → Derives .definition_assignable s ts
  -- block: seq($.block_start, repeat($.definition), $.block_end)
  | block {s a b c ts} : Lit "\x7b" a → Derives .definitions b ts → Lit "\x7d" c →
      s = a ++ b ++ c → Derives .block s [.block ts]
  -- if: prec.left(seq($.if_if, $.definition, $.definition, optional(seq($.if_else, $.definition))))
  | if_then {s a b c x y} : Lit "if" a → Derives .definition b [x] → Derives .definition c [y] →
      s = a ++ b ++ c → Derives .if_ s [.ifNode x y Option.none]
  | if_then_else {s a b c d e x y z} : Lit "if" a → Derives .definition b [x] →
      Derives .definition c [y] → Lit "else" d → Derives .definition e [z] →
      s = a ++ b ++ c ++ d ++ e → Derives .if_ s [.ifNode x y (some z)]
  -- func: seq($.func_arg, $.func_arrow, $.func_body)
  | func {s a b c x y} : Derives .definition_assignable a [x] → Lit "->" b →
      Derives .definition c [y] → s = a ++ b ++ c → Derives .func s [.func x y]
  -- init: seq($.init_to, $.init_colonequals, $.init_source)
  | init {s a b c x y} : Derives .definition_initable a [x] → Lit ":=" b →
      Derives .definition c [y] → s = a ++ b ++ c → Derives .init s [.init x y]
  -- assign: seq($.assign_to, $.assign_equals, $.assign_source)
  | assign {s a b c x y} : Derives .definition_assignable a [x] → Lit "=" b →
      Derives .definition c [y] → s = a ++ b ++ c → Derives .assign s [.assign x y]
  -- tuple: seq($.tuple_start, repeat(seq($.definition, $.tuple_separator)), $.tuple_end)
  | tuple {s a b c ts} : Lit "(" a → Derives .tuple_elems b ts → Lit ")" c →
      s = a ++ b ++ c → Derives .tuple s [.tuple ts]
  | tuple_elems_nil : Derives .tuple_elems [] []
  | tuple_elems_cons {s a b c t ts sep} : Derives .definition a [t] → Pat tuple_separator b sep →
      Derives .tuple_elems c ts → s = a ++ b ++ c → Derives .tuple_elems s (t :: ts)
  -- chain: seq($.chain_dot, $.definition_in_chain)
  | chain {s a b x} : Lit "." a → Derives .definition_in_chain b [x] →
      s = a ++ b → Derives .chain s [.chain x]
  -- number, variable: pattern tokens
  | number {s tok} : Pat number s tok → Derives .number s [.number tok]
  | variable_ {s tok} : Pat variable_pattern s tok → Derives .variable s [.variable tok]
  -- string: seq('"', $.string_content, '"')
  | string {s a b c tok} : Lit "\"" a → Pat string_content b tok → Lit "\"" c →
      s = a ++ b ++ c → Derives .string s [.string tok]

/-- The text is accepted by `source_file` with the top-level definitions `ts`. -/
def Accepts (s : Text) (ts : List Tree) : Prop := Derives .source_file s ts

/-! ## Enumerating the derivations of a text -/

/-- All ways to cut a text in two. -/
def splits : Text → List (Text × Text)
  | [] => [([], [])]
  | c :: cs => ([], c :: cs) :: (splits cs).map (fun x => (c :: x.1, x.2))

/-- The text after skipping none, some or all of its leading whitespace. -/
def afterSpaces : Text → List Text
  | [] => [[]]
  | c :: cs => (c :: cs) :: (if isSpace c then afterSpaces cs else [])

/-- Removes the literal `l` from the front of `s`. -/
def stripLit : Text → Text → Option Text
  | [], s => some s
  | _ :: _, [] => Option.none
  | c :: l, d :: s => if c = d then stripLit l s else Option.none

/-- The remainders after a literal token at the front of `s`. -/
def litP (l : String) (s : Text) : List Text :=
  (afterSpaces s).filterMap (stripLit l.toList)

/-- The (token, remainder) pairs of a pattern token at the front of `s`. -/
def patP (r : RE) (s : Text) : List (Text × Text) :=
  (afterSpaces s).flatMap fun s1 => (splits s1).filter fun x => r.fullMatch x.1

/-- The enumeration of `repeat(d)`, at most `k` iterations. -/
def repeatP (d : Text → List (Tree × Text)) : Nat → Text → List (List Tree × Text)
  | 0, s => [([], s)]
  | k + 1, s => ([], s) :: (d s).flatMap fun x =>
      (repeatP d k x.2).map fun y => (x.1 :: y.1, y.2)

/-- The enumeration of `repeat(seq(d, $.tuple_separator))`, at most `k` iterations. -/
def tupleElemsP (d : Text → List (Tree × Text)) : Nat → Text → List (List Tree × Text)
  | 0, s => [([], s)]
  | k + 1, s => ([], s) :: (d s).flatMap fun x => (patP tuple_separator x.2).flatMap fun sep =>
      (tupleElemsP d k sep.2).map fun y => (x.1 :: y.1, y.2)

/-- The enumeration of `number`. -/
def numberP (s : Text) : List (Tree × Text) :=
  (patP number s).map fun x => (.number x.1, x.2)

/-- The enumeration of `variable`. -/
def variableP (s : Text) : List (Tree × Text) :=
  (patP variable_pattern s).map fun x => (.variable x.1, x.2)

/-- The enumeration of `string`. -/
def stringP (s : Text) : List (Tree × Text) :=
  (litP "\"" s).flatMap fun s1 => (patP string_content s1).flatMap fun x =>
    (litP "\"" x.2).map fun s2 => (.string x.1, s2)

/-- The enumeration of `block`, given that of `definition`. -/
def blockP (d : Text → List (Tree × Text)) (s : Text) : List (Tree × Text) :=
  (litP "\x7b" s).flatMap fun s1 => (repeatP d s1.length s1).flatMap fun x =>
    (litP "\x7d" x.2).map fun s2 => (.block x.1, s2)

/-- The enumeration of `tuple`, given that of `definition`. -/
def tupleP (d : Text → List (Tree × Text)) (s : Text) : List (Tree × Text) :=
  (litP "(" s).flatMap fun s1 => (tupleElemsP d s1.length s1).flatMap fun x =>
    (litP ")" x.2).map fun s2 => (.tuple x.1, s2)

/-- The enumeration of `definition_in_chain`. -/
def inChainP (d : Text → List (Tree × Text)) (s : Text) : List (Tree × Text) :=
  blockP d s ++ tupleP d s ++ stringP s ++ numberP s ++ variableP s

/-- The enumeration of `definition_initable`. -/
def initableP (d : Text → List (Tree × Text)) (s : Text) : List (Tree × Text) :=
  variableP s ++ tupleP d s

/-- The enumeration of `definition_assignable`. -/
def assignableP (d : Text → List (Tree × Text)) (s : Text) : List (Tree × Text) :=
  variableP s ++ tupleP d s ++ blockP d s ++ stringP s ++ numberP s

/-- The enumeration of `chain`. -/
def chainP (d : Text → List (Tree × Text)) (s : Text) : List (Tree × Text) :=
  (litP "." s).flatMap fun s1 => (inChainP d s1).map fun x => (.chain x.1, x.2)

/-- The enumeration of `if`. -/
def ifP (d : Text → List (Tree × Text)) (s : Text) : List (Tree × Text) :=
  (litP "if" s).flatMap fun s1 => (d s1).flatMap fun c => (d c.2).flatMap fun t =>
    (.ifNode c.1 t.1 Option.none, t.2) ::
      (litP "else" t.2).flatMap fun s2 => (d s2).map fun e => (.ifNode c.1 t.1 (some e.1), e.2)

/-- The enumeration of `func`. -/
def funcP (d : Text → List (Tree × Text)) (s : Text) : List (Tree × Text) :=
  (assignableP d s).flatMap fun a => (litP "->" a.2).flatMap fun s1 =>
    (d s1).map fun b => (.func a.1 b.1, b.2)

/-- The enumeration of `init`. -/
def initP (d : Text → List (Tree × Text)) (s : Text) : List (Tree × Text) :=
  (initableP d s).flatMap fun a => (litP ":=" a.2).flatMap fun s1 =>
    (d s1).map fun b => (.init a.1 b.1, b.2)

/-- The enumeration of `assign`. -/
def assignP (d : Text → List (Tree × Text)) (s : Text) : List (Tree × Text) :=
  (assignableP d s).flatMap fun a => (litP "=" a.2).flatMap fun s1 =>
    (d s1).map fun b => (.assign a.1 b.1, b.2)

/-- The enumeration of `definition`: every (tree, remainder) such that `definition`
derives a front part of `s` of length at most `n` with that tree. -/
def definitionP : Nat → Text → List (Tree × Text)
  | 0, _ => []
  | n + 1, s =>
    initP (definitionP n) s ++ assignP (definitionP n) s ++ ifP (definitionP n) s ++
    funcP (definitionP n) s ++ blockP (definitionP n) s ++ tupleP (definitionP n) s ++
    chainP (definitionP n) s ++ stringP s ++ numberP s ++ variableP s

/-- The enumeration of `source_file`: every list of top-level definitions of `s`. -/
def sourceFileP (s : Text) : List (List Tree) :=
  ((repeatP (definitionP s.length) s.length s).filter fun x => allSpace x.2).map fun x => x.1

/-- What completeness of the enumeration says for each rule. -/
def CompleteFor : Sym → Text → List Tree → Prop
  | .source_file, s, ts => ts ∈ sourceFileP s
  | .definitions, s, ts => ∀ n k r, s.length ≤ n → s.length ≤ k →
      (ts, r) ∈ repeatP (definitionP n) k (s ++ r)
  | .tuple_elems, s, ts => ∀ n k r, s.length ≤ n → s.length ≤ k →
      (ts, r) ∈ tupleElemsP (definitionP n) k (s ++ r)
  | .definition, s, ts => ∀ n r t, s.length ≤ n → ts = [t] → (t, r) ∈ definitionP n (s ++ r)
  | .definition_in_chain, s, ts => ∀ n r t, s.length ≤ n + 1 → ts = [t] →
      (t, r) ∈ inChainP (definitionP n) (s ++ r)
  | .definition_initable, s, ts => ∀ n r t, s.length ≤ n + 1 → ts = [t] →
      (t, r) ∈ initableP (definitionP n) (s ++ r)
  | .definition_assignable, s, ts => ∀ n r t, s.length ≤ n + 1 → ts = [t] →
      (t, r) ∈ assignableP (definitionP n) (s ++ r)
  | .block, s, ts => ∀ n r t, s.length ≤ n + 1 → ts = [t] →
      (t, r) ∈ blockP (definitionP n) (s ++ r)
  | .if_, s, ts => ∀ n r t, s.length ≤ n + 1 → ts = [t] → (t, r) ∈ ifP (definitionP n) (s ++ r)
  | .func, s, ts => ∀ n r t, s.length ≤ n + 1 → ts = [t] →
      (t, r) ∈ funcP (definitionP n) (s ++ r)
  | .init, s, ts => ∀ n r t, s.length ≤ n + 1 → ts = [t] →
      (t, r) ∈ initP (definitionP n) (s ++ r)
  | .assign, s, ts => ∀ n r t, s.length ≤ n + 1 → ts = [t] →
      (t, r) ∈ assignP (definitionP n) (s ++ r)
  | .tuple, s, ts => ∀ n r t, s.length ≤ n + 1 → ts = [t] →
      (t, r) ∈ tupleP (definitionP n) (s ++ r)
  | .chain, s, ts => ∀ n r t, s.length ≤ n + 1 → ts = [t] →
      (t, r) ∈ chainP (definitionP n) (s ++ r)
  | .number, s, ts => ∀ r t, ts = [t] → (t, r) ∈ numberP (s ++ r)
  | .variable, s, ts => ∀ r t, ts = [t] → (t, r) ∈ variableP (s ++ r)
  | .string, s, ts => ∀ r t, ts = [t] → (t, r) ∈ stringP (s ++ r)

/-- The text of a run of chain links: a dot before each link. -/
def linksText (links : List (Text × Tree)) : Text :=
  (links.map fun x => '.' :: x.1).flatten

/-- The node is a `variable` or a `tuple`: what `definition_initable` derives. -/
def Tree.isInitable : Tree → Bool
  | .variable _ => true
  | .tuple _ => true
  | _ => false

/-- The node is one of `variable`, `tuple`, `block`, `string`, `number`: what
`definition_assignable` derives. -/
def Tree.isAssignable : Tree → Bool
  | .variable _ => true
  | .tuple _ => true
  | .block _ => true
  | .string _ => true
  | .number _ => true
  | _ => false

/-- The node is one of `block`, `tuple`, `string`, `number`, `variable`: what
`definition_in_chain` derives. -/
def Tree.isLink : Tree → Bool
  | .block _ => true
  | .tuple _ => true
  | .string _ => true
  | .number _ => true
  | .variable _ => true
  | _ => false

mutual
/-- All nodes of a tree, the root first. -/
def Tree.nodes : Tree → List Tree
  | .init a b => .init a b :: (Tree.nodes a ++ Tree.nodes b)
  | .assign a b => .assign a b :: (Tree.nodes a ++ Tree.nodes b)
  | .ifNode c t e => .ifNode c t e :: (Tree.nodes c ++ Tree.nodes t ++ Tree.nodesOpt e)
  | .func a b => .func a b :: (Tree.nodes a ++ Tree.nodes b)
  | .block xs => .block xs :: Tree.nodesList xs
  | .tuple xs => .tuple xs :: Tree.nodesList xs
  | .chain l => .chain l :: Tree.nodes l
  | .string c => [.string c]
  | .number c => [.number c]
  | .variable c => [.variable c]
/-- All nodes of an optional tree. -/
def Tree.nodesOpt : Option Tree → List Tree
  | Option.none => []
  | some t => Tree.nodes t
/-- All nodes of a list of trees. -/
def Tree.nodesList : List Tree → List Tree
  | [] => []
  | t :: ts => Tree.nodes t ++ Tree.nodesList ts
end

/-- The restriction the grammar puts on the node itself: the target of an `init`,
the target of an `assign`, the argument of a `func`, the link of a `chain`. -/
def Tree.restricted : Tree → Bool
  | .init a _ => a.isInitable
  | .assign a _ => a.isAssignable
  | .func a _ => a.isAssignable
  | .chain l => l.isLink
  | _ => true

/-- The text of a run of tuple elements: each element followed by its separator. -/
def elemsText (elems : List (Text × Text × Tree)) : Text :=
  (elems.map fun x => x.1 ++ x.2.1).flatten

/-- The characters a number literal is made of. -/
def isNumChar (c : Char) : Bool := isDigit c || c == '+' || c == '-' || c == '.'

/-- The left context of ` :=` in the text of C3: characters of a number literal, the
last one (if any) a digit. -/
def NumCtx (m : Text) : Prop :=
  allIn isNumChar m ∧ ∀ u d, m = u ++ [d] → isDigit d = true

/-- The text of the node ends with the else branch of an `if`: the node is an `if`
with an else, or ends with a definition (the source of an init or assign, the body of
a func, the then branch of an `if` without else) that does. -/
def Tree.endsWithElse : Tree → Bool
  | .ifNode _ _ (some _) => true
  | .ifNode _ t Option.none => Tree.endsWithElse t
  | .init _ s => Tree.endsWithElse s
  | .assign _ s => Tree.endsWithElse s
  | .func _ b => Tree.endsWithElse b
  | _ => false

/-- What `prec.left` on the `if` rule asks of an `if` node.  When the second definition
of an `if` is read and `else` comes next, an `if` inside it that is complete too could
take the `else` (continue) or leave it to the outer `if` (end).  A left-associative
rule ends as early as it can, so the `if` inside gets no else: the then branch of an
`if` never ends with the else branch of an `if`. -/
def Tree.leftAssocIf : Tree → Bool
  | .ifNode _ t _ => !Tree.endsWithElse t
  | _ => true

/-- The tree obeys `prec.left` of the `if` rule at every node. -/
def Tree.respectsPrecLeft (t : Tree) : Bool := (Tree.nodes t).all Tree.leftAssocIf

/-- A separator after a tuple element, written out: a comma followed by optional
whitespace, or one or more whitespace characters; like every token, the comma may
come after skipped whitespace. -/
def IsSeparator (x : Text) : Prop :=
  (∃ w ws, x = w ++ ',' :: ws ∧ allSpace w = true ∧ allSpace ws = true) ∨
  (x ≠ [] ∧ allSpace x = true)

/-- The text of a token node is matched by the pattern of its rule. -/
def Tree.tokenMatched : Tree → Bool
  | .string c => string_content.fullMatch c
  | .number c => RE.fullMatch Mers.number c
  | .variable c => variable_pattern.fullMatch c
  | _ => true

/-! ## The parser

The parser tree-sitter generates from the grammar returns at most one of the
derivations of a text.  What decides is not written in `grammar.js` rule by rule; it
is the meaning tree-sitter gives to the grammar:

* the lexer is asked for the next token with the set of token kinds the parse state
  expects, and only those are tried;
* among them the longest match wins, and a literal wins over a pattern that matches
  the same characters;
* whitespace before a token is skipped (`extras`), except where a token that matches
  it, `tuple_separator`, is expected;
* a rule reads on as long as the next token continues it, and `prec.left` on `if` makes
  an `if` that could end or take an `else` of an enclosing `if` end.
-/

/-- The kinds of token of the grammar, and the end of the text. -/
inductive Kind where
  | block_start | block_end | tuple_start | tuple_end | chain_dot | quote
  | if_if | if_else | func_arrow | init_colonequals | assign_equals
  | tuple_separator | number | variable | eof
  deriving DecidableEq

/-- The text of a literal token. -/
def Kind.literal : Kind → Option String
  | .block_start => some "\x7b"
  | .block_end => some "\x7d"
  | .tuple_start => some "("
  | .tuple_end => some ")"
  | .chain_dot => some "."
  | .quote => some "\""
  | .if_if => some "if"
  | .if_else => some "else"
  | .func_arrow => some "->"
  | .init_colonequals => some ":="
  | .assign_equals => some "="
  | _ => Option.none

/-- The pattern of a pattern token. -/
def Kind.pattern : Kind → Option RE
  | .tuple_separator => some Mers.tuple_separator
  | .number => some Mers.number
  | .variable => some variable_pattern
  | _ => Option.none

/-- All token kinds, in the order in which the lexer prefers them when two match the
same number of characters: literals before patterns, patterns in the order of the
grammar. -/
def Kind.all : List Kind :=
  [.block_start, .block_end, .tuple_start, .tuple_end, .chain_dot, .quote, .if_if, .if_else,
    .func_arrow, .init_colonequals, .assign_equals, .tuple_separator, .number, .variable]

/-- The length of the longest front part of the text that the pattern matches. -/
def longestMatch (r : RE) : Text → Option Nat
  | [] => if r.nullable then some 0 else Option.none
  | c :: cs =>
    match longestMatch (r.deriv c) cs with
    | some n => some (n + 1)
    | Option.none => if r.nullable then some 0 else Option.none

/-- The number of characters the token kind matches at the front of the text. -/
def Kind.matchLength (k : Kind) (s : Text) : Option Nat :=
  match k.literal, k.pattern with
  | some l, _ => if l.toList.isPrefixOf s then some l.toList.length else Option.none
  | Option.none, some r =>
    match longestMatch r s with
    | some 0 => Option.none
    | x => x
  | Option.none, Option.none => Option.none

/-- The longest match among the candidates; the earlier one on a tie. -/
def bestToken : List (Kind × Nat) → Option (Kind × Nat)
  | [] => Option.none
  | (k, n) :: rest =>
    match bestToken rest with
    | some (k1, n1) => if n < n1 then some (k1, n1) else some (k, n)
    | Option.none => some (k, n)

/-- The candidates: every valid kind that matches, with the length of its match. -/
def candidates (valid : List Kind) (s : Text) : List (Kind × Nat) :=
  (Kind.all.filter fun k => valid.contains k).filterMap fun k =>
    (k.matchLength s).map fun n => (k, n)

/-- The lexer of a parse state in which the kinds `valid` are expected: the next
token (kind, text) and the text after it.  Whitespace before the token is skipped
(`extras`), except where `tuple_separator` is valid: there whitespace is the token.
Among the valid kinds the longest match wins, and a literal wins a tie. -/
def lex (valid : List Kind) (s : Text) : Option (Kind × Text × Text) :=
  let s1 := if valid.contains .tuple_separator then s else s.dropWhile isSpace
  match s1 with
  | [] => if valid.contains .eof then some (.eof, [], []) else Option.none
  | _ =>
    match bestToken (candidates valid s1) with
    | some (k, n) => some (k, s1.take n, s1.drop n)
    | Option.none => Option.none

/-- What the last primary of a definition can still become when the next token is
read: nothing (a chain link), the target of an assign or the argument of a func, or
also the target of an init. -/
inductive Cont where
  | link | assignable | initable
  deriving DecidableEq

/-- The tokens that continue a primary. -/
def Cont.valid : Cont → List Kind
  | .link => []
  | .assignable => [.func_arrow, .assign_equals]
  | .initable => [.func_arrow, .assign_equals, .init_colonequals]

/-- The tokens a definition starts with. -/
def firstOfDefinition : List Kind :=
  [.block_start, .tuple_start, .chain_dot, .quote, .if_if, .number, .variable]

/-- What may follow a definition where it stands: another definition, the end of a
block, a tuple separator, an `else`, the end of the text. -/
structure Follow where
  definition : Bool
  block_end : Bool
  tuple_separator : Bool
  if_else : Bool
  eof : Bool

/-- The tokens that may follow a definition. -/
def Follow.valid (f : Follow) : List Kind :=
  (if f.definition then firstOfDefinition else []) ++
  (if f.block_end then [.block_end] else []) ++
  (if f.tuple_separator then [.tuple_separator] else []) ++
  (if f.if_else then [.if_else] else []) ++
  (if f.eof then [.eof] else [])

/-- After a top-level definition: a definition or the end of the text. -/
def Follow.top : Follow := ⟨true, false, false, false, true⟩

/-- After a definition of a block: a definition or `}`. -/
def Follow.inBlock : Follow := ⟨true, true, false, false, false⟩

/-- After an element of a tuple: a separator. -/
def Follow.inTuple : Follow := ⟨false, false, true, false, false⟩

/-- After the condition of an `if`: the definition of the then branch. -/
def Follow.condition : Follow := ⟨true, false, false, false, false⟩

/-- After the then branch of an `if`: an `else`, or what follows the `if`. -/
def Follow.thenBranch (f : Follow) : Follow := { f with if_else := true }

/-- The parser of a definition, of its tree, the kind of its last primary and the
text left. -/
abbrev DefParser := Follow → List Kind → Text → Option (Tree × Cont × Text)

/-- The parser of `repeat($.definition)` up to the token that ends it: `}` in a block,
the end of the text at top level.  `valid` are the tokens expected next. -/
def parseDefinitions (d : DefParser) (f : Follow) :
    Nat → List Kind → Text → Option (List Tree × Text)
  | 0, _, _ => Option.none
  | k + 1, valid, s =>
    match lex valid s with
    | some (.block_end, _, r) => some ([], r)
    | some (.eof, _, r) => some ([], r)
    | _ =>
      match d f valid s with
      | some (t, c, r) =>
        match parseDefinitions d f k (c.valid ++ f.valid) r with
        | some (ts, r1) => some (t :: ts, r1)
        | Option.none => Option.none
      | Option.none => Option.none

/-- The parser of `repeat(seq($.definition, $.tuple_separator))` up to `)`. -/
def parseElements (d : DefParser) : Nat → Text → Option (List Tree × Text)
  | 0, _ => Option.none
  | k + 1, s =>
    match lex (firstOfDefinition ++ [.tuple_end]) s with
    | some (.tuple_end, _, r) => some ([], r)
    | _ =>
      match d Follow.inTuple (firstOfDefinition ++ [.tuple_end]) s with
      | some (t, c, r) =>
        match lex (c.valid ++ Follow.inTuple.valid) r with
        | some (.tuple_separator, _, r1) =>
          match parseElements d k r1 with
          | some (ts, r2) => some (t :: ts, r2)
          | Option.none => Option.none
        | _ => Option.none
      | Option.none => Option.none

/-- The parser of the rest of a string, after its opening quote: the content is the
longest match of `string_content`, then the closing quote. -/
def parseString (s : Text) : Option (Tree × Text) :=
  match longestMatch string_content s with
  | some (n + 1) =>
    match lex [.quote] (s.drop (n + 1)) with
    | some (.quote, _, r) => some (.string (s.take (n + 1)), r)
    | _ => Option.none
  | _ => Option.none

/-- The parser of a primary whose first token has been read. -/
def parsePrimary (d : DefParser) (k : Kind) (tok r : Text) : Option (Tree × Cont × Text) :=
  match k with
  | .variable => some (.variable tok, .initable, r)
  | .number => some (.number tok, .assignable, r)
  | .quote =>
    match parseString r with
    | some (t, r1) => some (t, .assignable, r1)
    | Option.none => Option.none
  | .block_start =>
    match parseDefinitions d Follow.inBlock (r.length + 1)
        (firstOfDefinition ++ [.block_end]) r with
    | some (ts, r1) => some (.block ts, .assignable, r1)
    | Option.none => Option.none
  | .tuple_start =>
    match parseElements d (r.length + 1) r with
    | some (ts, r1) => some (.tuple ts, .initable, r1)
    | Option.none => Option.none
  | _ => Option.none

/-- The parser after a primary in the place of a definition: `:=`, `=` or `->` makes
it the target of an init or assign or the argument of a func; any other token ends
the definition. -/
def parseAfterPrimary (d : DefParser) (f : Follow) (p : Tree) (c : Cont) (r : Text) :
    Option (Tree × Cont × Text) :=
  match lex (c.valid ++ f.valid) r with
  | some (.init_colonequals, _, r1) =>
    match d f firstOfDefinition r1 with
    | some (y, c1, r2) => some (.init p y, c1, r2)
    | Option.none => Option.none
  | some (.assign_equals, _, r1) =>
    match d f firstOfDefinition r1 with
    | some (y, c1, r2) => some (.assign p y, c1, r2)
    | Option.none => Option.none
  | some (.func_arrow, _, r1) =>
    match d f firstOfDefinition r1 with
    | some (y, c1, r2) => some (.func p y, c1, r2)
    | Option.none => Option.none
  | _ => some (p, c, r)

/-- The parser of an `if` after its keyword.  `prec.left`: where an `else` may follow
the `if` itself (it ends the then branch of another `if`), the rule ends without
taking the `else`. -/
def parseIf (d : DefParser) (f : Follow) (r : Text) : Option (Tree × Cont × Text) :=
  match d Follow.condition firstOfDefinition r with
  | some (x, cx, r1) =>
    match d f.thenBranch (cx.valid ++ Follow.condition.valid) r1 with
    | some (y, cy, r2) =>
      if f.if_else then some (.ifNode x y Option.none, cy, r2)
      else
        match lex (cy.valid ++ f.thenBranch.valid) r2 with
        | some (.if_else, _, r3) =>
          match d f firstOfDefinition r3 with
          | some (z, cz, r4) => some (.ifNode x y (some z), cz, r4)
          | Option.none => Option.none
        | _ => some (.ifNode x y Option.none, cy, r2)
    | Option.none => Option.none
  | Option.none => Option.none

/-- The parser of a definition: `n` bounds the depth of nesting. -/
def parseDefinition : Nat → DefParser
  | 0, _, _, _ => Option.none
  | n + 1, f, valid, s =>
    match lex valid s with
    | some (.chain_dot, _, r) =>
      match lex [.block_start, .tuple_start, .quote, .number, .variable] r with
      | some (k, tok, r1) =>
        match parsePrimary (parseDefinition n) k tok r1 with
        | some (t, _, r2) => some (.chain t, .link, r2)
        | Option.none => Option.none
      | Option.none => Option.none
    | some (.if_if, _, r) => parseIf (parseDefinition n) f r
    | some (k, tok, r) =>
      match parsePrimary (parseDefinition n) k tok r with
      | some (p, c, r1) => parseAfterPrimary (parseDefinition n) f p c r1
      | Option.none => Option.none
    | Option.none => Option.none

/-- The parser of `source_file`: the top-level definitions of a text, or nothing when
the text is rejected. -/
def parseFile (s : Text) : Option (List Tree) :=
  match parseDefinitions (parseDefinition (s.length + 1)) Follow.top (s.length + 1)
      (firstOfDefinition ++ [.eof]) s with
  | some (ts, _) => some ts
  | Option.none => Option.none

/-- The text of a token is the literal of its kind, or is matched by its pattern. -/
def Kind.Matches (k : Kind) (tok : Text) : Prop :=
  (∀ l, k.literal = some l → tok = l.toList) ∧
  (∀ r, k.pattern = some r → r.fullMatch tok = true)

/-- A parser of definitions is sound: the tree it returns is derived by `definition`
from the text it has read. -/
def DefParser.Sound (d : DefParser) : Prop :=
  ∀ f valid s t c r, d f valid s = some (t, c, r) →
    ∃ a, s = a ++ r ∧ Derives .definition a [t]

/-- A parser of definitions obeys `prec.left` of the `if` rule: the tree it returns
does at every node, and where an `else` may follow the definition, the tree does not
end with the else branch of an `if`. -/
def DefParser.LeftAssoc (d : DefParser) : Prop :=
  ∀ f valid s t c r, d f valid s = some (t, c, r) →
    Tree.respectsPrecLeft t = true ∧ (f.if_else = true → Tree.endsWithElse t = false)

/-- The text at which the lexer looks for the token: whitespace is skipped, except
where `tuple_separator` is valid. -/
def tokenStart (valid : List Kind) (s : Text) : Text :=
  if valid.contains .tuple_separator then s else s.dropWhile isSpace

/-- No token of the kind, at the front of `u ++ x`, is longer than `u`. -/
def Kind.Bounded (k : Kind) (u x : Text) : Prop :=
  ∀ m, u.length < m → m ≤ (u ++ x).length → ¬ k.Matches ((u ++ x).take m)

/-- Text `x` added behind a text leaves a parse alone that has left `r` over: nothing
is added, or a `)` is left over, beyond which no token reaches. -/
def Free (x r : Text) : Prop := x = [] ∨ ')' ∈ r

/-- The parser `d2` does what `d1` does, also when the text `x` is added behind. -/
def DefParser.Extends (d1 d2 : DefParser) (x : Text) : Prop :=
  ∀ f valid s t c r, d1 f valid s = some (t, c, r) → Free x r →
    d2 f valid (s ++ x) = some (t, c, r ++ x)

/-! ## The matcher and the languages of the four patterns -/
namespace RE

theorem mem_lang_cls (p : Char → Bool) (w : Text) :
    w ∈ (cls p).lang ↔ ∃ c, w = [c] ∧ p c = true := Iff.rfl

theorem nullable_iff (r : RE) : r.nullable = true ↔ [] ∈ r.lang := by
  induction r with
  | none => simp [nullable, lang]
  | eps => simp [nullable, lang]
  | cls p => simp [nullable, mem_lang_cls]
  | seq a b iha ihb => simp [nullable, lang, Language.mem_mul, iha, ihb]
  | alt a b iha ihb => simp [nullable, lang, Language.mem_add, iha, ihb]
  | star a _ => simp [nullable, lang, Language.nil_mem_kstar]

theorem cons_mem_mul (A B : Language Char) (c : Char) (w : Text) :
    c :: w ∈ A * B ↔ ([] ∈ A ∧ c :: w ∈ B) ∨ ∃ u v, c :: u ∈ A ∧ v ∈ B ∧ u ++ v = w := by
  rw [Language.mem_mul]
  constructor
  · rintro ⟨x, hx, y, hy, hxy⟩
    cases x with
    | nil => left; simp at hxy; subst hxy; exact ⟨hx, hy⟩
    | cons d u =>
      right
      simp at hxy
      obtain ⟨rfl, rfl⟩ := hxy
      exact ⟨u, y, hx, hy, rfl⟩
  · rintro (⟨h1, h2⟩ | ⟨u, v, h1, h2, rfl⟩)
    · exact ⟨[], h1, c :: w, h2, rfl⟩
    · exact ⟨c :: u, h1, v, h2, rfl⟩

theorem cons_mem_kstar (A : Language Char) (c : Char) (w : Text) :
    c :: w ∈ KStar.kstar A ↔ ∃ u v, c :: u ∈ A ∧ v ∈ KStar.kstar A ∧ u ++ v = w := by
  constructor
  · intro h
    rw [Language.mem_kstar_iff_exists_nonempty] at h
    obtain ⟨S, hS, hall⟩ := h
    cases S with
    | nil => simp at hS
    | cons x S =>
      have hx := hall x (List.mem_cons_self _ _)
      cases x with
      | nil => exact absurd rfl hx.2
      | cons d u =>
        simp at hS
        obtain ⟨rfl, rfl⟩ := hS
        refine ⟨u, S.flatten, hx.1, ?_, rfl⟩
        rw [Language.mem_kstar]
        exact ⟨S, rfl, fun y hy => (hall y (List.mem_cons_of_mem _ hy)).1⟩
  · rintro ⟨u, v, h1, h2, rfl⟩
    rw [Language.mem_kstar] at h2 ⊢
    obtain ⟨S, rfl, hS⟩ := h2
    refine ⟨(c :: u) :: S, by simp, ?_⟩
    intro y hy
    rcases List.mem_cons.1 hy with rfl | hy
    · exact h1
    · exact hS y hy

theorem deriv_lang (r : RE) (c : Char) (w : Text) : w ∈ (r.deriv c).lang ↔ c :: w ∈ r.lang := by
  induction r generalizing w with
  | none => simp [deriv, lang]
  | eps => simp [deriv, lang]
  | cls p =>
    rw [mem_lang_cls]
    by_cases h : p c = true
    · simp only [deriv, h, lang, if_true, Language.mem_one]
      constructor
      · rintro rfl; exact ⟨c, rfl, h⟩
      · rintro ⟨d, hd, _⟩
        simp at hd
        exact hd.2
    · simp only [deriv, h, lang]
      constructor
      · intro h1; exact absurd h1 (Language.not_mem_zero _)
      · rintro ⟨d, hd, hp⟩
        simp at hd
        rw [← hd.1] at hp
        exact absurd hp h
  | seq a b iha ihb =>
    simp only [deriv, lang]
    rw [cons_mem_mul]
    by_cases h : a.nullable = true
    · simp only [h, if_true, lang, Language.mem_add, Language.mem_mul, iha, ihb]
      rw [nullable_iff] at h
      constructor
      · rintro (⟨u, hu, v, hv, rfl⟩ | h2)
        · exact Or.inr ⟨u, v, hu, hv, rfl⟩
        · exact Or.inl ⟨h, h2⟩
      · rintro (⟨_, h2⟩ | ⟨u, v, hu, hv, rfl⟩)
        · exact Or.inr h2
        · exact Or.inl ⟨u, hu, v, hv, rfl⟩
    · simp only [h, lang, Language.mem_mul, iha]
      have h0 : ¬ [] ∈ a.lang := fun h1 => h ((nullable_iff a).2 h1)
      constructor
      · rintro ⟨u, hu, v, hv, rfl⟩
        exact Or.inr ⟨u, v, hu, hv, rfl⟩
      · rintro (⟨h1, _⟩ | ⟨u, v, hu, hv, rfl⟩)
        · exact absurd h1 h0
        · exact ⟨u, hu, v, hv, rfl⟩
  | alt a b iha ihb => simp [deriv, lang, Language.mem_add, iha, ihb]
  | star a iha =>
    simp only [deriv, lang]
    rw [cons_mem_kstar, Language.mem_mul]
    constructor
    · rintro ⟨u, hu, v, hv, rfl⟩
      exact ⟨u, v, (iha u).1 hu, hv, rfl⟩
    · rintro ⟨u, v, hu, hv, rfl⟩
      exact ⟨u, (iha u).2 hu, v, hv, rfl⟩

/-- The matcher decides membership in the language of the expression. -/
theorem fullMatch_iff (r : RE) (w : Text) : r.fullMatch w = true ↔ w ∈ r.lang := by
  induction w generalizing r with
  | nil => simp [fullMatch, nullable_iff]
  | cons c w ih => simp [fullMatch, ih, deriv_lang]

end RE
namespace RE

theorem mem_star_cls (p : Char → Bool) (w : Text) :
    w ∈ (star (cls p)).lang ↔ ∀ c ∈ w, p c = true := by
  induction w with
  | nil => simp [lang, Language.nil_mem_kstar]
  | cons d w ih =>
    show d :: w ∈ KStar.kstar (cls p).lang ↔ _
    rw [cons_mem_kstar]
    constructor
    · rintro ⟨u, v, hu, hv, rfl⟩
      rw [mem_lang_cls] at hu
      obtain ⟨e, he, hp⟩ := hu
      simp at he
      obtain ⟨rfl, rfl⟩ := he
      intro c hc
      rcases List.mem_cons.1 hc with rfl | hc
      · exact hp
      · exact ih.1 hv c (by simpa using hc)
    · intro h
      refine ⟨[], w, ⟨d, rfl, h d (List.mem_cons_self _ _)⟩, ?_, rfl⟩
      exact ih.2 (fun c hc => h c (List.mem_cons_of_mem _ hc))

theorem mem_plus_cls (p : Char → Bool) (w : Text) :
    w ∈ (plus (cls p)).lang ↔ w ≠ [] ∧ ∀ c ∈ w, p c = true := by
  show w ∈ (cls p).lang * (star (cls p)).lang ↔ _
  rw [Language.mem_mul]
  constructor
  · rintro ⟨u, hu, v, hv, rfl⟩
    rw [mem_lang_cls] at hu
    obtain ⟨e, rfl, hp⟩ := hu
    rw [mem_star_cls] at hv
    refine ⟨by simp, ?_⟩
    intro c hc
    rcases List.mem_cons.1 hc with rfl | hc
    · exact hp
    · exact hv c hc
  · rintro ⟨hne, h⟩
    cases w with
    | nil => exact absurd rfl hne
    | cons d w =>
      refine ⟨[d], ⟨d, rfl, h d (List.mem_cons_self _ _)⟩, w, ?_, rfl⟩
      rw [mem_star_cls]
      exact fun c hc => h c (List.mem_cons_of_mem _ hc)

theorem mem_opt (a : RE) (w : Text) : w ∈ (opt a).lang ↔ w = [] ∨ w ∈ a.lang := by
  show w ∈ (1 : Language Char) + a.lang ↔ _
  rw [Language.mem_add, Language.mem_one]

theorem mem_chr (c : Char) (w : Text) : w ∈ (chr c).lang ↔ w = [c] := by
  show w ∈ (cls _).lang ↔ _
  rw [mem_lang_cls]
  constructor
  · rintro ⟨d, rfl, hd⟩
    simp at hd
    rw [hd]
  · rintro rfl
    exact ⟨c, rfl, by simp⟩

theorem mem_seq (a b : RE) (w : Text) :
    w ∈ (seq a b).lang ↔ ∃ u v, u ∈ a.lang ∧ v ∈ b.lang ∧ w = u ++ v := by
  show w ∈ a.lang * b.lang ↔ _
  rw [Language.mem_mul]
  constructor
  · rintro ⟨u, hu, v, hv, rfl⟩; exact ⟨u, v, hu, hv, rfl⟩
  · rintro ⟨u, v, hu, hv, rfl⟩; exact ⟨u, hu, v, hv, rfl⟩

theorem mem_alt (a b : RE) (w : Text) : w ∈ (alt a b).lang ↔ w ∈ a.lang ∨ w ∈ b.lang := by
  show w ∈ a.lang + b.lang ↔ _
  rw [Language.mem_add]

end RE

/-- What the number pattern matches: a sign-or-nothing and digits, or unsigned
digits, a dot and digits. -/
theorem number_fullMatch_iff (w : Text) :
    number.fullMatch w = true ↔
      (∃ sg ds, w = sg ++ ds ∧ (sg = [] ∨ ∃ c, sg = [c] ∧ isSign c = true) ∧
        ds ≠ [] ∧ allIn isDigit ds) ∨
      (∃ ds fs, w = ds ++ '.' :: fs ∧ ds ≠ [] ∧ allIn isDigit ds ∧ fs ≠ [] ∧ allIn isDigit fs) := by
  rw [RE.fullMatch_iff, number, RE.mem_alt]
  apply or_congr
  · rw [RE.mem_seq]
    constructor
    · rintro ⟨u, v, hu, hv, rfl⟩
      rw [RE.mem_opt, RE.mem_lang_cls] at hu
      rw [RE.mem_plus_cls] at hv
      exact ⟨u, v, rfl, hu, hv⟩
    · rintro ⟨u, v, rfl, hu, hv⟩
      refine ⟨u, v, ?_, ?_, rfl⟩
      · rw [RE.mem_opt, RE.mem_lang_cls]; exact hu
      · rw [RE.mem_plus_cls]; exact hv
  · rw [RE.mem_seq]
    constructor
    · rintro ⟨u, v, hu, hv, rfl⟩
      rw [RE.mem_seq] at hv
      obtain ⟨d, f, hd, hf, rfl⟩ := hv
      rw [RE.mem_chr] at hd
      subst hd
      rw [RE.mem_plus_cls] at hu hf
      exact ⟨u, f, rfl, hu.1, hu.2, hf.1, hf.2⟩
    · rintro ⟨u, f, rfl, h1, h2, h3, h4⟩
      refine ⟨u, '.' :: f, ?_, ?_, rfl⟩
      · rw [RE.mem_plus_cls]; exact ⟨h1, h2⟩
      · rw [RE.mem_seq]
        refine ⟨['.'], f, ?_, ?_, rfl⟩
        · rw [RE.mem_chr]
        · rw [RE.mem_plus_cls]; exact ⟨h3, h4⟩

/-- What the variable pattern matches: one or more characters of its class (the
optional `&` is itself in the class). -/
theorem variable_fullMatch_iff (w : Text) :
    variable_pattern.fullMatch w = true ↔ w ≠ [] ∧ allIn isVariableChar w := by
  rw [RE.fullMatch_iff, variable_pattern, RE.mem_seq]
  constructor
  · rintro ⟨u, v, hu, hv, rfl⟩
    rw [RE.mem_plus_cls] at hv
    rw [RE.mem_opt, RE.mem_chr] at hu
    refine ⟨by simp [hv.1], ?_⟩
    intro c hc
    rcases List.mem_append.1 hc with h | h
    · rcases hu with rfl | rfl
      · simp at h
      · simp at h; subst h; decide
    · exact hv.2 c h
  · rintro ⟨h1, h2⟩
    refine ⟨[], w, ?_, ?_, rfl⟩
    · rw [RE.mem_opt]; exact Or.inl rfl
    · rw [RE.mem_plus_cls]; exact ⟨h1, h2⟩

/-- What the tuple separator pattern matches: a comma and whitespace, or one or
more whitespace characters. -/
theorem tuple_separator_fullMatch_iff (w : Text) :
    tuple_separator.fullMatch w = true ↔
      (∃ ws, w = ',' :: ws ∧ allSpace ws = true) ∨ (w ≠ [] ∧ allSpace w = true) := by
  rw [RE.fullMatch_iff, tuple_separator, RE.mem_alt, RE.mem_plus_cls, RE.mem_seq]
  simp only [allSpace, List.all_eq_true]
  apply or_congr
  · constructor
    · rintro ⟨u, v, hu, hv, rfl⟩
      rw [RE.mem_chr] at hu
      subst hu
      rw [RE.mem_star_cls] at hv
      exact ⟨v, rfl, hv⟩
    · rintro ⟨ws, rfl, h⟩
      refine ⟨[','], ws, ?_, ?_, rfl⟩
      · rw [RE.mem_chr]
      · rw [RE.mem_star_cls]; exact h
  · exact Iff.rfl

/-- What the string content pattern matches: one or more characters other than
the double quote. -/
theorem string_content_fullMatch_iff (w : Text) :
    string_content.fullMatch w = true ↔ w ≠ [] ∧ ∀ c ∈ w, c ≠ '"' := by
  have hl : (RE.alt (.cls isPlainStringChar) (.cls isBackslashOrDot)).lang =
      (RE.cls (fun c => !(c == '"'))).lang := by
    ext x
    rw [RE.mem_alt, RE.mem_lang_cls, RE.mem_lang_cls, RE.mem_lang_cls]
    constructor
    · rintro (⟨c, rfl, h⟩ | ⟨c, rfl, h⟩)
      · refine ⟨c, rfl, ?_⟩
        simp [isPlainStringChar] at h
        simp [h.2]
      · refine ⟨c, rfl, ?_⟩
        simp [isBackslashOrDot] at h
        rcases h with rfl | rfl <;> decide
    · rintro ⟨c, rfl, h⟩
      by_cases hb : c = '\\'
      · right; exact ⟨c, rfl, by simp [isBackslashOrDot, hb]⟩
      · left; refine ⟨c, rfl, ?_⟩
        simp at h
        simp [isPlainStringChar, hb, h]
  have hp : (string_content).lang = (RE.plus (.cls (fun c => !(c == '"')))).lang := by
    show _ * KStar.kstar _ = _ * KStar.kstar _
    rw [hl]
  rw [RE.fullMatch_iff, hp, RE.mem_plus_cls]
  simp

/-! ## Derivations are not empty -/

theorem lit_ne_nil {l : String} {s : Text} (h : Lit l s) (hl : l.toList ≠ []) : s ≠ [] := by
  obtain ⟨ws, _, rfl⟩ := h
  intro h0
  exact hl (List.append_eq_nil.1 h0).2

theorem lit_length_pos {l : String} {s : Text} (h : Lit l s) (hl : l.toList ≠ []) :
    0 < s.length :=
  List.length_pos.2 (lit_ne_nil h hl)

theorem pat_ne_nil {r : RE} {s tok : Text} (h : Pat r s tok) (hr : r.fullMatch [] = false) :
    s ≠ [] := by
  obtain ⟨ws, _, hm, rfl⟩ := h
  intro h0
  rw [(List.append_eq_nil.1 h0).2, hr] at hm
  exact Bool.noConfusion hm

theorem pat_length_pos {r : RE} {s tok : Text} (h : Pat r s tok) (hr : r.fullMatch [] = false) :
    0 < s.length :=
  List.length_pos.2 (pat_ne_nil h hr)

/-- No rule but the repetitions derives the empty text. -/
theorem derives_length_pos {X : Sym} {s : Text} {ts : List Tree} (h : Derives X s ts) :
    X ≠ .source_file → X ≠ .definitions → X ≠ .tuple_elems → 0 < s.length := by
  induction h with
  | source_file _ _ _ _ => intro h; exact absurd rfl h
  | definitions_nil => intro _ h; exact absurd rfl h
  | definitions_cons _ _ _ _ _ => intro _ h; exact absurd rfl h
  | tuple_elems_nil => intro _ _ h; exact absurd rfl h
  | tuple_elems_cons _ _ _ _ _ _ => intro _ _ h; exact absurd rfl h
  | block ha _ _ hs _ =>
    intro _ _ _; subst hs
    have := lit_length_pos ha (by decide)
    simp only [List.length_append]; omega
  | if_then ha _ _ hs _ _ =>
    intro _ _ _; subst hs
    have := lit_length_pos ha (by decide)
    simp only [List.length_append]; omega
  | if_then_else ha _ _ _ _ hs _ _ _ =>
    intro _ _ _; subst hs
    have := lit_length_pos ha (by decide)
    simp only [List.length_append]; omega
  | func _ hb _ hs _ _ =>
    intro _ _ _; subst hs
    have := lit_length_pos hb (by decide)
    simp only [List.length_append]; omega
  | init _ hb _ hs _ _ =>
    intro _ _ _; subst hs
    have := lit_length_pos hb (by decide)
    simp only [List.length_append]; omega
  | assign _ hb _ hs _ _ =>
    intro _ _ _; subst hs
    have := lit_length_pos hb (by decide)
    simp only [List.length_append]; omega
  | tuple ha _ _ hs _ =>
    intro _ _ _; subst hs
    have := lit_length_pos ha (by decide)
    simp only [List.length_append]; omega
  | chain ha _ hs _ =>
    intro _ _ _; subst hs
    have := lit_length_pos ha (by decide)
    simp only [List.length_append]; omega
  | number hp => intro _ _ _; exact pat_length_pos hp (by decide)
  | variable_ hp => intro _ _ _; exact pat_length_pos hp (by decide)
  | string ha _ _ hs =>
    intro _ _ _; subst hs
    have := lit_length_pos ha (by decide)
    simp only [List.length_append]; omega
  | _ _ ih => intro _ _ _; exact ih (by decide) (by decide) (by decide)


/-! ## Completeness of the enumeration -/

theorem mem_afterSpaces (ws s : Text) (h : allSpace ws = true) : s ∈ afterSpaces (ws ++ s) := by
  induction ws with
  | nil => cases s <;> simp [afterSpaces]
  | cons w ws ih =>
    simp only [allSpace, List.all_cons, Bool.and_eq_true] at h
    simp only [List.cons_append, afterSpaces, h.1, if_true]
    exact List.mem_cons_of_mem _ (ih h.2)

theorem stripLit_append (l r : Text) : stripLit l (l ++ r) = some r := by
  induction l with
  | nil => cases r <;> rfl
  | cons c l ih => simp [stripLit, ih]

theorem mem_litP {l : String} {a : Text} (h : Lit l a) (r : Text) : r ∈ litP l (a ++ r) := by
  obtain ⟨ws, hws, rfl⟩ := h
  rw [litP, List.mem_filterMap]
  refine ⟨l.toList ++ r, ?_, stripLit_append _ _⟩
  rw [List.append_assoc]
  exact mem_afterSpaces ws _ hws

theorem mem_splits (p r : Text) : (p, r) ∈ splits (p ++ r) := by
  induction p with
  | nil => cases r <;> simp [splits]
  | cons c p ih =>
    simp only [List.cons_append, splits, List.mem_cons, List.mem_map]
    exact Or.inr ⟨(p, r), ih, rfl⟩

theorem mem_patP {re : RE} {a tok : Text} (h : Pat re a tok) (r : Text) :
    (tok, r) ∈ patP re (a ++ r) := by
  obtain ⟨ws, hws, hm, rfl⟩ := h
  rw [patP, List.mem_flatMap]
  refine ⟨tok ++ r, ?_, ?_⟩
  · rw [List.append_assoc]
    exact mem_afterSpaces ws _ hws
  · rw [List.mem_filter]
    exact ⟨mem_splits tok r, hm⟩

theorem mem_repeatP_cons {d : Text → List (Tree × Text)} {k : Nat} {s r1 r : Text} {t : Tree}
    {ts : List Tree} (h1 : (t, r1) ∈ d s) (h2 : (ts, r) ∈ repeatP d k r1) :
    (t :: ts, r) ∈ repeatP d (k + 1) s := by
  simp only [repeatP, List.mem_cons, List.mem_flatMap, List.mem_map]
  exact Or.inr ⟨(t, r1), h1, (ts, r), h2, rfl⟩

theorem mem_repeatP_nil (d : Text → List (Tree × Text)) (k : Nat) (s : Text) :
    ([], s) ∈ repeatP d k s := by
  cases k <;> simp [repeatP]

theorem mem_tupleElemsP_cons {d : Text → List (Tree × Text)} {k : Nat} {s r1 r2 r sep : Text}
    {t : Tree} {ts : List Tree} (h1 : (t, r1) ∈ d s) (h2 : (sep, r2) ∈ patP tuple_separator r1)
    (h3 : (ts, r) ∈ tupleElemsP d k r2) : (t :: ts, r) ∈ tupleElemsP d (k + 1) s := by
  simp only [tupleElemsP, List.mem_cons, List.mem_flatMap, List.mem_map]
  exact Or.inr ⟨(t, r1), h1, (sep, r2), h2, (ts, r), h3, rfl⟩

theorem mem_tupleElemsP_nil (d : Text → List (Tree × Text)) (k : Nat) (s : Text) :
    ([], s) ∈ tupleElemsP d k s := by
  cases k <;> simp [tupleElemsP]

theorem mem_definitionP_succ (n : Nat) (s : Text) (x : Tree × Text) :
    x ∈ definitionP (n + 1) s ↔
      x ∈ initP (definitionP n) s ∨ x ∈ assignP (definitionP n) s ∨ x ∈ ifP (definitionP n) s ∨
      x ∈ funcP (definitionP n) s ∨ x ∈ blockP (definitionP n) s ∨ x ∈ tupleP (definitionP n) s ∨
      x ∈ chainP (definitionP n) s ∨ x ∈ stringP s ∨ x ∈ numberP s ∨ x ∈ variableP s := by
  simp only [definitionP, List.mem_append, or_assoc]


/-- The enumeration is complete: it lists every derivation. -/
theorem derives_complete {X : Sym} {s : Text} {ts : List Tree} (h : Derives X s ts) :
    CompleteFor X s ts := by
  induction h with
  | @source_file s a ws ts hd hws hs ih =>
    subst hs
    simp only [CompleteFor] at ih ⊢
    rw [sourceFileP, List.mem_map]
    refine ⟨(ts, ws), ?_, rfl⟩
    rw [List.mem_filter]
    exact ⟨ih _ _ ws (by simp) (by simp), hws⟩
  | definitions_nil =>
    simp only [CompleteFor]
    intro n k r _ _
    exact mem_repeatP_nil _ _ _
  | @definitions_cons s a b t ts ha hb hs iha ihb =>
    subst hs
    simp only [CompleteFor] at iha ihb ⊢
    intro n k r hn hk
    have hpos := derives_length_pos ha (by decide) (by decide) (by decide)
    simp only [List.length_append] at hn hk
    obtain ⟨k1, rfl⟩ : ∃ k1, k = k1 + 1 := ⟨k - 1, by omega⟩
    rw [List.append_assoc]
    exact mem_repeatP_cons (iha n (b ++ r) t (by omega) rfl) (ihb n k1 r (by omega) (by omega))
  | tuple_elems_nil =>
    simp only [CompleteFor]
    intro n k r _ _
    exact mem_tupleElemsP_nil _ _ _
  | @tuple_elems_cons s a b c t ts sep ha hb hc hs iha ihc =>
    subst hs
    simp only [CompleteFor] at iha ihc ⊢
    intro n k r hn hk
    have hpos := derives_length_pos ha (by decide) (by decide) (by decide)
    simp only [List.length_append] at hn hk
    obtain ⟨k1, rfl⟩ : ∃ k1, k = k1 + 1 := ⟨k - 1, by omega⟩
    have e : a ++ b ++ c ++ r = a ++ (b ++ (c ++ r)) := by simp
    rw [e]
    exact mem_tupleElemsP_cons (iha n _ t (by omega) rfl) (mem_patP hb _)
      (ihc n k1 r (by omega) (by omega))
  | definition_init h ih | definition_assign h ih | definition_if h ih | definition_func h ih
  | definition_block h ih | definition_tuple h ih | definition_chain h ih =>
    simp only [CompleteFor] at ih ⊢
    intro n r t hn ht
    have hpos := derives_length_pos h (by decide) (by decide) (by decide)
    obtain ⟨m, rfl⟩ : ∃ m, n = m + 1 := ⟨n - 1, by omega⟩
    rw [mem_definitionP_succ]
    have := ih m r t hn ht
    simp only [this, true_or, or_true]
  | definition_string h ih | definition_number h ih | definition_variable h ih =>
    simp only [CompleteFor] at ih ⊢
    intro n r t hn ht
    have hpos := derives_length_pos h (by decide) (by decide) (by decide)
    obtain ⟨m, rfl⟩ : ∃ m, n = m + 1 := ⟨n - 1, by omega⟩
    rw [mem_definitionP_succ]
    have := ih r t ht
    simp only [this, true_or, or_true]
  | in_chain_block h ih | in_chain_tuple h ih =>
    simp only [CompleteFor] at ih ⊢
    intro n r t hn ht
    simp only [inChainP, List.mem_append]
    have := ih n r t hn ht
    simp only [this, true_or, or_true]
  | in_chain_string h ih | in_chain_number h ih | in_chain_variable h ih =>
    simp only [CompleteFor] at ih ⊢
    intro n r t hn ht
    simp only [inChainP, List.mem_append]
    have := ih r t ht
    simp only [this, true_or, or_true]
  | initable_variable h ih =>
    simp only [CompleteFor] at ih ⊢
    intro n r t hn ht
    simp only [initableP, List.mem_append]
    exact Or.inl (ih r t ht)
  | initable_tuple h ih =>
    simp only [CompleteFor] at ih ⊢
    intro n r t hn ht
    simp only [initableP, List.mem_append]
    exact Or.inr (ih n r t hn ht)
  | assignable_tuple h ih | assignable_block h ih =>
    simp only [CompleteFor] at ih ⊢
    intro n r t hn ht
    simp only [assignableP, List.mem_append]
    have := ih n r t hn ht
    simp only [this, true_or, or_true]
  | assignable_variable h ih | assignable_string h ih | assignable_number h ih =>
    simp only [CompleteFor] at ih ⊢
    intro n r t hn ht
    simp only [assignableP, List.mem_append]
    have := ih r t ht
    simp only [this, true_or, or_true]
  | @block s a b c ts ha hb hc hs ihb =>
    subst hs
    simp only [CompleteFor] at ihb ⊢
    intro n r t hn ht
    cases ht
    have hpos := lit_length_pos ha (by decide)
    simp only [List.length_append] at hn
    simp only [blockP, List.mem_flatMap, List.mem_map]
    refine ⟨b ++ (c ++ r), ?_, (ts, c ++ r), ?_, r, mem_litP hc r, rfl⟩
    · have := mem_litP ha (b ++ (c ++ r))
      simpa [List.append_assoc] using this
    · exact ihb n _ (c ++ r) (by omega) (by simp)
  | @tuple s a b c ts ha hb hc hs ihb =>
    subst hs
    simp only [CompleteFor] at ihb ⊢
    intro n r t hn ht
    cases ht
    have hpos := lit_length_pos ha (by decide)
    simp only [List.length_append] at hn
    simp only [tupleP, List.mem_flatMap, List.mem_map]
    refine ⟨b ++ (c ++ r), ?_, (ts, c ++ r), ?_, r, mem_litP hc r, rfl⟩
    · have := mem_litP ha (b ++ (c ++ r))
      simpa [List.append_assoc] using this
    · exact ihb n _ (c ++ r) (by omega) (by simp)
  | @if_then s a b c x y ha hb hc hs ihb ihc =>
    subst hs
    simp only [CompleteFor] at ihb ihc ⊢
    intro n r t hn ht
    cases ht
    have hpos := lit_length_pos ha (by decide)
    simp only [List.length_append] at hn
    simp only [ifP, List.mem_flatMap, List.mem_cons, List.mem_map]
    refine ⟨b ++ (c ++ r), ?_, (x, c ++ r), ihb n _ x (by omega) rfl, (y, r),
      ihc n _ y (by omega) rfl, Or.inl rfl⟩
    have := mem_litP ha (b ++ (c ++ r))
    simpa [List.append_assoc] using this
  | @if_then_else s a b c d e x y z ha hb hc hd he hs ihb ihc ihe =>
    subst hs
    simp only [CompleteFor] at ihb ihc ihe ⊢
    intro n r t hn ht
    cases ht
    have hpos := lit_length_pos ha (by decide)
    simp only [List.length_append] at hn
    simp only [ifP, List.mem_flatMap, List.mem_cons, List.mem_map]
    refine ⟨b ++ (c ++ (d ++ (e ++ r))), ?_, (x, c ++ (d ++ (e ++ r))), ihb n _ x (by omega) rfl,
      (y, d ++ (e ++ r)), ihc n _ y (by omega) rfl, Or.inr ⟨e ++ r, mem_litP hd _, (z, r),
        ihe n _ z (by omega) rfl, rfl⟩⟩
    have := mem_litP ha (b ++ (c ++ (d ++ (e ++ r))))
    simpa [List.append_assoc] using this
  | @func s a b c x y ha hb hc hs iha ihc =>
    subst hs
    simp only [CompleteFor] at iha ihc ⊢
    intro n r t hn ht
    cases ht
    have hpos := lit_length_pos hb (by decide)
    simp only [List.length_append] at hn
    simp only [funcP, List.mem_flatMap, List.mem_map]
    refine ⟨(x, b ++ (c ++ r)), ?_, c ++ r, mem_litP hb _, (y, r), ihc n _ y (by omega) rfl, rfl⟩
    have := iha n (b ++ (c ++ r)) x (by omega) rfl
    simpa [List.append_assoc] using this
  | @init s a b c x y ha hb hc hs iha ihc =>
    subst hs
    simp only [CompleteFor] at iha ihc ⊢
    intro n r t hn ht
    cases ht
    have hpos := lit_length_pos hb (by decide)
    simp only [List.length_append] at hn
    simp only [initP, List.mem_flatMap, List.mem_map]
    refine ⟨(x, b ++ (c ++ r)), ?_, c ++ r, mem_litP hb _, (y, r), ihc n _ y (by omega) rfl, rfl⟩
    have := iha n (b ++ (c ++ r)) x (by omega) rfl
    simpa [List.append_assoc] using this
  | @assign s a b c x y ha hb hc hs iha ihc =>
    subst hs
    simp only [CompleteFor] at iha ihc ⊢
    intro n r t hn ht
    cases ht
    have hpos := lit_length_pos hb (by decide)
    simp only [List.length_append] at hn
    simp only [assignP, List.mem_flatMap, List.mem_map]
    refine ⟨(x, b ++ (c ++ r)), ?_, c ++ r, mem_litP hb _, (y, r), ihc n _ y (by omega) rfl, rfl⟩
    have := iha n (b ++ (c ++ r)) x (by omega) rfl
    simpa [List.append_assoc] using this
  | @chain s a b x ha hb hs ihb =>
    subst hs
    simp only [CompleteFor] at ihb ⊢
    intro n r t hn ht
    cases ht
    simp only [List.length_append] at hn
    simp only [chainP, List.mem_flatMap, List.mem_map]
    refine ⟨b ++ r, ?_, (x, r), ihb n r x (by omega) rfl, rfl⟩
    have := mem_litP ha (b ++ r)
    simpa [List.append_assoc] using this
  | @number s tok hp =>
    simp only [CompleteFor]
    intro r t ht
    cases ht
    simp only [numberP, List.mem_map]
    exact ⟨(tok, r), mem_patP hp r, rfl⟩
  | @variable_ s tok hp =>
    simp only [CompleteFor]
    intro r t ht
    cases ht
    simp only [variableP, List.mem_map]
    exact ⟨(tok, r), mem_patP hp r, rfl⟩
  | @string s a b c tok ha hb hc hs =>
    subst hs
    simp only [CompleteFor]
    intro r t ht
    cases ht
    simp only [stringP, List.mem_flatMap, List.mem_map]
    refine ⟨b ++ (c ++ r), ?_, (tok, c ++ r), mem_patP hb _, r, mem_litP hc r, rfl⟩
    have := mem_litP ha (b ++ (c ++ r))
    simpa [List.append_assoc] using this

/-- Every list of top-level definitions of a text is listed by `sourceFileP`. -/
theorem sourceFileP_complete {s : Text} {ts : List Tree} (h : Accepts s ts) :
    ts ∈ sourceFileP s := by
  have := derives_complete h
  simpa only [CompleteFor] using this

/-! ## The parser returns derivations -/

theorem allSpace_append {u v : Text} (hu : allSpace u = true) (hv : allSpace v = true) :
    allSpace (u ++ v) = true := by
  simp only [allSpace, List.all_append, Bool.and_eq_true] at *
  exact ⟨hu, hv⟩

/-- What the lexer has matched is matched by the pattern, and lies in the text. -/
theorem longestMatch_sound (r : RE) (s : Text) (n : Nat) (h : longestMatch r s = some n) :
    r.fullMatch (s.take n) = true ∧ n ≤ s.length := by
  induction s generalizing r n with
  | nil =>
    simp only [longestMatch] at h
    split at h
    · cases h; simpa [RE.fullMatch]
    · cases h
  | cons c cs ih =>
    simp only [longestMatch] at h
    split at h
    · rename_i m hm
      cases h
      have := ih _ _ hm
      exact ⟨by simpa [RE.fullMatch] using this.1, by simpa using this.2⟩
    · split at h
      · cases h; simpa [RE.fullMatch]
      · cases h

theorem bestToken_mem {l : List (Kind × Nat)} {x : Kind × Nat} (h : bestToken l = some x) :
    x ∈ l := by
  induction l generalizing x with
  | nil => cases h
  | cons a l ih =>
    obtain ⟨k, n⟩ := a
    simp only [bestToken] at h
    split at h
    · rename_i k1 n1 h1
      split at h
      · cases h; exact List.mem_cons_of_mem _ (ih h1)
      · cases h; exact List.mem_cons_self _ _
    · cases h; exact List.mem_cons_self _ _

theorem matchLength_sound {k : Kind} {s : Text} {n : Nat} (h : k.matchLength s = some n) :
    k.Matches (s.take n) ∧ n ≤ s.length := by
  unfold Kind.matchLength at h
  split at h
  · rename_i l hl
    split at h
    · rename_i hp
      cases h
      have hp2 : l.toList <+: s := List.isPrefixOf_iff_prefix.1 hp
      obtain ⟨t, rfl⟩ := hp2
      refine ⟨⟨fun l2 h2 => ?_, fun r hr => ?_⟩, by simp⟩
      · rw [hl] at h2; cases h2; simp
      · cases k <;> simp [Kind.literal, Kind.pattern] at hl hr
    · cases h
  · rename_i r hl hr
    have h2 : longestMatch r s = some n := by
      split at h
      · cases h
      · exact h
    have h3 := longestMatch_sound r s n h2
    refine ⟨⟨fun l2 hl2 => ?_, fun r2 hr2 => ?_⟩, h3.2⟩
    · rw [hl] at hl2; cases hl2
    · rw [hr] at hr2; cases hr2; exact h3.1
  · cases h

theorem mem_candidates {valid : List Kind} {s : Text} {k : Kind} {n : Nat}
    (h : (k, n) ∈ candidates valid s) : k ∈ valid ∧ k.matchLength s = some n := by
  simp only [candidates, List.mem_filterMap, List.mem_filter, Option.map_eq_some'] at h
  obtain ⟨k1, ⟨_, hv⟩, m, hm, he⟩ := h
  cases he
  exact ⟨by simpa using hv, hm⟩

theorem allSpace_takeWhile (s : Text) : allSpace (s.takeWhile isSpace) = true := by
  induction s with
  | nil => rfl
  | cons c cs ih =>
    by_cases hc : isSpace c = true
    · simp [List.takeWhile, hc, allSpace] at ih ⊢
    · simp [List.takeWhile, hc, allSpace]

/-- The lexer is sound: the token is of a valid kind, it follows skipped whitespace, and
its text belongs to its kind. -/
theorem lex_sound {valid : List Kind} {s : Text} {k : Kind} {tok r : Text}
    (h : lex valid s = some (k, tok, r)) :
    k ∈ valid ∧ k.Matches tok ∧ ∃ ws, allSpace ws = true ∧ s = ws ++ tok ++ r := by
  unfold lex at h
  have hws : ∃ ws, allSpace ws = true ∧
      s = ws ++ (if valid.contains .tuple_separator then s else s.dropWhile isSpace) := by
    split
    · exact ⟨[], rfl, rfl⟩
    · exact ⟨s.takeWhile isSpace, allSpace_takeWhile s, (List.takeWhile_append_dropWhile _ _).symm⟩
  generalize (if valid.contains .tuple_separator then s else s.dropWhile isSpace) = s1 at h hws
  obtain ⟨ws, hws, rfl⟩ := hws
  simp only at h
  split at h
  · split at h
    · rename_i hv
      cases h
      exact ⟨by simpa using hv, ⟨fun l hl => (by cases hl), fun r hr => (by cases hr)⟩, ws, hws, by simp⟩
    · cases h
  · split at h
    · rename_i k1 n hb
      cases h
      have h2 := mem_candidates (bestToken_mem hb)
      have h3 := matchLength_sound h2.2
      exact ⟨h2.1, h3.1, ws, hws, by simp⟩
    · cases h

theorem lex_lit {valid : List Kind} {s : Text} {k : Kind} {tok r : Text} {l : String}
    (h : lex valid s = some (k, tok, r)) (hl : k.literal = some l) :
    ∃ a, Lit l a ∧ s = a ++ r := by
  obtain ⟨_, hm, ws, hws, rfl⟩ := lex_sound h
  exact ⟨ws ++ tok, ⟨ws, hws, by rw [hm.1 l hl]⟩, rfl⟩

theorem lex_pat {valid : List Kind} {s : Text} {k : Kind} {tok r : Text} {re : RE}
    (h : lex valid s = some (k, tok, r)) (hr : k.pattern = some re) :
    ∃ a, Pat re a tok ∧ s = a ++ r := by
  obtain ⟨_, hm, ws, hws, rfl⟩ := lex_sound h
  exact ⟨ws ++ tok, ⟨ws, hws, hm.2 re hr, rfl⟩, rfl⟩

theorem lex_eof {valid : List Kind} {s : Text} {tok r : Text}
    (h : lex valid s = some (.eof, tok, r)) : allSpace s = true ∧ r = [] := by
  unfold lex at h
  simp only at h
  split at h
  · rename_i hs
    split at h
    · cases h
      refine ⟨?_, rfl⟩
      split at hs
      · rw [hs]; rfl
      · have := allSpace_takeWhile s
        rw [← List.takeWhile_append_dropWhile isSpace s, hs]
        simpa using this
    · cases h
  · split at h
    · rename_i k n hb
      have h2 := (mem_candidates (bestToken_mem hb)).2
      cases h
      simp [Kind.matchLength, Kind.literal, Kind.pattern] at h2
    · cases h

theorem follow_block_end {c : Cont} {f : Follow} (h : Kind.block_end ∈ c.valid ++ f.valid) :
    f.block_end = true := by
  cases c <;> simp [Cont.valid, Follow.valid, firstOfDefinition] at h <;> exact h

theorem follow_eof {c : Cont} {f : Follow} (h : Kind.eof ∈ c.valid ++ f.valid) :
    f.eof = true := by
  cases c <;> simp [Cont.valid, Follow.valid, firstOfDefinition] at h <;> exact h

theorem parseString_sound {s r : Text} {t : Tree} (h : parseString s = some (t, r)) :
    ∃ tok b c, t = .string tok ∧ Pat string_content b tok ∧ Lit "\"" c ∧ s = b ++ c ++ r := by
  unfold parseString at h
  split at h
  · rename_i n hn
    split at h
    · rename_i x r1 hq
      cases h
      obtain ⟨c, hc, he⟩ := lex_lit hq rfl
      have h1 := longestMatch_sound _ _ _ hn
      refine ⟨_, s.take (n + 1), c, rfl, ⟨[], rfl, h1.1, rfl⟩, hc, ?_⟩
      rw [List.append_assoc, ← he, List.take_append_drop]
    · cases h
  · cases h

/-- The parser of a repetition of definitions is sound: the trees are derived from the
text up to the token that ends the repetition. -/
theorem parseDefinitions_sound {d : DefParser} (hd : d.Sound) (f : Follow) (k : Nat)
    (valid : List Kind) (s : Text) (ts : List Tree) (r : Text)
    (h : parseDefinitions d f k valid s = some (ts, r)) :
    ∃ a e, s = a ++ e ++ r ∧ Derives .definitions a ts ∧
      ((Lit "\x7d" e ∧ (Kind.block_end ∈ valid ∨ f.block_end = true)) ∨
       (allSpace e = true ∧ r = [] ∧ (Kind.eof ∈ valid ∨ f.eof = true))) := by
  induction k generalizing valid s ts r with
  | zero => cases h
  | succ k ih =>
    simp only [parseDefinitions] at h
    split at h
    · rename_i x r1 hl
      cases h
      obtain ⟨e, he, rfl⟩ := lex_lit hl rfl
      exact ⟨[], e, rfl, .definitions_nil, Or.inl ⟨he, Or.inl (lex_sound hl).1⟩⟩
    · rename_i x r1 hl
      cases h
      have h1 := lex_eof hl
      exact ⟨[], s, by simp [h1.2], .definitions_nil, Or.inr ⟨h1.1, h1.2, Or.inl (lex_sound hl).1⟩⟩
    · split at h
      · rename_i t c r1 hd1
        split at h
        · rename_i ts1 r2 hrec
          cases h
          obtain ⟨a, rfl, ha⟩ := hd _ _ _ _ _ _ hd1
          obtain ⟨b, e, rfl, hb, he⟩ := ih _ _ _ _ hrec
          refine ⟨a ++ b, e, by simp, .definitions_cons ha hb rfl, ?_⟩
          rcases he with ⟨h1, h2⟩ | ⟨h1, h2, h3⟩
          · exact Or.inl ⟨h1, Or.inr (h2.elim follow_block_end id)⟩
          · exact Or.inr ⟨h1, h2, Or.inr (h3.elim follow_eof id)⟩
        · cases h
      · cases h

/-- The parser of the elements of a tuple is sound. -/
theorem parseElements_sound {d : DefParser} (hd : d.Sound) (k : Nat) (s : Text)
    (ts : List Tree) (r : Text) (h : parseElements d k s = some (ts, r)) :
    ∃ a e, s = a ++ e ++ r ∧ Derives .tuple_elems a ts ∧ Lit ")" e := by
  induction k generalizing s ts r with
  | zero => cases h
  | succ k ih =>
    simp only [parseElements] at h
    split at h
    · rename_i x r1 hl
      cases h
      obtain ⟨e, he, rfl⟩ := lex_lit hl rfl
      exact ⟨[], e, rfl, .tuple_elems_nil, he⟩
    · split at h
      · rename_i t c r1 hd1
        split at h
        · rename_i x r2 hs
          split at h
          · rename_i ts1 r3 hrec
            cases h
            obtain ⟨a, rfl, ha⟩ := hd _ _ _ _ _ _ hd1
            obtain ⟨b, hb, rfl⟩ := lex_pat hs rfl
            obtain ⟨c1, e, rfl, hc1, he⟩ := ih _ _ _ hrec
            exact ⟨a ++ b ++ c1, e, by simp, .tuple_elems_cons ha hb hc1 rfl, he⟩
          · cases h
        · cases h
      · cases h

theorem in_chain_definition {a : Text} {ts : List Tree} (h : Derives .definition_in_chain a ts) :
    Derives .definition a ts := by
  cases h
  · exact .definition_block ‹_›
  · exact .definition_tuple ‹_›
  · exact .definition_string ‹_›
  · exact .definition_number ‹_›
  · exact .definition_variable ‹_›

theorem in_chain_assignable {a : Text} {ts : List Tree} (h : Derives .definition_in_chain a ts) :
    Derives .definition_assignable a ts := by
  cases h
  · exact .assignable_block ‹_›
  · exact .assignable_tuple ‹_›
  · exact .assignable_string ‹_›
  · exact .assignable_number ‹_›
  · exact .assignable_variable ‹_›

/-- The parser of a primary is sound: the primary is a link of a chain, and an init
target when its kind says so. -/
theorem parsePrimary_sound {d : DefParser} (hd : d.Sound) {valid : List Kind} {s : Text}
    {k : Kind} {tok r : Text} {p : Tree} {c : Cont} {r1 : Text}
    (hl : lex valid s = some (k, tok, r)) (h : parsePrimary d k tok r = some (p, c, r1)) :
    ∃ a, s = a ++ r1 ∧ Derives .definition_in_chain a [p] ∧
      (c = .initable → Derives .definition_initable a [p]) := by
  unfold parsePrimary at h
  split at h
  · cases h
    obtain ⟨a, ha, rfl⟩ := lex_pat hl rfl
    exact ⟨a, rfl, .in_chain_variable (.variable_ ha), fun _ => .initable_variable (.variable_ ha)⟩
  · cases h
    obtain ⟨a, ha, rfl⟩ := lex_pat hl rfl
    exact ⟨a, rfl, .in_chain_number (.number ha), fun hc => by cases hc⟩
  · split at h
    · rename_i t r2 hs
      cases h
      obtain ⟨a, ha, rfl⟩ := lex_lit hl rfl
      obtain ⟨tok1, b, c1, rfl, hb, hc1, rfl⟩ := parseString_sound hs
      exact ⟨a ++ b ++ c1, by simp, .in_chain_string (.string ha hb hc1 rfl), fun hc => by cases hc⟩
    · cases h
  · split at h
    · rename_i ts r2 hs
      cases h
      obtain ⟨a, ha, rfl⟩ := lex_lit hl rfl
      obtain ⟨b, e, rfl, hb, he⟩ := parseDefinitions_sound hd _ _ _ _ _ _ hs
      rcases he with ⟨h1, _⟩ | ⟨_, _, h3⟩
      · exact ⟨a ++ b ++ e, by simp, .in_chain_block (.block ha hb h1 rfl), fun hc => by cases hc⟩
      · simp [Follow.inBlock, firstOfDefinition] at h3
    · cases h
  · split at h
    · rename_i ts r2 hs
      cases h
      obtain ⟨a, ha, rfl⟩ := lex_lit hl rfl
      obtain ⟨b, e, rfl, hb, he⟩ := parseElements_sound hd _ _ _ _ hs
      exact ⟨a ++ b ++ e, by simp, .in_chain_tuple (.tuple ha hb he rfl),
        fun _ => .initable_tuple (.tuple ha hb he rfl)⟩
    · cases h
  · cases h

theorem cont_of_colonequals {c : Cont} {f : Follow}
    (h : Kind.init_colonequals ∈ c.valid ++ f.valid) : c = .initable := by
  cases c <;> simp [Cont.valid, Follow.valid, firstOfDefinition] at h ⊢

/-- The parser after a primary is sound. -/
theorem parseAfterPrimary_sound {d : DefParser} (hd : d.Sound) {f : Follow}
    {p : Tree} {c : Cont} {r : Text} {t : Tree} {c1 : Cont} {r1 : Text}
    (h : parseAfterPrimary d f p c r = some (t, c1, r1)) :
    ∃ b, r = b ++ r1 ∧ ∀ a, Derives .definition_in_chain a [p] →
      (c = .initable → Derives .definition_initable a [p]) →
      Derives .definition (a ++ b) [t] := by
  unfold parseAfterPrimary at h
  split at h
  · rename_i x r2 hl
    split at h
    · rename_i y c2 r3 hy
      cases h
      obtain ⟨b, hb, rfl⟩ := lex_lit hl rfl
      obtain ⟨e, rfl, he⟩ := hd _ _ _ _ _ _ hy
      exact ⟨b ++ e, by simp, fun a _ hi => .definition_init
        (.init (hi (cont_of_colonequals (lex_sound hl).1)) hb he (by simp))⟩
    · cases h
  · rename_i x r2 hl
    split at h
    · rename_i y c2 r3 hy
      cases h
      obtain ⟨b, hb, rfl⟩ := lex_lit hl rfl
      obtain ⟨e, rfl, he⟩ := hd _ _ _ _ _ _ hy
      exact ⟨b ++ e, by simp, fun a hp _ =>
        .definition_assign (.assign (in_chain_assignable hp) hb he (by simp))⟩
    · cases h
  · rename_i x r2 hl
    split at h
    · rename_i y c2 r3 hy
      cases h
      obtain ⟨b, hb, rfl⟩ := lex_lit hl rfl
      obtain ⟨e, rfl, he⟩ := hd _ _ _ _ _ _ hy
      exact ⟨b ++ e, by simp, fun a hp _ =>
        .definition_func (.func (in_chain_assignable hp) hb he (by simp))⟩
    · cases h
  · cases h
    exact ⟨[], by simp, fun a hp _ => by simpa using in_chain_definition hp⟩

/-- The parser of an `if` is sound. -/
theorem parseIf_sound {d : DefParser} (hd : d.Sound) {f : Follow} {r : Text}
    {t : Tree} {c : Cont} {r1 : Text} (h : parseIf d f r = some (t, c, r1)) :
    ∃ b, r = b ++ r1 ∧ ∀ a, Lit "if" a → Derives .definition (a ++ b) [t] := by
  unfold parseIf at h
  split at h
  · rename_i x cx r2 hx
    obtain ⟨b, rfl, hb⟩ := hd _ _ _ _ _ _ hx
    split at h
    · rename_i y cy r3 hy
      obtain ⟨e, rfl, he⟩ := hd _ _ _ _ _ _ hy
      split at h
      · cases h
        exact ⟨b ++ e, by simp, fun a ha => .definition_if (.if_then ha hb he (by simp))⟩
      · split at h
        · rename_i u r4 hl
          split at h
          · rename_i z cz r5 hz
            cases h
            obtain ⟨g, hg, rfl⟩ := lex_lit hl rfl
            obtain ⟨w, rfl, hw⟩ := hd _ _ _ _ _ _ hz
            exact ⟨b ++ e ++ g ++ w, by simp, fun a ha =>
              .definition_if (.if_then_else ha hb he hg hw (by simp))⟩
          · cases h
        · cases h
          exact ⟨b ++ e, by simp, fun a ha => .definition_if (.if_then ha hb he (by simp))⟩
    · cases h
  · cases h

/-- The parser of a definition is sound, whatever the bound on the depth. -/
theorem parseDefinition_sound (n : Nat) : (parseDefinition n).Sound := by
  induction n with
  | zero => intro f valid s t c r h; cases h
  | succ n ih =>
    intro f valid s t c r h
    simp only [parseDefinition] at h
    split at h
    · rename_i x r1 hl
      split at h
      · rename_i k tok r2 hl2
        split at h
        · rename_i p c2 r3 hp
          cases h
          obtain ⟨a, ha, rfl⟩ := lex_lit hl rfl
          obtain ⟨b, rfl, hb, _⟩ := parsePrimary_sound ih hl2 hp
          exact ⟨a ++ b, by simp, .definition_chain (.chain ha hb rfl)⟩
        · cases h
      · cases h
    · rename_i x r1 hl
      obtain ⟨a, ha, rfl⟩ := lex_lit hl rfl
      obtain ⟨b, rfl, hb⟩ := parseIf_sound ih h
      exact ⟨a ++ b, by simp, hb a ha⟩
    · rename_i k tok r1 _ _ hl
      split at h
      · rename_i p c2 r2 hp
        obtain ⟨a, rfl, ha, hi⟩ := parsePrimary_sound ih hl hp
        obtain ⟨b, rfl, hb⟩ := parseAfterPrimary_sound ih h
        exact ⟨a ++ b, by simp, hb a ha hi⟩
      · cases h
    · cases h

/-- The parser is sound: the definitions it returns for a text are one of the
derivations of the text from `source_file`. -/
theorem parseFile_sound {s : Text} {ts : List Tree} (h : parseFile s = some ts) :
    Accepts s ts := by
  unfold parseFile at h
  split at h
  · rename_i ts1 r hp
    cases h
    obtain ⟨a, e, rfl, ha, he⟩ := parseDefinitions_sound (parseDefinition_sound _) _ _ _ _ _ _ hp
    rcases he with ⟨_, h2⟩ | ⟨h1, rfl, _⟩
    · simp [Follow.top, firstOfDefinition] at h2
    · exact .source_file ha h1 (by simp)
  · cases h

/-! ## The parser obeys `prec.left` -/

theorem nodesList_all (p : Tree → Bool) (xs : List Tree) :
    (Tree.nodesList xs).all p = xs.all fun t => (Tree.nodes t).all p := by
  induction xs with
  | nil => rfl
  | cons x xs ih => simp [Tree.nodesList, List.all_append, ih]

theorem respects_list {xs : List Tree} (h : ∀ t ∈ xs, Tree.respectsPrecLeft t = true) :
    (Tree.nodesList xs).all Tree.leftAssocIf = true := by
  rw [nodesList_all]
  simpa [Tree.respectsPrecLeft] using h

theorem parseDefinitions_leftAssoc {d : DefParser} (hd : d.LeftAssoc) (f : Follow) (k : Nat)
    (valid : List Kind) (s : Text) (ts : List Tree) (r : Text)
    (h : parseDefinitions d f k valid s = some (ts, r)) :
    ∀ t ∈ ts, Tree.respectsPrecLeft t = true := by
  induction k generalizing valid s ts r with
  | zero => cases h
  | succ k ih =>
    simp only [parseDefinitions] at h
    split at h
    · cases h; simp
    · cases h; simp
    · split at h
      · rename_i t c r1 hd1
        split at h
        · rename_i ts1 r2 hrec
          cases h
          intro u hu
          rcases List.mem_cons.1 hu with rfl | hu
          · exact (hd _ _ _ _ _ _ hd1).1
          · exact ih _ _ _ _ hrec u hu
        · cases h
      · cases h

theorem parseElements_leftAssoc {d : DefParser} (hd : d.LeftAssoc) (k : Nat) (s : Text)
    (ts : List Tree) (r : Text) (h : parseElements d k s = some (ts, r)) :
    ∀ t ∈ ts, Tree.respectsPrecLeft t = true := by
  induction k generalizing s ts r with
  | zero => cases h
  | succ k ih =>
    simp only [parseElements] at h
    split at h
    · cases h; simp
    · split at h
      · rename_i t c r1 hd1
        split at h
        · split at h
          · rename_i ts1 r3 hrec
            cases h
            intro u hu
            rcases List.mem_cons.1 hu with rfl | hu
            · exact (hd _ _ _ _ _ _ hd1).1
            · exact ih _ _ _ hrec u hu
          · cases h
        · cases h
      · cases h

theorem parseString_string {s r : Text} {t : Tree} (h : parseString s = some (t, r)) :
    ∃ tok, t = .string tok := by
  unfold parseString at h
  split at h
  · split at h
    · cases h; exact ⟨_, rfl⟩
    · cases h
  · cases h

theorem parsePrimary_leftAssoc {d : DefParser} (hd : d.LeftAssoc) {k : Kind} {tok r : Text}
    {p : Tree} {c : Cont} {r1 : Text} (h : parsePrimary d k tok r = some (p, c, r1)) :
    Tree.respectsPrecLeft p = true ∧ Tree.endsWithElse p = false := by
  unfold parsePrimary at h
  split at h
  · cases h; exact ⟨rfl, rfl⟩
  · cases h; exact ⟨rfl, rfl⟩
  · split at h
    · rename_i t r2 hs
      cases h
      obtain ⟨tok1, rfl⟩ := parseString_string hs
      exact ⟨rfl, rfl⟩
    · cases h
  · split at h
    · rename_i ts r2 hs
      cases h
      have := respects_list (parseDefinitions_leftAssoc hd _ _ _ _ _ _ hs)
      exact ⟨by simpa [Tree.respectsPrecLeft, Tree.nodes, Tree.leftAssocIf] using this, rfl⟩
    · cases h
  · split at h
    · rename_i ts r2 hs
      cases h
      have := respects_list (parseElements_leftAssoc hd _ _ _ _ hs)
      exact ⟨by simpa [Tree.respectsPrecLeft, Tree.nodes, Tree.leftAssocIf] using this, rfl⟩
    · cases h
  · cases h

theorem parseAfterPrimary_leftAssoc {d : DefParser} (hd : d.LeftAssoc) {f : Follow}
    {p : Tree} {c : Cont} {r : Text} {t : Tree} {c1 : Cont} {r1 : Text}
    (hp : Tree.respectsPrecLeft p = true ∧ Tree.endsWithElse p = false)
    (h : parseAfterPrimary d f p c r = some (t, c1, r1)) :
    Tree.respectsPrecLeft t = true ∧ (f.if_else = true → Tree.endsWithElse t = false) := by
  have hp1 : (Tree.nodes p).all Tree.leftAssocIf = true := hp.1
  unfold parseAfterPrimary at h
  split at h
  · split at h
    · rename_i y c2 r3 hy
      cases h
      obtain ⟨h1, h2⟩ := hd _ _ _ _ _ _ hy
      have h1 : (Tree.nodes y).all Tree.leftAssocIf = true := h1
      exact ⟨by simp [Tree.respectsPrecLeft, Tree.nodes, Tree.leftAssocIf, List.all_append, hp1, h1],
        fun hf => by simpa [Tree.endsWithElse] using h2 hf⟩
    · cases h
  · split at h
    · rename_i y c2 r3 hy
      cases h
      obtain ⟨h1, h2⟩ := hd _ _ _ _ _ _ hy
      have h1 : (Tree.nodes y).all Tree.leftAssocIf = true := h1
      exact ⟨by simp [Tree.respectsPrecLeft, Tree.nodes, Tree.leftAssocIf, List.all_append, hp1, h1],
        fun hf => by simpa [Tree.endsWithElse] using h2 hf⟩
    · cases h
  · split at h
    · rename_i y c2 r3 hy
      cases h
      obtain ⟨h1, h2⟩ := hd _ _ _ _ _ _ hy
      have h1 : (Tree.nodes y).all Tree.leftAssocIf = true := h1
      exact ⟨by simp [Tree.respectsPrecLeft, Tree.nodes, Tree.leftAssocIf, List.all_append, hp1, h1],
        fun hf => by simpa [Tree.endsWithElse] using h2 hf⟩
    · cases h
  · cases h
    exact ⟨hp.1, fun _ => hp.2⟩

theorem parseIf_leftAssoc {d : DefParser} (hd : d.LeftAssoc) {f : Follow} {r : Text}
    {t : Tree} {c : Cont} {r1 : Text} (h : parseIf d f r = some (t, c, r1)) :
    Tree.respectsPrecLeft t = true ∧ (f.if_else = true → Tree.endsWithElse t = false) := by
  unfold parseIf at h
  split at h
  · rename_i x cx r2 hx
    have hx1 : (Tree.nodes x).all Tree.leftAssocIf = true := (hd _ _ _ _ _ _ hx).1
    split at h
    · rename_i y cy r3 hy
      obtain ⟨hy1, hy2⟩ := hd _ _ _ _ _ _ hy
      have hy1 : (Tree.nodes y).all Tree.leftAssocIf = true := hy1
      have hy2 : Tree.endsWithElse y = false := hy2 rfl
      have hnone : Tree.respectsPrecLeft (.ifNode x y Option.none) = true ∧
          Tree.endsWithElse (.ifNode x y Option.none) = false :=
        ⟨by simp [Tree.respectsPrecLeft, Tree.nodes, Tree.nodesOpt, Tree.leftAssocIf,
            List.all_append, hx1, hy1, hy2], by simp [Tree.endsWithElse, hy2]⟩
      split at h
      · cases h
        exact ⟨hnone.1, fun _ => hnone.2⟩
      · rename_i hf
        split at h
        · split at h
          · rename_i z cz r5 hz
            cases h
            have hz1 : (Tree.nodes z).all Tree.leftAssocIf = true := (hd _ _ _ _ _ _ hz).1
            exact ⟨by simp [Tree.respectsPrecLeft, Tree.nodes, Tree.nodesOpt, Tree.leftAssocIf,
              List.all_append, hx1, hy1, hy2, hz1], fun h1 => absurd h1 hf⟩
          · cases h
        · cases h
          exact ⟨hnone.1, fun _ => hnone.2⟩
    · cases h
  · cases h

theorem parseDefinition_leftAssoc (n : Nat) : (parseDefinition n).LeftAssoc := by
  induction n with
  | zero => intro f valid s t c r h; cases h
  | succ n ih =>
    intro f valid s t c r h
    simp only [parseDefinition] at h
    split at h
    · split at h
      · split at h
        · rename_i p c2 r3 hp
          cases h
          have h1 : (Tree.nodes p).all Tree.leftAssocIf = true := (parsePrimary_leftAssoc ih hp).1
          exact ⟨by simp [Tree.respectsPrecLeft, Tree.nodes, Tree.leftAssocIf, h1], fun _ => rfl⟩
        · cases h
      · cases h
    · exact parseIf_leftAssoc ih h
    · split at h
      · rename_i p c2 r2 hp
        exact parseAfterPrimary_leftAssoc ih (parsePrimary_leftAssoc ih hp) h
      · cases h
    · cases h

/-- The parser obeys `prec.left` of the `if` rule: every definition it returns does, at
every node. -/
theorem parseFile_leftAssoc {s : Text} {ts : List Tree} (h : parseFile s = some ts) :
    ∀ t ∈ ts, Tree.respectsPrecLeft t = true := by
  unfold parseFile at h
  split at h
  · rename_i ts1 r hp
    cases h
    exact parseDefinitions_leftAssoc (parseDefinition_leftAssoc _) _ _ _ _ _ _ hp
  · cases h

/-! ## C1: chains -/

theorem allSpace_nil : allSpace [] = true := rfl

theorem lit_self (l : String) : Lit l l.toList := ⟨[], rfl, rfl⟩

theorem lit_after (l : String) (ws : Text) (h : allSpace ws = true) : Lit l (ws ++ l.toList) :=
  ⟨ws, h, rfl⟩

theorem pat_self {r : RE} {tok : Text} (h : r.fullMatch tok = true) : Pat r tok tok :=
  ⟨[], rfl, h, rfl⟩

theorem pat_after {r : RE} {tok : Text} (ws : Text) (hws : allSpace ws = true)
    (h : r.fullMatch tok = true) : Pat r (ws ++ tok) tok :=
  ⟨ws, hws, h, rfl⟩

/-- A variable token, after whitespace, is a definition. -/
theorem derives_variable (ws tok : Text) (hws : allSpace ws = true)
    (h : variable_pattern.fullMatch tok = true) :
    Derives .definition (ws ++ tok) [.variable tok] :=
  .definition_variable (.variable_ (pat_after ws hws h))

/-- A number token, after whitespace, is a definition. -/
theorem derives_number (ws tok : Text) (hws : allSpace ws = true)
    (h : number.fullMatch tok = true) :
    Derives .definition (ws ++ tok) [.number tok] :=
  .definition_number (.number (pat_after ws hws h))

/-- Top-level definitions followed by nothing are accepted. -/
theorem accepts_of_definitions {s : Text} {ts : List Tree} (h : Derives .definitions s ts) :
    Accepts s ts :=
  .source_file h allSpace_nil (List.append_nil s).symm

/-- One definition is accepted as the single top-level definition. -/
theorem accepts_single {s : Text} {t : Tree} (h : Derives .definition s [t]) : Accepts s [t] :=
  accepts_of_definitions (.definitions_cons h .definitions_nil (List.append_nil s).symm)

theorem derives_links (links : List (Text × Tree))
    (hl : ∀ x ∈ links, Derives .definition_in_chain x.1 [x.2]) :
    Derives .definitions (linksText links) (links.map fun x => Tree.chain x.2) := by
  induction links with
  | nil => exact .definitions_nil
  | cons x links ih =>
    have hx := hl x (List.mem_cons_self _ _)
    have ht := ih (fun y hy => hl y (List.mem_cons_of_mem _ hy))
    refine .definitions_cons (a := '.' :: x.1) (b := linksText links)
      (.definition_chain (.chain (a := ['.']) (lit_self ".") hx rfl)) ht ?_
    simp [linksText]

/-- C1, counterexample: `a.b.c` is not accepted as one top-level definition, whatever
its tree. -/
theorem C1_counterexample : ¬ ∃ t : Tree, Accepts "a.b.c".toList [t] := by
  rintro ⟨t, h⟩
  have h1 := sourceFileP_complete h
  have h2 : ∀ ts ∈ sourceFileP "a.b.c".toList, ts.length = 3 := by decide
  exact absurd (h2 _ h1) (by simp)

/-- C1, amended: a chain node has a link and no base.  Every node the `chain` rule
derives is `chain(l)` for the one link `l` that follows the dot (a block, tuple, string,
number or variable); the text of the node begins with the dot, so what stands before
the dot is a definition of its own.  The parser returns for `a.b.c` the three sibling
definitions `Variable(a)`, `chain(Variable(b))`, `chain(Variable(c))`, and the grammar
derives no other syntax tree of it. -/
theorem C1_chain_has_a_link_and_no_base :
    (∀ (s : Text) (ts : List Tree), Derives .chain s ts →
      ∃ (a b : Text) (l : Tree), Lit "." a ∧ Derives .definition_in_chain b [l] ∧
        s = a ++ b ∧ ts = [.chain l]) ∧
    parseFile "a.b.c".toList =
      some [.variable "a".toList, .chain (.variable "b".toList),
        .chain (.variable "c".toList)] ∧
    (∀ ts, Accepts "a.b.c".toList ts ↔
      ts = [.variable "a".toList, .chain (.variable "b".toList),
        .chain (.variable "c".toList)]) := by
  refine ⟨fun s ts h => ?_, by decide, fun ts => ⟨fun h => ?_, fun h => ?_⟩⟩
  · cases h with
    | @chain _ a b l ha hb hs => exact ⟨a, b, l, ha, hb, hs, rfl⟩
  · have h1 := sourceFileP_complete h
    have h2 : ∀ ts ∈ sourceFileP "a.b.c".toList,
        ts = [.variable "a".toList, .chain (.variable "b".toList),
          .chain (.variable "c".toList)] := by decide
    exact h2 _ h1
  · subst h
    exact parseFile_sound (by decide)

/-- C1, the amended claim at the chain `.b`: its one child is the link `Variable(b)`. -/
theorem C1_chain_has_a_link_and_no_base_witness :
    ∃ (a b : Text) (l : Tree), Lit "." a ∧ Derives .definition_in_chain b [l] ∧
      ".b".toList = a ++ b ∧ [Tree.chain (.variable "b".toList)] = [.chain l] :=
  C1_chain_has_a_link_and_no_base.1 ".b".toList [.chain (.variable "b".toList)]
    (.chain (a := ".".toList) (b := "b".toList) (lit_self ".")
      (.in_chain_variable (.variable_ (pat_self (by decide)))) rfl)

/-! ## C2: the argument of a func -/

theorem initable_isInitable {s : Text} {t : Tree} (h : Derives .definition_initable s [t]) :
    t.isInitable = true := by
  cases h with
  | initable_variable h => cases h; rfl
  | initable_tuple h => cases h; rfl

theorem assignable_isAssignable {s : Text} {t : Tree}
    (h : Derives .definition_assignable s [t]) : t.isAssignable = true := by
  cases h with
  | assignable_variable h => cases h; rfl
  | assignable_tuple h => cases h; rfl
  | assignable_block h => cases h; rfl
  | assignable_string h => cases h; rfl
  | assignable_number h => cases h; rfl

theorem in_chain_isLink {s : Text} {t : Tree} (h : Derives .definition_in_chain s [t]) :
    t.isLink = true := by
  cases h with
  | in_chain_block h => cases h; rfl
  | in_chain_tuple h => cases h; rfl
  | in_chain_string h => cases h; rfl
  | in_chain_number h => cases h; rfl
  | in_chain_variable h => cases h; rfl

theorem mem_nodesList {ts : List Tree} {x : Tree} :
    x ∈ Tree.nodesList ts ↔ ∃ t ∈ ts, x ∈ Tree.nodes t := by
  induction ts with
  | nil => simp [Tree.nodesList]
  | cons t ts ih => simp [Tree.nodesList, ih]

/-- Every node of every derived tree obeys the restriction of its rule. -/
theorem derives_restricted {X : Sym} {s : Text} {ts : List Tree} (h : Derives X s ts) :
    ∀ x ∈ Tree.nodesList ts, x.restricted = true := by
  induction h with
  | source_file _ _ _ ih => exact ih
  | definitions_nil => intro x hx; simp [Tree.nodesList] at hx
  | definitions_cons _ _ _ iha ihb =>
    intro x hx
    simp only [Tree.nodesList, List.mem_append, List.append_nil] at hx iha
    rcases hx with hx | hx
    · exact iha x hx
    · exact ihb x hx
  | tuple_elems_nil => intro x hx; simp [Tree.nodesList] at hx
  | tuple_elems_cons _ _ _ _ iha ihb =>
    intro x hx
    simp only [Tree.nodesList, List.mem_append, List.append_nil] at hx iha
    rcases hx with hx | hx
    · exact iha x hx
    · exact ihb x hx
  | block _ _ _ _ ih =>
    intro x hx
    simp only [Tree.nodesList, Tree.nodes, List.append_nil, List.mem_cons] at hx
    rcases hx with rfl | hx
    · rfl
    · exact ih x hx
  | tuple _ _ _ _ ih =>
    intro x hx
    simp only [Tree.nodesList, Tree.nodes, List.append_nil, List.mem_cons] at hx
    rcases hx with rfl | hx
    · rfl
    · exact ih x hx
  | if_then _ _ _ _ ihb ihc =>
    intro x hx
    simp only [Tree.nodesList, Tree.nodes, Tree.nodesOpt, List.append_nil, List.mem_cons,
      List.mem_append] at hx ihb ihc
    rcases hx with rfl | hx | hx
    · rfl
    · exact ihb x hx
    · exact ihc x hx
  | if_then_else _ _ _ _ _ _ ihb ihc ihe =>
    intro x hx
    simp only [Tree.nodesList, Tree.nodes, Tree.nodesOpt, List.append_nil, List.mem_cons,
      List.mem_append] at hx ihb ihc ihe
    rcases hx with rfl | (hx | hx) | hx
    · rfl
    · exact ihb x hx
    · exact ihc x hx
    · exact ihe x hx
  | func ha _ _ _ iha ihc =>
    intro x hx
    simp only [Tree.nodesList, Tree.nodes, List.append_nil, List.mem_cons,
      List.mem_append] at hx iha ihc
    rcases hx with rfl | hx | hx
    · exact assignable_isAssignable ha
    · exact iha x hx
    · exact ihc x hx
  | init ha _ _ _ iha ihc =>
    intro x hx
    simp only [Tree.nodesList, Tree.nodes, List.append_nil, List.mem_cons,
      List.mem_append] at hx iha ihc
    rcases hx with rfl | hx | hx
    · exact initable_isInitable ha
    · exact iha x hx
    · exact ihc x hx
  | assign ha _ _ _ iha ihc =>
    intro x hx
    simp only [Tree.nodesList, Tree.nodes, List.append_nil, List.mem_cons,
      List.mem_append] at hx iha ihc
    rcases hx with rfl | hx | hx
    · exact assignable_isAssignable ha
    · exact iha x hx
    · exact ihc x hx
  | chain _ hb _ ihb =>
    intro x hx
    simp only [Tree.nodesList, Tree.nodes, List.append_nil, List.mem_cons] at hx ihb
    rcases hx with rfl | hx
    · exact in_chain_isLink hb
    · exact ihb x hx
  | number _ =>
    intro x hx
    simp only [Tree.nodesList, Tree.nodes, List.append_nil, List.mem_singleton] at hx
    subst hx; rfl
  | variable_ _ =>
    intro x hx
    simp only [Tree.nodesList, Tree.nodes, List.append_nil, List.mem_singleton] at hx
    subst hx; rfl
  | string _ _ _ _ =>
    intro x hx
    simp only [Tree.nodesList, Tree.nodes, List.append_nil, List.mem_singleton] at hx
    subst hx; rfl
  | _ _ ih => exact ih

theorem accepts_number_func :
    Accepts "5 -> x".toList [.func (.number "5".toList) (.variable "x".toList)] :=
  accepts_single (.definition_func
    (.func (a := "5".toList) (b := " ->".toList) (c := " x".toList)
      (.assignable_number (.number (pat_self (by decide))))
      (lit_after "->" [' '] rfl)
      (derives_variable [' '] "x".toList rfl (by decide)) rfl))

theorem accepts_block_func :
    Accepts "{a} -> x".toList
      [.func (.block [.variable "a".toList]) (.variable "x".toList)] :=
  accepts_single (.definition_func
    (.func (a := "{a}".toList) (b := " ->".toList) (c := " x".toList)
      (.assignable_block (.block (a := ['{']) (b := ['a']) (c := ['}']) (lit_self "\x7b")
        (.definitions_cons (derives_variable [] "a".toList rfl (by decide))
          .definitions_nil rfl) (lit_self "\x7d") rfl))
      (lit_after "->" [' '] rfl)
      (derives_variable [' '] "x".toList rfl (by decide)) rfl))

/-- C2, counterexample: `5 -> x` and `{a} -> x` are accepted as a Func whose argument
is a number literal, respectively a block. -/
theorem C2_counterexample :
    Accepts "5 -> x".toList [.func (.number "5".toList) (.variable "x".toList)] ∧
    Accepts "{a} -> x".toList
      [.func (.block [.variable "a".toList]) (.variable "x".toList)] :=
  ⟨accepts_number_func, accepts_block_func⟩

/-- C2, amended: in every syntax tree the grammar derives from `source_file`, the
argument of every Func node is a Variable, a Tuple, a Block, a StringLit or a
NumberLit (`func_arg` is `definition_assignable`). -/
theorem C2_func_arg_is_assignable (s : Text) (ts : List Tree) (h : Accepts s ts)
    (arg body : Tree) (hn : Tree.func arg body ∈ Tree.nodesList ts) :
    arg.isAssignable = true :=
  derives_restricted h _ hn

/-- C2, the amended claim at `5 -> x`. -/
theorem C2_func_arg_is_assignable_witness :
    Accepts "5 -> x".toList [.func (.number "5".toList) (.variable "x".toList)] ∧
    (Tree.number "5".toList).isAssignable = true :=
  ⟨accepts_number_func, C2_func_arg_is_assignable "5 -> x".toList
    [.func (.number "5".toList) (.variable "x".toList)] accepts_number_func
    (.number "5".toList) (.variable "x".toList) (by decide)⟩

/-! ## C3: a number is no init target -/

theorem isDigit_toNat {c : Char} (h : isDigit c = true) : 48 ≤ c.toNat ∧ c.toNat ≤ 57 := by
  simp only [isDigit, Bool.and_eq_true, decide_eq_true_eq] at h
  exact h

theorem isSpace_false_of_ascii {c : Char} (h1 : 33 ≤ c.toNat) (h2 : c.toNat ≤ 126) :
    isSpace c = false := by
  have e1 : c ≠ ' ' := by rintro rfl; revert h1; decide
  have e2 : c ≠ '\t' := by rintro rfl; revert h1; decide
  have e3 : c ≠ '\n' := by rintro rfl; revert h1; decide
  have e4 : c ≠ '\r' := by rintro rfl; revert h1; decide
  simp only [isSpace, Bool.or_eq_false_iff, beq_eq_false_iff_ne, ne_eq, Bool.and_eq_false_imp,
    decide_eq_true_eq, decide_eq_false_iff_not, not_le]
  refine ⟨⟨⟨⟨⟨⟨⟨⟨⟨⟨⟨⟨⟨⟨e1, e2⟩, e3⟩, e4⟩, ?_⟩, ?_⟩, ?_⟩, ?_⟩, ?_⟩, ?_⟩, ?_⟩, ?_⟩, ?_⟩, ?_⟩, ?_⟩ <;> omega

theorem isNumChar_ascii {c : Char} (h : isNumChar c = true) : 33 ≤ c.toNat ∧ c.toNat ≤ 126 := by
  simp only [isNumChar, Bool.or_eq_true, beq_iff_eq] at h
  rcases h with ((h | rfl) | rfl) | rfl
  · have := isDigit_toNat h; omega
  · decide
  · decide
  · decide

theorem isNumChar_not_space {c : Char} (h : isNumChar c = true) : isSpace c = false :=
  isSpace_false_of_ascii (isNumChar_ascii h).1 (isNumChar_ascii h).2

theorem isVariableChar_not_space {c : Char} (h : isVariableChar c = true) :
    isSpace c = false := by
  simp only [isVariableChar, Bool.not_eq_true', Bool.or_eq_false_iff] at h
  exact h.1.1.1.1.1.1.1.1.1.1.1

theorem isVariableChar_not_digit {c : Char} (h : isVariableChar c = true) :
    isDigit c = false := by
  simp only [isVariableChar, Bool.not_eq_true', Bool.or_eq_false_iff] at h
  exact h.1.2

theorem isVariableChar_not_colon {c : Char} (h : isVariableChar c = true) : c ≠ ':' := by
  rintro rfl
  revert h
  decide

/-- A number literal is not empty, is made of digits, signs and dots, and ends with a
digit. -/
theorem number_shape {n : Text} (h : number.fullMatch n = true) :
    allIn isNumChar n ∧ ∃ u d, n = u ++ [d] ∧ isDigit d = true := by
  have last : ∀ ds : Text, ds ≠ [] → allIn isDigit ds → ∃ u d, ds = u ++ [d] ∧ isDigit d = true := by
    intro ds hne hd
    refine ⟨ds.dropLast, ds.getLast hne, (List.dropLast_append_getLast hne).symm, ?_⟩
    exact hd _ (List.getLast_mem hne)
  have dig : ∀ ds : Text, allIn isDigit ds → allIn isNumChar ds := by
    intro ds hd c hc
    simp [isNumChar, hd c hc]
  rcases (number_fullMatch_iff n).1 h with ⟨sg, ds, rfl, hsg, hne, hd⟩ | ⟨ds, fs, rfl, _, hd, hne, hf⟩
  · constructor
    · intro c hc
      rcases List.mem_append.1 hc with hc | hc
      · rcases hsg with rfl | ⟨e, rfl, he⟩
        · simp at hc
        · simp only [List.mem_singleton] at hc
          subst hc
          simp only [isSign, Bool.or_eq_true, beq_iff_eq] at he
          rcases he with rfl | rfl <;> decide
      · exact dig ds hd c hc
    · obtain ⟨u, d, rfl, hdd⟩ := last ds hne hd
      exact ⟨sg ++ u, d, by simp, hdd⟩
  · constructor
    · intro c hc
      rcases List.mem_append.1 hc with hc | hc
      · exact dig ds hd c hc
      · rcases List.mem_cons.1 hc with rfl | hc
        · decide
        · exact dig fs hf c hc
    · obtain ⟨u, d, rfl, hdd⟩ := last fs hne hf
      exact ⟨ds ++ '.' :: u, d, by simp, hdd⟩

/-- A text without a space that begins `m ++ " ..."` lies inside `m`. -/
theorem no_space_inside (u : Text) : ∀ (m rest x : Text), (∀ c ∈ u, c ≠ ' ') →
    u ++ rest = m ++ ' ' :: x → ∃ m1, m = u ++ m1 := by
  induction u with
  | nil => intro m _ _ _ _; exact ⟨m, rfl⟩
  | cons c u ih =>
    intro m rest x hu h
    cases m with
    | nil =>
      simp only [List.cons_append, List.nil_append, List.cons.injEq] at h
      exact absurd h.1 (hu c (List.mem_cons_self _ _))
    | cons d m =>
      simp only [List.cons_append, List.cons.injEq] at h
      obtain ⟨m1, rfl⟩ := ih m rest x (fun e he => hu e (List.mem_cons_of_mem _ he)) h.2
      exact ⟨m1, by rw [h.1]; rfl⟩

/-- Where a token can begin in `m ++ " :" ++ q` when `m` has no whitespace: at the
first character of `m`, or, when `m` is empty, at the colon. -/
theorem token_start {ws rest m q : Text} {f : Char} {tok : Text} (hws : allSpace ws = true)
    (hm : ∀ c ∈ m, isSpace c = false) (hf : isSpace f = false)
    (h : ws ++ f :: tok ++ rest = m ++ ' ' :: ':' :: q) :
    (m = [] ∧ f = ':' ∧ ws = [' '] ∧ tok ++ rest = q) ∨
    (ws = [] ∧ ∃ m1, m = f :: m1 ∧ tok ++ rest = m1 ++ ' ' :: ':' :: q) := by
  cases m with
  | nil =>
    left
    cases ws with
    | nil =>
      simp only [List.nil_append, List.cons_append, List.cons.injEq] at h
      rw [h.1] at hf
      exact absurd hf (by decide)
    | cons w ws =>
      cases ws with
      | nil =>
        simp only [List.nil_append, List.cons_append, List.cons.injEq] at h
        exact ⟨rfl, h.2.1, by rw [h.1], h.2.2⟩
      | cons v ws =>
        simp only [List.nil_append, List.cons_append, List.cons.injEq] at h
        simp only [allSpace, List.all_cons, Bool.and_eq_true] at hws
        rw [h.2.1] at hws
        exact absurd hws.2.1 (by decide)
  | cons c m =>
    right
    cases ws with
    | nil =>
      simp only [List.nil_append, List.cons_append, List.cons.injEq] at h
      exact ⟨rfl, m, by rw [h.1], h.2⟩
    | cons w ws =>
      simp only [List.cons_append, List.cons.injEq] at h
      simp only [allSpace, List.all_cons, Bool.and_eq_true] at hws
      have := hm c (List.mem_cons_self _ _)
      rw [← h.1, hws.1] at this
      exact Bool.noConfusion this

theorem numCtx_suffix {p m : Text} (h : NumCtx (p ++ m)) : NumCtx m :=
  ⟨fun c hc => h.1 c (List.mem_append_right _ hc),
    fun u d e => h.2 (p ++ u) d (by rw [e, List.append_assoc])⟩

theorem numCtx_no_space {m : Text} (h : NumCtx m) : ∀ c ∈ m, isSpace c = false :=
  fun c hc => isNumChar_not_space (h.1 c hc)

theorem lit_start {l : String} {a rest m q : Text} (h : Lit l a) (f : Char) (tok : Text)
    (hl : l.toList = f :: tok) (hf : isSpace f = false) (hm : NumCtx m)
    (heq : a ++ rest = m ++ ' ' :: ':' :: q) :
    (m = [] ∧ f = ':') ∨
    (a = l.toList ∧ ∃ m1, m = f :: m1 ∧ tok ++ rest = m1 ++ ' ' :: ':' :: q) := by
  obtain ⟨ws, hws, rfl⟩ := h
  rw [hl] at heq ⊢
  rcases token_start hws (numCtx_no_space hm) hf heq with ⟨h1, h2, _, _⟩ | ⟨h1, h2⟩
  · exact Or.inl ⟨h1, h2⟩
  · right
    rw [h1]
    exact ⟨rfl, h2⟩

/-- A literal whose first character is neither whitespace, nor a colon, nor a number
character cannot come next in the text of C3. -/
theorem lit_impossible {l : String} {a rest m q : Text} (h : Lit l a) (f : Char) (tok : Text)
    (hl : l.toList = f :: tok) (hf : isSpace f = false) (hc : f ≠ ':')
    (hn : isNumChar f = false) (hm : NumCtx m) (heq : a ++ rest = m ++ ' ' :: ':' :: q) :
    False := by
  rcases lit_start h f tok hl hf hm heq with ⟨_, h2⟩ | ⟨_, m1, rfl, _⟩
  · exact hc h2
  · have := hm.1 f (List.mem_cons_self _ _)
    rw [hn] at this
    exact Bool.noConfusion this

theorem arrow_impossible {a rest m q : Text} (h : Lit "->" a) (hm : NumCtx m)
    (heq : a ++ rest = m ++ ' ' :: ':' :: q) : False := by
  rcases lit_start h '-' ['>'] rfl (by decide) hm heq with ⟨_, h2⟩ | ⟨_, m1, rfl, h3⟩
  · exact absurd h2 (by decide)
  · cases m1 with
    | nil =>
      simp only [List.cons_append, List.nil_append, List.cons.injEq] at h3
      exact absurd h3.1 (by decide)
    | cons d m1 =>
      simp only [List.cons_append, List.nil_append, List.cons.injEq] at h3
      have := hm.1 d (List.mem_cons_of_mem _ (List.mem_cons_self _ _))
      rw [← h3.1] at this
      exact absurd this (by decide)

theorem dot_inside {a rest m q : Text} (h : Lit "." a) (hm : NumCtx m)
    (heq : a ++ rest = m ++ ' ' :: ':' :: q) : ∃ m1, m = a ++ m1 := by
  rcases lit_start h '.' [] rfl (by decide) hm heq with ⟨_, h2⟩ | ⟨h1, m1, rfl, _⟩
  · exact absurd h2 (by decide)
  · exact ⟨m1, by rw [h1]; rfl⟩

theorem colonequals_at_end {a rest m q : Text} (h : Lit ":=" a) (hm : NumCtx m)
    (heq : a ++ rest = m ++ ' ' :: ':' :: q) : m = [] := by
  rcases lit_start h ':' ['='] rfl (by decide) hm heq with ⟨h1, _⟩ | ⟨_, m1, rfl, _⟩
  · exact h1
  · have := hm.1 ':' (List.mem_cons_self _ _)
    exact absurd this (by decide)

/-- A pattern token made of characters other than whitespace and the colon lies
inside the left context. -/
theorem pat_inside {r : RE} {a tok rest m q : Text} (h : Pat r a tok) (hne : tok ≠ [])
    (hs : ∀ c ∈ tok, isSpace c = false) (hc : ∀ c ∈ tok, c ≠ ':') (hm : NumCtx m)
    (heq : a ++ rest = m ++ ' ' :: ':' :: q) : ∃ m1, m = a ++ m1 := by
  obtain ⟨ws, hws, _, rfl⟩ := h
  cases tok with
  | nil => exact absurd rfl hne
  | cons f tok =>
    rcases token_start hws (numCtx_no_space hm) (hs f (List.mem_cons_self _ _)) heq with
      ⟨_, h2, _, _⟩ | ⟨h1, m1, rfl, h3⟩
    · exact absurd h2 (hc f (List.mem_cons_self _ _))
    · have hsp : ∀ c ∈ tok, c ≠ ' ' := by
        intro c hcm e
        have := hs c (List.mem_cons_of_mem _ hcm)
        rw [e] at this
        exact absurd this (by decide)
      obtain ⟨m2, rfl⟩ := no_space_inside tok m1 rest _ hsp h3
      exact ⟨m2, by rw [h1]; rfl⟩

/-- The text of a variable or a tuple ends with a character that is not a digit. -/
theorem initable_last {a : Text} {ts : List Tree} (h : Derives .definition_initable a ts) :
    ∃ u c, a = u ++ [c] ∧ isDigit c = false := by
  cases h with
  | initable_variable h =>
    cases h with
    | @variable_ _ tok hp =>
      obtain ⟨ws, _, hm, rfl⟩ := hp
      obtain ⟨hne, hall⟩ := (variable_fullMatch_iff tok).1 hm
      refine ⟨ws ++ tok.dropLast, tok.getLast hne, ?_, ?_⟩
      · rw [List.append_assoc, List.dropLast_append_getLast hne]
      · exact isVariableChar_not_digit (hall _ (List.getLast_mem hne))
  | initable_tuple h =>
    cases h with
    | @tuple _ x y _ _ ha hb hc hs =>
      obtain ⟨ws, _, rfl⟩ := hc
      subst hs
      exact ⟨x ++ y ++ ws, ')', by simp, by decide⟩

/-- Every rule that derives a front part of `m ++ " :" ++ q`, where `m` is made of
number characters and ends with a digit, derives a front part of `m`. -/
theorem derives_inside {X : Sym} {s : Text} {ts : List Tree} (h : Derives X s ts) :
    X ≠ .source_file → X ≠ .tuple_elems → ∀ m q rest, NumCtx m →
    s ++ rest = m ++ ' ' :: ':' :: q → ∃ m1, m = s ++ m1 := by
  induction h with
  | source_file _ _ _ _ => intro h; exact absurd rfl h
  | tuple_elems_nil => intro _ h; exact absurd rfl h
  | tuple_elems_cons _ _ _ _ _ _ => intro _ h; exact absurd rfl h
  | definitions_nil => intro _ _ m _ _ _ _; exact ⟨m, rfl⟩
  | definitions_cons _ _ hs iha ihb =>
    intro _ _ m q rest hm heq
    subst hs
    rw [List.append_assoc] at heq
    obtain ⟨m1, rfl⟩ := iha (by decide) (by decide) m q _ hm heq
    rw [List.append_assoc, List.append_cancel_left_eq] at heq
    obtain ⟨m2, rfl⟩ := ihb (by decide) (by decide) m1 q rest (numCtx_suffix hm) heq
    exact ⟨m2, by simp⟩
  | block ha _ _ hs _ =>
    intro _ _ m q rest hm heq
    subst hs
    rw [List.append_assoc, List.append_assoc] at heq
    exact (lit_impossible ha '{' [] rfl (by decide) (by decide) (by decide) hm heq).elim
  | tuple ha _ _ hs _ =>
    intro _ _ m q rest hm heq
    subst hs
    rw [List.append_assoc, List.append_assoc] at heq
    exact (lit_impossible ha '(' [] rfl (by decide) (by decide) (by decide) hm heq).elim
  | if_then ha _ _ hs _ _ =>
    intro _ _ m q rest hm heq
    subst hs
    rw [List.append_assoc, List.append_assoc] at heq
    exact (lit_impossible ha 'i' ['f'] rfl (by decide) (by decide) (by decide) hm heq).elim
  | if_then_else ha _ _ _ _ hs _ _ _ =>
    intro _ _ m q rest hm heq
    subst hs
    simp only [List.append_assoc] at heq
    exact (lit_impossible ha 'i' ['f'] rfl (by decide) (by decide) (by decide) hm heq).elim
  | string ha _ _ hs =>
    intro _ _ m q rest hm heq
    subst hs
    rw [List.append_assoc, List.append_assoc] at heq
    exact (lit_impossible ha '"' [] rfl (by decide) (by decide) (by decide) hm heq).elim
  | func _ hb _ hs iha _ =>
    intro _ _ m q rest hm heq
    subst hs
    simp only [List.append_assoc] at heq
    obtain ⟨m1, rfl⟩ := iha (by decide) (by decide) m q _ hm heq
    rw [List.append_assoc, List.append_cancel_left_eq] at heq
    exact (arrow_impossible hb (numCtx_suffix hm) heq).elim
  | assign _ hb _ hs iha _ =>
    intro _ _ m q rest hm heq
    subst hs
    simp only [List.append_assoc] at heq
    obtain ⟨m1, rfl⟩ := iha (by decide) (by decide) m q _ hm heq
    rw [List.append_assoc, List.append_cancel_left_eq] at heq
    exact (lit_impossible hb '=' [] rfl (by decide) (by decide) (by decide)
      (numCtx_suffix hm) heq).elim
  | init ha hb _ hs iha _ =>
    intro _ _ m q rest hm heq
    subst hs
    simp only [List.append_assoc] at heq
    obtain ⟨m1, rfl⟩ := iha (by decide) (by decide) m q _ hm heq
    rw [List.append_assoc, List.append_cancel_left_eq] at heq
    have h0 := colonequals_at_end hb (numCtx_suffix hm) heq
    subst h0
    obtain ⟨u, c, hu, hc⟩ := initable_last ha
    have := hm.2 u c (by rw [List.append_nil]; exact hu)
    rw [hc] at this
    exact Bool.noConfusion this
  | chain ha _ hs ihb =>
    intro _ _ m q rest hm heq
    subst hs
    rw [List.append_assoc] at heq
    obtain ⟨m1, rfl⟩ := dot_inside ha hm heq
    rw [List.append_assoc, List.append_cancel_left_eq] at heq
    obtain ⟨m2, rfl⟩ := ihb (by decide) (by decide) m1 q rest (numCtx_suffix hm) heq
    exact ⟨m2, by simp⟩
  | @number s tok hp =>
    intro _ _ m q rest hm heq
    have hsh : number.fullMatch tok = true := by
      obtain ⟨_, _, h, _⟩ := hp
      exact h
    obtain ⟨hall, u, d, hu, _⟩ := number_shape hsh
    refine pat_inside hp (by rw [hu]; simp) (fun c hc => isNumChar_not_space (hall c hc)) ?_ hm heq
    intro c hc e
    have := hall c hc
    rw [e] at this
    exact absurd this (by decide)
  | @variable_ s tok hp =>
    intro _ _ m q rest hm heq
    have hsh : variable_pattern.fullMatch tok = true := by
      obtain ⟨_, _, h, _⟩ := hp
      exact h
    obtain ⟨hne, hall⟩ := (variable_fullMatch_iff tok).1 hsh
    exact pat_inside hp hne (fun c hc => isVariableChar_not_space (hall c hc))
      (fun c hc => isVariableChar_not_colon (hall c hc)) hm heq
  | _ _ ih =>
    intro _ _ m q rest hm heq
    exact ih (by decide) (by decide) m q rest hm heq

/-- C3: a number is never an Init target.  For every number literal `n` (a text the
number pattern matches) and every text `s`, the text n ` := ` s is rejected by
`source_file`: it has no syntax tree at all. -/
theorem C3_number_is_no_init_target (n s : Text) (hn : number.fullMatch n = true) :
    ¬ ∃ ts, Accepts (n ++ " := ".toList ++ s) ts := by
  rintro ⟨ts, h⟩
  obtain ⟨hall, u, d, hu, hd⟩ := number_shape hn
  have hm : NumCtx n := by
    refine ⟨hall, fun u1 d1 e => ?_⟩
    rw [hu] at e
    have := List.append_inj_right' e rfl
    simp only [List.cons.injEq, and_true] at this
    rw [← this]
    exact hd
  cases h with
  | source_file hd hws hs =>
    rename_i a ws
    have heq : a ++ ws = n ++ ' ' :: ':' :: ('=' :: ' ' :: s) := by
      rw [← hs]; simp
    obtain ⟨m1, rfl⟩ := derives_inside hd (by decide) (by decide) n _ ws hm heq
    rw [List.append_assoc, List.append_cancel_left_eq] at heq
    rw [heq] at hws
    simp only [allSpace, List.all_append, List.all_cons, Bool.and_eq_true] at hws
    exact absurd hws.2.2.1 (by decide)

/-- C3 at the number literal `5` and the text `x`: `5 := x` has no syntax tree. -/
theorem C3_number_is_no_init_target_witness :
    number.fullMatch "5".toList = true ∧ ¬ ∃ ts, Accepts "5 := x".toList ts :=
  ⟨by decide, C3_number_is_no_init_target "5".toList "x".toList (by decide)⟩

/-! ## C4: an init after a dot -/

theorem accepts_paren_init_link :
    Accepts "a.( x := 1 )".toList
      [.variable "a".toList,
        .chain (.tuple [.init (.variable "x".toList) (.number "1".toList)])] :=
  accepts_of_definitions
    (.definitions_cons (a := "a".toList) (b := ".( x := 1 )".toList)
      (derives_variable [] "a".toList rfl (by decide))
      (.definitions_cons (a := ".( x := 1 )".toList) (b := [])
        (.definition_chain (.chain (a := ".".toList) (b := "( x := 1 )".toList) (lit_self ".")
          (.in_chain_tuple (.tuple (a := "(".toList) (b := " x := 1 ".toList) (c := ")".toList)
            (lit_self "(")
            (.tuple_elems_cons (a := " x := 1".toList) (b := " ".toList) (c := [])
              (.definition_init (.init (a := " x".toList) (b := " :=".toList) (c := " 1".toList)
                (.initable_variable (.variable_ (pat_after [' '] rfl (by decide))))
                (lit_after ":=" [' '] rfl)
                (derives_number [' '] "1".toList rfl (by decide)) rfl))
              (pat_self (by decide)) .tuple_elems_nil rfl)
            (lit_self ")") rfl)) rfl))
        .definitions_nil rfl) rfl)

/-- C4, counterexample: in `a.(x:=1 )` a dot is followed by a parenthesised Init, and
parsing does not fail: the text is accepted as `Variable(a)` and a chain whose link is
the Tuple that holds the Init. -/
theorem C4_counterexample :
    parseFile "a.(x:=1 )".toList =
      some [.variable "a".toList,
        .chain (.tuple [.init (.variable "x".toList) (.number "1".toList)])] := by
  decide

/-- C4, amended: an Init may not be the link of a chain itself: in every syntax tree
the link of a chain is a Block, Tuple, StringLit, NumberLit or Variable, never an
Init, and `a.x := 1` is rejected.  A parenthesised Init after a dot is a Tuple link
that holds the Init, and is accepted where the tuple is: `a.(x:=1 )` is
`Variable(a), chain(Tuple[Init(Variable(x), NumberLit(1))])`.  The text `a.( x := 1 )`
is rejected, but not for the Init: the whitespace after `x` is read as the separator
that ends the element `x`, and no element starts with `:=`; the tuple `( x := 1 )`
is rejected without a dot as well. -/
theorem C4_init_is_a_link_only_inside_a_tuple :
    (∀ (s : Text) (ts : List Tree), Accepts s ts →
      ∀ l, Tree.chain l ∈ Tree.nodesList ts →
        l.isLink = true ∧ ∀ a b, l ≠ .init a b) ∧
    parseFile "a.x := 1".toList = Option.none ∧
    parseFile "a.( x := 1 )".toList = Option.none ∧
    parseFile "( x := 1 )".toList = Option.none ∧
    parseFile "a.(x:=1 )".toList =
      some [.variable "a".toList,
        .chain (.tuple [.init (.variable "x".toList) (.number "1".toList)])] := by
  refine ⟨?_, by decide, by decide, by decide, by decide⟩
  intro s ts h l hl
  have h1 : l.isLink = true := derives_restricted h _ hl
  refine ⟨h1, ?_⟩
  rintro a b rfl
  exact Bool.noConfusion h1

/-- C4, the amended claim at `a.(x:=1 )`: the link is a Tuple, not an Init. -/
theorem C4_init_is_a_link_only_inside_a_tuple_witness :
    (Tree.tuple [.init (.variable "x".toList) (.number "1".toList)]).isLink = true ∧
    ∀ a b, Tree.tuple [.init (.variable "x".toList) (.number "1".toList)] ≠ .init a b :=
  C4_init_is_a_link_only_inside_a_tuple.1 "a.(x:=1 )".toList
    [.variable "a".toList,
      .chain (.tuple [.init (.variable "x".toList) (.number "1".toList)])]
    (parseFile_sound (by decide)) _ (by decide)

/-! ## C5: tuple separators -/

theorem derives_elems (elems : List (Text × Text × Tree))
    (h : ∀ x ∈ elems, Derives .definition x.1 [x.2.2] ∧ tuple_separator.fullMatch x.2.1 = true) :
    Derives .tuple_elems (elemsText elems) (elems.map fun x => x.2.2) := by
  induction elems with
  | nil => exact .tuple_elems_nil
  | cons x elems ih =>
    have hx := h x (List.mem_cons_self _ _)
    have ht := ih (fun y hy => h y (List.mem_cons_of_mem _ hy))
    refine .tuple_elems_cons (a := x.1) (b := x.2.1) (c := elemsText elems) hx.1
      (pat_self hx.2) ht ?_
    simp [elemsText]

theorem derives_tuple_of_elems (elems : List (Text × Text × Tree))
    (h : ∀ x ∈ elems, Derives .definition x.1 [x.2.2] ∧ tuple_separator.fullMatch x.2.1 = true) :
    Derives .tuple ('(' :: elemsText elems ++ [')']) [.tuple (elems.map fun x => x.2.2)] :=
  .tuple (a := ['(']) (b := elemsText elems) (c := [')']) (lit_self "(")
    (derives_elems elems h) (lit_self ")") rfl

/-- A derivation by `tuple` of the whole text is listed by `tupleP`. -/
theorem tupleP_complete {s : Text} {ts : List Tree} (h : Derives .tuple s ts) :
    ∃ t, ts = [t] ∧ (t, []) ∈ tupleP (definitionP s.length) s := by
  have h1 := derives_complete h
  simp only [CompleteFor] at h1
  cases h with
  | tuple ha hb hc hs =>
    refine ⟨_, rfl, ?_⟩
    have := h1 s.length [] _ (Nat.le_succ _) rfl
    simpa using this

/-- The separator texts are the tokens of the separator pattern, after any
whitespace. -/
theorem isSeparator_iff (x : Text) : IsSeparator x ↔ ∃ sep, Pat tuple_separator x sep := by
  constructor
  · rintro (⟨w, ws, rfl, hw, hws⟩ | ⟨hne, hx⟩)
    · exact ⟨',' :: ws, w, hw, (tuple_separator_fullMatch_iff _).2 (Or.inl ⟨ws, rfl, hws⟩), rfl⟩
    · exact ⟨x, [], rfl, (tuple_separator_fullMatch_iff _).2 (Or.inr ⟨hne, hx⟩), rfl⟩
  · rintro ⟨sep, w, hw, hm, rfl⟩
    rcases (tuple_separator_fullMatch_iff sep).1 hm with ⟨ws, rfl, hws⟩ | ⟨hne, hs⟩
    · exact Or.inl ⟨w, ws, rfl, hw, hws⟩
    · exact Or.inr ⟨by simp [hne], allSpace_append hw hs⟩

/-- A derivation of `repeat(seq($.definition, $.tuple_separator))` is a list of
elements, each a definition followed by a separator. -/
theorem tuple_elems_inv {X : Sym} {s : Text} {ts : List Tree} (h : Derives X s ts) :
    X = .tuple_elems → ∃ elems : List (Text × Text × Tree),
      (∀ x ∈ elems, Derives .definition x.1 [x.2.2] ∧ IsSeparator x.2.1) ∧
      s = elemsText elems ∧ ts = elems.map fun x => x.2.2 := by
  induction h with
  | tuple_elems_nil => intro _; exact ⟨[], by simp, rfl, rfl⟩
  | @tuple_elems_cons s a b c t ts sep ha hb hc hs _ ihc =>
    intro _
    obtain ⟨elems, h1, rfl, rfl⟩ := ihc rfl
    refine ⟨(a, b, t) :: elems, ?_, ?_, rfl⟩
    · intro x hx
      rcases List.mem_cons.1 hx with rfl | hx
      · exact ⟨ha, (isSeparator_iff b).2 ⟨sep, hb⟩⟩
      · exact h1 x hx
    · rw [hs]
      simp [elemsText]
  | _ => intro e; cases e

theorem elemsText_append (xs ys : List (Text × Text × Tree)) :
    elemsText (xs ++ ys) = elemsText xs ++ elemsText ys := by
  induction xs with
  | nil => rfl
  | cons x xs ih => simp [elemsText] at ih ⊢

/-- A text the tuple rule derives is `(`, elements each followed by a separator, `)`. -/
theorem tuple_shape {s : Text} {ts : List Tree} (h : Derives .tuple s ts) :
    ∃ (w0 w1 : Text) (elems : List (Text × Text × Tree)),
      allSpace w0 = true ∧ allSpace w1 = true ∧
      (∀ x ∈ elems, Derives .definition x.1 [x.2.2] ∧ IsSeparator x.2.1) ∧
      s = w0 ++ '(' :: elemsText elems ++ w1 ++ [')'] ∧
      ts = [.tuple (elems.map fun x => x.2.2)] := by
  cases h with
  | @tuple _ a b c us ha hb hc hs =>
    obtain ⟨w0, hw0, rfl⟩ := ha
    obtain ⟨w1, hw1, rfl⟩ := hc
    obtain ⟨elems, h1, rfl, rfl⟩ := tuple_elems_inv hb rfl
    refine ⟨w0, w1, elems, hw0, hw1, h1, ?_, rfl⟩
    rw [hs]
    show w0 ++ ['('] ++ elemsText elems ++ (w1 ++ [')']) = _
    simp

/-- A text accepted as one tuple is the text of the tuple and whitespace after it. -/
theorem accepts_tuple_inv {s : Text} {xs : List Tree} (h : Accepts s [.tuple xs]) :
    ∃ a w, allSpace w = true ∧ s = a ++ w ∧ Derives .tuple a [.tuple xs] := by
  cases h with
  | @source_file _ a w _ hd hw hs =>
    cases hd with
    | @definitions_cons _ a1 b _ _ h1 h2 hs2 =>
      cases h2
      refine ⟨a1, w, hw, by rw [hs, hs2]; simp, ?_⟩
      cases h1 with
      | definition_tuple h => exact h
      | definition_init h => cases h
      | definition_assign h => cases h
      | definition_if h => cases h
      | definition_func h => cases h
      | definition_block h => cases h
      | definition_chain h => cases h
      | definition_string h => cases h
      | definition_number h => cases h
      | definition_variable h => cases h

/-- C5, counterexample: `(a, b c)`, with nothing between `c` and `)`, is not derived
by the tuple rule. -/
theorem C5_counterexample : ¬ ∃ ts, Derives .tuple "(a, b c)".toList ts := by
  rintro ⟨ts, h⟩
  obtain ⟨t, _, ht⟩ := tupleP_complete h
  have h2 : ∀ x ∈ tupleP (definitionP "(a, b c)".toList.length) "(a, b c)".toList,
      x.2 ≠ [] := by decide
  exact h2 _ ht rfl

/-- C5, amended: a comma, with or without whitespace after it, and bare whitespace are
the two forms of the separator token, and the separator stands after every element of
a tuple, the last included: in the text of a tuple with elements a separator stands
between the last element and `)`.  So `(a, b c)` is rejected.  `(a, b c )` is accepted
as a Tuple of three elements, `Variable(a,)`, `Variable(b)`, `Variable(c)`: the
variable pattern matches a comma, the longest match wins, and the comma right after
`a` is part of the name; the whitespace separates the elements. -/
theorem C5_separator_follows_every_element :
    (∀ x : Text, tuple_separator.fullMatch x = true ↔
      (∃ ws, x = ',' :: ws ∧ allSpace ws = true) ∨ (x ≠ [] ∧ allSpace x = true)) ∧
    (∀ (s : Text) (xs : List Tree), Derives .tuple s [.tuple xs] → xs ≠ [] →
      ∃ (pre d sep w : Text) (x : Tree), Derives .definition d [x] ∧
        xs.getLast? = some x ∧ IsSeparator sep ∧ allSpace w = true ∧
        s = pre ++ d ++ sep ++ w ++ [')']) ∧
    parseFile "(a, b c)".toList = Option.none ∧
    parseFile "(a, b c )".toList =
      some [.tuple [.variable "a,".toList, .variable "b".toList, .variable "c".toList]] := by
  refine ⟨tuple_separator_fullMatch_iff, fun s xs h hne => ?_, by decide, by decide⟩
  obtain ⟨w0, w1, elems, _, hw1, h1, rfl, h2⟩ := tuple_shape h
  simp only [List.cons.injEq, Tree.tuple.injEq, and_true] at h2
  subst h2
  rcases List.eq_nil_or_concat elems with rfl | ⟨init, last, rfl⟩
  · exact absurd rfl hne
  · have hl := h1 last (by simp)
    refine ⟨w0 ++ '(' :: elemsText init, last.1, last.2.1, w1, last.2.2, hl.1, by simp, hl.2,
      hw1, ?_⟩
    simp [elemsText_append, elemsText]

/-- C5, the amended claim at the one-element tuple `(a )`: the whitespace between `a`
and `)` is the separator of `a`. -/
theorem C5_separator_follows_every_element_witness :
    ∃ (pre d sep w : Text) (x : Tree), Derives .definition d [x] ∧
      [Tree.variable "a".toList].getLast? = some x ∧ IsSeparator sep ∧ allSpace w = true ∧
      "(a )".toList = pre ++ d ++ sep ++ w ++ [')'] :=
  C5_separator_follows_every_element.2.1 "(a )".toList [.variable "a".toList]
    (derives_tuple_of_elems [("a".toList, " ".toList, .variable "a".toList)]
      (by
        intro x hx
        simp only [List.mem_singleton] at hx
        subst hx
        exact ⟨derives_variable [] "a".toList rfl (by decide), by decide⟩))
    (by simp)

/-! ## C6, C7, C8: strings, numbers, the optional else -/

/-- A derivation by `string` of the whole text is listed by `stringP`. -/
theorem stringP_complete {s : Text} {ts : List Tree} (h : Derives .string s ts) :
    ∃ t, ts = [t] ∧ (t, []) ∈ stringP s := by
  have h1 := derives_complete h
  simp only [CompleteFor] at h1
  cases h with
  | string ha hb hc hs =>
    refine ⟨_, rfl, ?_⟩
    have := h1 [] _ rfl
    simpa using this

/-- C6, the code at the failing input `"a\"b"` (six characters: quote, `a`, backslash,
quote, `b`, quote): the string content pattern does not match `a\"b`, because
`[\\.]` is the class of backslash and dot, not a backslash followed by any character;
the string rule derives no tree for the text, and `source_file` accepts none. -/
theorem C6_escaped_quote_not_derived :
    string_content.fullMatch ['a', '\\', '"', 'b'] = false ∧
    (¬ ∃ ts, Derives .string ['"', 'a', '\\', '"', 'b', '"'] ts) ∧
    (¬ ∃ ts, Accepts ['"', 'a', '\\', '"', 'b', '"'] ts) := by
  refine ⟨by decide, ?_, ?_⟩
  · rintro ⟨ts, h⟩
    obtain ⟨t, _, ht⟩ := stringP_complete h
    have h2 : ∀ x ∈ stringP ['"', 'a', '\\', '"', 'b', '"'], x.2 ≠ [] := by decide
    exact h2 _ ht rfl
  · rintro ⟨ts, h⟩
    have h1 := sourceFileP_complete h
    have h2 : sourceFileP ['"', 'a', '\\', '"', 'b', '"'] = [] := by decide
    rw [h2] at h1
    exact List.not_mem_nil _ h1

/-- C7, the code at the failing inputs `-1.5` and `+0.25`: the number pattern does not
match them (the sign belongs to the integer alternative only, which matches `-1`, and
the decimal alternative, which matches `1.5`, takes no sign); no syntax tree of `-1.5`
is the single number literal `-1.5`. -/
theorem C7_signed_decimal_not_matched :
    number.fullMatch "-1.5".toList = false ∧
    number.fullMatch "+0.25".toList = false ∧
    number.fullMatch "-1".toList = true ∧
    number.fullMatch "1.5".toList = true ∧
    ¬ Accepts "-1.5".toList [.number "-1.5".toList] := by
  refine ⟨by decide, by decide, by decide, by decide, ?_⟩
  intro h
  have h1 := sourceFileP_complete h
  have h2 : ∀ ts ∈ sourceFileP "-1.5".toList, ts ≠ [.number "-1.5".toList] := by decide
  exact h2 _ h1 rfl

theorem accepts_if_else {c t w e : Text} {x y z : Tree} (hc : Derives .definition c [x])
    (ht : Derives .definition t [y]) (hw : allSpace w = true) (he : Derives .definition e [z]) :
    Accepts ("if".toList ++ c ++ t ++ (w ++ "else".toList) ++ e) [.ifNode x y (some z)] :=
  accepts_single (.definition_if (.if_then_else (lit_self "if") hc ht (lit_after "else" w hw) he rfl))

theorem accepts_if {c t : Text} {x y : Tree} (hc : Derives .definition c [x])
    (ht : Derives .definition t [y]) :
    Accepts ("if".toList ++ c ++ t) [.ifNode x y Option.none] :=
  accepts_single (.definition_if (.if_then (lit_self "if") hc ht rfl))

/-- C8, counterexample: take the definitions `a` and `if b c else d`, the second being
`If(Variable(b), Variable(c), Some(Variable(d)))`.  The text `if a if b c else d` is not
accepted as the `if` without else that has them as condition and then branch: the
`else` goes to the outer `if`. -/
theorem C8_counterexample :
    parseFile " a".toList = some [.variable "a".toList] ∧
    parseFile " if b c else d".toList =
      some [.ifNode (.variable "b".toList) (.variable "c".toList)
        (some (.variable "d".toList))] ∧
    parseFile ("if".toList ++ " a".toList ++ " if b c else d".toList) ≠
      some [.ifNode (.variable "a".toList)
        (.ifNode (.variable "b".toList) (.variable "c".toList)
          (some (.variable "d".toList))) Option.none] := by
  refine ⟨by decide, by decide, by decide⟩

/-- C8, amended: the else clause of an `if` is optional in the rule: every If node is
derived from `if` c t, with no else branch, or from `if` c t `else` e, for definitions
`c`, `t`, `e`, and `if a b else c` is `If(Variable(a), Variable(b), Some(Variable(c)))`,
`if a b` is `If(Variable(a), Variable(b), None)`.  Which `if` an `else` belongs to is
not free: where the then branch ends with an `if`, the `else` is the outer one's, so
`if a if b c else d` is `If(a, If(b, c, None), Some(d))`. -/
theorem C8_else_is_optional_in_the_rule :
    (∀ (s : Text) (ts : List Tree), Derives .if_ s ts →
      ∃ (a c t : Text) (x y : Tree), Lit "if" a ∧ Derives .definition c [x] ∧
        Derives .definition t [y] ∧
        ((s = a ++ c ++ t ∧ ts = [.ifNode x y Option.none]) ∨
          ∃ (d e : Text) (z : Tree), Lit "else" d ∧ Derives .definition e [z] ∧
            s = a ++ c ++ t ++ d ++ e ∧ ts = [.ifNode x y (some z)])) ∧
    parseFile "if a b else c".toList =
      some [.ifNode (.variable "a".toList) (.variable "b".toList)
        (some (.variable "c".toList))] ∧
    parseFile "if a b".toList =
      some [.ifNode (.variable "a".toList) (.variable "b".toList) Option.none] ∧
    parseFile "if a if b c else d".toList =
      some [.ifNode (.variable "a".toList)
        (.ifNode (.variable "b".toList) (.variable "c".toList) Option.none)
        (some (.variable "d".toList))] := by
  refine ⟨fun s ts h => ?_, by decide, by decide, by decide⟩
  cases h with
  | @if_then _ a b c x y ha hb hc hs => exact ⟨a, b, c, x, y, ha, hb, hc, Or.inl ⟨hs, rfl⟩⟩
  | @if_then_else _ a b c d e x y z ha hb hc hd he hs =>
    exact ⟨a, b, c, x, y, ha, hb, hc, Or.inr ⟨d, e, z, hd, he, hs, rfl⟩⟩

/-- C8, the amended claim at `if a b`: the If node is derived from `if`, `a`, `b`. -/
theorem C8_else_is_optional_in_the_rule_witness :
    ∃ (a c t : Text) (x y : Tree), Lit "if" a ∧ Derives .definition c [x] ∧
      Derives .definition t [y] ∧
      (("if a b".toList = a ++ c ++ t ∧
          [Tree.ifNode (.variable "a".toList) (.variable "b".toList) Option.none] =
            [.ifNode x y Option.none]) ∨
        ∃ (d e : Text) (z : Tree), Lit "else" d ∧ Derives .definition e [z] ∧
          "if a b".toList = a ++ c ++ t ++ d ++ e ∧
          [Tree.ifNode (.variable "a".toList) (.variable "b".toList) Option.none] =
            [.ifNode x y (some z)]) :=
  C8_else_is_optional_in_the_rule.1 "if a b".toList _
    (.if_then (a := "if".toList) (b := " a".toList) (c := " b".toList) (lit_self "if")
      (derives_variable [' '] "a".toList rfl (by decide))
      (derives_variable [' '] "b".toList rfl (by decide)) rfl)

/-! ## C9: the source of an init -/

theorem longestMatch_none_of {r : RE} {s : Text}
    (h : ∀ m, m ≤ s.length → r.fullMatch (s.take m) = false) :
    longestMatch r s = Option.none := by
  cases hl : longestMatch r s with
  | none => rfl
  | some n =>
    have h1 := longestMatch_sound r s n hl
    rw [h n h1.2] at h1
    exact absurd h1.1 (by simp)

/-- The longest match does not change when text is added that no match reaches. -/
theorem longestMatch_append (r : RE) (u x : Text)
    (h : ∀ m, u.length < m → m ≤ (u ++ x).length → r.fullMatch ((u ++ x).take m) = false) :
    longestMatch r (u ++ x) = longestMatch r u := by
  induction u generalizing r with
  | nil =>
    cases x with
    | nil => rfl
    | cons c cs =>
      have h1 : longestMatch (r.deriv c) cs = Option.none := by
        apply longestMatch_none_of
        intro m hm
        have := h (m + 1) (by simp) (by simpa using hm)
        simpa [RE.fullMatch] using this
      simp [longestMatch, h1]
  | cons c u ih =>
    have h1 : longestMatch (r.deriv c) (u ++ x) = longestMatch (r.deriv c) u := by
      apply ih
      intro m hm1 hm2
      have := h (m + 1) (by simpa using hm1) (by simpa using hm2)
      simpa [RE.fullMatch] using this
    simp [longestMatch, h1]

theorem literal_pattern_none {k : Kind} {l : String} (h : k.literal = some l) :
    k.pattern = Option.none := by
  cases k <;> simp [Kind.literal, Kind.pattern] at h ⊢

theorem matchLength_append {k : Kind} {u x : Text} (h : k.Bounded u x) :
    k.matchLength (u ++ x) = k.matchLength u := by
  unfold Kind.matchLength
  split
  · rename_i l hl
    have hp : l.toList.isPrefixOf (u ++ x) = l.toList.isPrefixOf u := by
      rw [Bool.eq_iff_iff, List.isPrefixOf_iff_prefix, List.isPrefixOf_iff_prefix]
      constructor
      · intro h1
        by_cases hlen : l.toList.length ≤ u.length
        · exact List.prefix_of_prefix_length_le h1 (List.prefix_append u x) hlen
        · exfalso
          refine h l.toList.length (by omega) h1.length_le ⟨fun l2 h2 => ?_, fun r hr => ?_⟩
          · rw [hl] at h2
            cases h2
            exact List.prefix_iff_eq_take.1 h1 ▸ rfl
          · rw [literal_pattern_none hl] at hr
            cases hr
      · intro h1
        exact h1.trans (List.prefix_append u x)
    rw [hp]
  · rename_i r hl hr
    have h1 : longestMatch r (u ++ x) = longestMatch r u := by
      apply longestMatch_append
      intro m hm1 hm2
      by_contra hc
      refine h m hm1 hm2 ⟨fun l2 h2 => ?_, fun r2 h2 => ?_⟩
      · rw [hl] at h2; cases h2
      · rw [hr] at h2; cases h2; simpa using hc
    rw [h1]
  · rfl

theorem candidates_append {valid : List Kind} {u x : Text}
    (h : ∀ k ∈ valid, k ≠ .eof → k.Bounded u x) :
    candidates valid (u ++ x) = candidates valid u := by
  unfold candidates
  apply List.filterMap_congr
  intro k hk
  rw [List.mem_filter] at hk
  have hv : k ∈ valid := by simpa using hk.2
  have hne : k ≠ .eof := by
    rintro rfl
    simp [Kind.all] at hk
  rw [matchLength_append (h k hv hne)]

theorem lex_eq (valid : List Kind) (s : Text) :
    lex valid s =
      match tokenStart valid s with
      | [] => if valid.contains .eof then some (.eof, [], []) else Option.none
      | _ =>
        match bestToken (candidates valid (tokenStart valid s)) with
        | some (k, n) => some (k, (tokenStart valid s).take n, (tokenStart valid s).drop n)
        | Option.none => Option.none := rfl

theorem dropWhile_append_of_ne {p : Char → Bool} {s : Text} (x : Text)
    (h : s.dropWhile p ≠ []) : (s ++ x).dropWhile p = s.dropWhile p ++ x := by
  induction s with
  | nil => simp at h
  | cons c s ih =>
    by_cases hc : p c = true
    · simp only [List.cons_append, List.dropWhile_cons, hc, if_true] at h ⊢
      exact ih h
    · simp [List.dropWhile_cons, hc]

theorem tokenStart_append {valid : List Kind} {s : Text} (x : Text)
    (h : tokenStart valid s ≠ []) : tokenStart valid (s ++ x) = tokenStart valid s ++ x := by
  unfold tokenStart at h ⊢
  split
  · rfl
  · rename_i hv
    simp only [hv] at h
    exact dropWhile_append_of_ne x (by simpa using h)

/-- The lexer does not look beyond the text when no token can be longer than it: text
added at the end is left over. -/
theorem lex_append {valid : List Kind} {s x : Text} (hne : tokenStart valid s ≠ [])
    (hb : ∀ k ∈ valid, k ≠ .eof → k.Bounded (tokenStart valid s) x) :
    lex valid (s ++ x) = (lex valid s).map fun a => (a.1, a.2.1, a.2.2 ++ x) := by
  rw [lex_eq, lex_eq, tokenStart_append x hne, candidates_append hb]
  cases hs : tokenStart valid s with
  | nil => exact absurd hs hne
  | cons c cs =>
    rw [← hs]
    simp only [List.cons_append]
    cases hbest : bestToken (candidates valid (tokenStart valid s)) with
    | none => simp [hs]
    | some a =>
      obtain ⟨k, n⟩ := a
      have h1 := matchLength_sound (mem_candidates (bestToken_mem hbest)).2
      have h2 : ((tokenStart valid s) ++ x).take n = (tokenStart valid s).take n :=
        List.take_append_of_le_length h1.2
      have h3 : ((tokenStart valid s) ++ x).drop n = (tokenStart valid s).drop n ++ x :=
        List.drop_append_of_le_length h1.2
      rw [hs] at h2 h3 ⊢
      simp only [List.cons_append] at h2 h3
      simp [h2, h3]

theorem matches_literal_chars {k : Kind} {l : String} (hl : k.literal = some l) :
    (∀ c ∈ l.toList, isSpace c = false) ∧ (')' ∈ l.toList → l.toList = [')']) := by
  cases k <;> simp only [Kind.literal, Option.some.injEq, reduceCtorEq] at hl <;> subst hl <;>
    decide

theorem matches_pattern_chars {k : Kind} {r : RE} {z : Text} (hr : k.pattern = some r)
    (hm : r.fullMatch z = true) :
    ∀ c ∈ z, c ≠ ')' ∧ (k ≠ .tuple_separator → isSpace c = false) := by
  intro c hc
  cases k <;> simp only [Kind.pattern, Option.some.injEq, reduceCtorEq] at hr <;> subst hr
  · have h1 : c = ',' ∨ isSpace c = true := by
      rcases (tuple_separator_fullMatch_iff z).1 hm with ⟨ws, rfl, hws⟩ | ⟨_, hz⟩
      · rcases List.mem_cons.1 hc with rfl | hc
        · exact Or.inl rfl
        · exact Or.inr (List.all_eq_true.1 hws c hc)
      · exact Or.inr (List.all_eq_true.1 hz c hc)
    refine ⟨?_, fun h => absurd rfl h⟩
    rintro rfl
    revert h1
    decide
  · have h1 := (number_shape hm).1 c hc
    refine ⟨?_, fun _ => isNumChar_not_space h1⟩
    rintro rfl
    revert h1
    decide
  · have h1 := ((variable_fullMatch_iff z).1 hm).2 c hc
    refine ⟨?_, fun _ => isVariableChar_not_space h1⟩
    rintro rfl
    revert h1
    decide

theorem kind_cases (k : Kind) :
    (∃ l, k.literal = some l) ∨ (∃ r, k.pattern = some r) ∨ k = .eof := by
  cases k <;> simp [Kind.literal, Kind.pattern]

theorem take_append_long {u x : Text} {m : Nat} (h1 : u.length < m) (h2 : m ≤ (u ++ x).length) :
    ∃ c x1, (u ++ x).take m = u ++ c :: x1 ∧ x.head? = some c := by
  cases x with
  | nil => simp at h2; omega
  | cons c x =>
    obtain ⟨j, hj⟩ : ∃ j, m - u.length = j + 1 := ⟨m - u.length - 1, by omega⟩
    refine ⟨c, x.take j, ?_, rfl⟩
    rw [List.take_append_eq_append_take, List.take_of_length_le (by omega), hj,
      List.take_succ_cons]

/-- No token reaches beyond a text in which `)` occurs. -/
theorem bounded_of_paren {k : Kind} {u x : Text} (hk : k ≠ .eof) (h : ')' ∈ u) :
    k.Bounded u x := by
  intro m hm1 hm2 hM
  obtain ⟨c, x1, hz, _⟩ := take_append_long hm1 hm2
  rw [hz] at hM
  obtain ⟨p, q, rfl⟩ := List.append_of_mem h
  rcases kind_cases k with ⟨l, hl⟩ | ⟨r, hr⟩ | rfl
  · have h1 := hM.1 l hl
    have h2 := (matches_literal_chars hl).2 (by rw [← h1]; simp)
    rw [← h1] at h2
    have := congrArg List.length h2
    simp at this
    omega
  · have := (matches_pattern_chars hr (hM.2 r hr) ')' (by simp)).1
    exact this rfl
  · exact hk rfl

/-- No token but the separator reaches beyond a text that is followed by whitespace. -/
theorem bounded_of_space {k : Kind} {u x : Text} {c : Char} (hk : k ≠ .eof)
    (hs : k ≠ .tuple_separator) (hc : isSpace c = true) : k.Bounded u (c :: x) := by
  intro m hm1 hm2 hM
  obtain ⟨c1, x1, hz, hh⟩ := take_append_long hm1 hm2
  simp only [List.head?_cons, Option.some.injEq] at hh
  subst hh
  rw [hz] at hM
  rcases kind_cases k with ⟨l, hl⟩ | ⟨r, hr⟩ | rfl
  · have h1 := hM.1 l hl
    have h2 := (matches_literal_chars hl).1 c (by rw [← h1]; simp)
    rw [hc] at h2
    cases h2
  · have := (matches_pattern_chars hr (hM.2 r hr) c (by simp)).2 hs
    rw [hc] at this
    cases this
  · exact hk rfl

/-- The content of a string does not reach beyond a text in which `"` occurs. -/
theorem longestMatch_string_append {s : Text} (x : Text) (h : '"' ∈ s) :
    longestMatch string_content (s ++ x) = longestMatch string_content s := by
  apply longestMatch_append
  intro m hm1 hm2
  obtain ⟨c, x1, hz, _⟩ := take_append_long hm1 hm2
  rw [hz]
  by_contra hc
  have h1 := ((string_content_fullMatch_iff _).1 (by simpa using hc)).2 '"' (by simp [h])
  exact h1 rfl

theorem free_append {x r : Text} (a : Text) (h : Free x r) : Free x (a ++ r) :=
  h.imp id fun h => List.mem_append_right _ h

theorem free_of_eq {x r s a : Text} (h : Free x r) (hs : s = a ++ r) : Free x s :=
  hs ▸ free_append a h

theorem mem_dropWhile {p : Char → Bool} {c : Char} {s : Text} (h : c ∈ s) (hc : p c = false) :
    c ∈ s.dropWhile p := by
  induction s with
  | nil => cases h
  | cons a s ih =>
    rw [List.dropWhile_cons]
    split
    · rename_i ha
      rcases List.mem_cons.1 h with rfl | h
      · rw [hc] at ha; cases ha
      · exact ih h
    · exact h

theorem lex_free {valid : List Kind} {s x : Text} (h : Free x s) :
    lex valid (s ++ x) = (lex valid s).map fun a => (a.1, a.2.1, a.2.2 ++ x) := by
  rcases h with rfl | h
  · rw [List.append_nil]
    cases lex valid s <;> simp
  · have h1 : ')' ∈ tokenStart valid s := by
      unfold tokenStart
      split
      · exact h
      · exact mem_dropWhile h (by decide)
    exact lex_append (List.ne_nil_of_mem h1) fun k _ hk => bounded_of_paren hk h1

theorem lex_free_some {valid : List Kind} {s x : Text} {k : Kind} {tok r : Text}
    (h : lex valid s = some (k, tok, r)) (hf : Free x s) :
    lex valid (s ++ x) = some (k, tok, r ++ x) := by
  rw [lex_free hf, h]
  rfl

theorem lex_free_inv {valid : List Kind} {s x : Text} {k : Kind} {tok r1 : Text}
    (hf : Free x s) (h : lex valid (s ++ x) = some (k, tok, r1)) :
    ∃ r, lex valid s = some (k, tok, r) ∧ r1 = r ++ x := by
  rw [lex_free hf] at h
  cases hl : lex valid s with
  | none => rw [hl] at h; cases h
  | some a =>
    obtain ⟨k0, tok0, r0⟩ := a
    rw [hl] at h
    simp only [Option.map_some', Option.some.injEq, Prod.mk.injEq] at h
    obtain ⟨rfl, rfl, rfl⟩ := h
    exact ⟨r0, rfl, rfl⟩

theorem lex_start_ne_nil {valid : List Kind} {s : Text} {k : Kind} {tok r : Text}
    (h : lex valid s = some (k, tok, r)) (hk : k ≠ .eof) : tokenStart valid s ≠ [] := by
  intro hs
  rw [lex_eq, hs] at h
  simp only at h
  split at h
  · cases h; exact hk rfl
  · cases h

theorem bounded_of_literal {k : Kind} {l : String} {u x : Text} (hl : k.literal = some l)
    (hu : l.toList.length ≤ u.length) : k.Bounded u x := by
  intro m hm1 hm2 hM
  have h1 := congrArg List.length (hM.1 l hl)
  rw [List.length_take, Nat.min_eq_left hm2] at h1
  omega

theorem lit_mem {l : String} {e : Text} {c : Char} (h : Lit l e) (hc : c ∈ l.toList) : c ∈ e := by
  obtain ⟨ws, _, rfl⟩ := h
  exact List.mem_append_right _ hc

/-- The parser of a string does not look beyond its closing quote. -/
theorem parseString_free {s r : Text} {t : Tree} (x : Text) (h : parseString s = some (t, r)) :
    parseString (s ++ x) = some (t, r ++ x) := by
  unfold parseString at h ⊢
  split at h
  · rename_i n hn
    split at h
    · rename_i tok r1 hq
      cases h
      have h1 := longestMatch_sound _ _ _ hn
      obtain ⟨c, hc, he⟩ := lex_lit hq rfl
      have hmem : '"' ∈ s := by
        have : '"' ∈ s.drop (n + 1) := by
          rw [he]
          exact List.mem_append_left _ (lit_mem hc (by decide))
        exact List.mem_of_mem_drop this
      have hq2 : lex [.quote] (s.drop (n + 1) ++ x) = some (.quote, tok, r ++ x) := by
        have hne := lex_start_ne_nil hq (by decide)
        rw [lex_append hne, hq]
        · rfl
        · intro k hk _
          simp only [List.mem_singleton] at hk
          subst hk
          exact bounded_of_literal rfl (List.length_pos.2 hne)
      rw [longestMatch_string_append x hmem, hn]
      simp only [List.take_append_of_le_length h1.2, List.drop_append_of_le_length h1.2, hq2]
    · cases h
  · cases h

/-- The parser of a repetition of definitions does not look beyond the token that
ends it, and more fuel does not change what it returns. -/
theorem parseDefinitions_free {d1 d2 : DefParser} {x : Text} (hd : d1.Extends d2 x)
    (hs : d1.Sound) (f : Follow) (k k2 : Nat) (valid : List Kind) (s : Text)
    (ts : List Tree) (r : Text) (h : parseDefinitions d1 f k valid s = some (ts, r))
    (hf : Free x r) (hk : k ≤ k2) :
    parseDefinitions d2 f k2 valid (s ++ x) = some (ts, r ++ x) := by
  induction k generalizing k2 valid s ts r with
  | zero => cases h
  | succ k ih =>
    obtain ⟨k3, rfl⟩ : ∃ k3, k2 = k3 + 1 := ⟨k2 - 1, by omega⟩
    have hfs : Free x s := by
      obtain ⟨a, e, hse, _, _⟩ := parseDefinitions_sound hs _ _ _ _ _ _ h
      exact free_of_eq hf (by rw [hse, List.append_assoc])
    simp only [parseDefinitions] at h ⊢
    split at h
    · rename_i tok r1 hl
      cases h
      rw [lex_free_some hl hfs]
    · rename_i tok r1 hl
      cases h
      rw [lex_free_some hl hfs]
    · rename_i hn1 hn2
      split at h
      · rename_i t c r1 hd1
        split at h
        · rename_i ts1 r2 hrec
          cases h
          have hfr1 : Free x r1 := by
            obtain ⟨a, e, hse, _, _⟩ := parseDefinitions_sound hs _ _ _ _ _ _ hrec
            exact free_of_eq hf (by rw [hse, List.append_assoc])
          split
          · rename_i tok r3 hl
            obtain ⟨r4, hl4, _⟩ := lex_free_inv hfs hl
            exact absurd hl4 (hn1 _ _)
          · rename_i tok r3 hl
            obtain ⟨r4, hl4, _⟩ := lex_free_inv hfs hl
            exact absurd hl4 (hn2 _ _)
          · rw [hd _ _ _ _ _ _ hd1 hfr1]
            simp only
            rw [ih _ _ _ _ _ hrec hf (by omega)]
        · cases h
      · cases h

/-- The parser of the elements of a tuple does not look beyond the `)`. -/
theorem parseElements_free {d1 d2 : DefParser} {x : Text} (hd : d1.Extends d2 x)
    (hs : d1.Sound) (k k2 : Nat) (s : Text) (ts : List Tree) (r : Text)
    (h : parseElements d1 k s = some (ts, r)) (hk : k ≤ k2) :
    parseElements d2 k2 (s ++ x) = some (ts, r ++ x) := by
  induction k generalizing k2 s ts r with
  | zero => cases h
  | succ k ih =>
    obtain ⟨k3, rfl⟩ : ∃ k3, k2 = k3 + 1 := ⟨k2 - 1, by omega⟩
    have hmem : ∀ {s : Text} {ts : List Tree} {r : Text} {k : Nat},
        parseElements d1 k s = some (ts, r) → ')' ∈ s := by
      intro s ts r k h
      obtain ⟨a, e, hse, _, he⟩ := parseElements_sound hs _ _ _ _ h
      rw [hse]
      exact List.mem_append_left _ (List.mem_append_right _ (lit_mem he (by decide)))
    have hfs : Free x s := Or.inr (hmem h)
    simp only [parseElements] at h ⊢
    split at h
    · rename_i tok r1 hl
      cases h
      rw [lex_free_some hl hfs]
    · rename_i hn1
      split at h
      · rename_i t c r1 hd1
        split at h
        · rename_i tok r2 hsep
          split at h
          · rename_i ts1 r3 hrec
            cases h
            have hr2 : ')' ∈ r2 := hmem hrec
            have hr1 : ')' ∈ r1 := by
              obtain ⟨_, _, ws, _, hr1⟩ := lex_sound hsep
              rw [hr1]
              exact List.mem_append_right _ hr2
            split
            · rename_i tok1 r4 hl
              obtain ⟨r5, hl5, _⟩ := lex_free_inv hfs hl
              exact absurd hl5 (hn1 _ _)
            · rw [hd _ _ _ _ _ _ hd1 (Or.inr hr1)]
              simp only
              rw [lex_free_some hsep (Or.inr hr1)]
              simp only
              rw [ih _ _ _ _ hrec (by omega)]
          · cases h
        · cases h
      · cases h

/-- The parser of a primary does not look beyond what it leaves over, nor, for a
tuple, beyond the `)`. -/
theorem parsePrimary_free {d1 d2 : DefParser} {x : Text} (hd : d1.Extends d2 x)
    (hs : d1.Sound) {k : Kind} {tok r : Text} {p : Tree} {c : Cont} {r1 : Text}
    (h : parsePrimary d1 k tok r = some (p, c, r1)) (hf : Free x r1 ∨ k = .tuple_start) :
    parsePrimary d2 k tok (r ++ x) = some (p, c, r1 ++ x) := by
  cases k <;> simp only [parsePrimary] at h ⊢
  case quote =>
    split at h
    · rename_i t r2 hq
      cases h
      rw [parseString_free x hq]
    · cases h
  case block_start =>
    split at h
    · rename_i ts r2 hq
      cases h
      have hf1 : Free x r1 := hf.elim id (fun e => by cases e)
      rw [parseDefinitions_free hd hs _ _ ((r ++ x).length + 1) _ _ _ _ hq hf1 (by simp)]
    · cases h
  case tuple_start =>
    split at h
    · rename_i ts r2 hq
      cases h
      rw [parseElements_free hd hs _ ((r ++ x).length + 1) _ _ _ hq (by simp)]
    · cases h
  all_goals first | (cases h; rfl) | cases h

/-- The parser after a primary does not look beyond what it leaves over. -/
theorem parseAfterPrimary_free {d1 d2 : DefParser} {x : Text} (hd : d1.Extends d2 x)
    (hs : d1.Sound) {f : Follow} {p : Tree} {c : Cont} {r : Text} {t : Tree} {c1 : Cont}
    {r1 : Text} (h : parseAfterPrimary d1 f p c r = some (t, c1, r1)) (hf : Free x r1) :
    parseAfterPrimary d2 f p c (r ++ x) = some (t, c1, r1 ++ x) := by
  have hfr : Free x r := by
    obtain ⟨b, hb, _⟩ := parseAfterPrimary_sound hs h
    exact free_of_eq hf hb
  unfold parseAfterPrimary at h ⊢
  split at h
  · rename_i tok r2 hl
    split at h
    · rename_i y c2 r3 hy
      cases h
      rw [lex_free_some hl hfr]
      simp only
      rw [hd _ _ _ _ _ _ hy hf]
    · cases h
  · rename_i tok r2 hl
    split at h
    · rename_i y c2 r3 hy
      cases h
      rw [lex_free_some hl hfr]
      simp only
      rw [hd _ _ _ _ _ _ hy hf]
    · cases h
  · rename_i tok r2 hl
    split at h
    · rename_i y c2 r3 hy
      cases h
      rw [lex_free_some hl hfr]
      simp only
      rw [hd _ _ _ _ _ _ hy hf]
    · cases h
  · rename_i hn1 hn2 hn3
    cases h
    split
    · rename_i tok r2 hl
      obtain ⟨r4, hl4, _⟩ := lex_free_inv hfr hl
      exact absurd hl4 (hn1 _ _)
    · rename_i tok r2 hl
      obtain ⟨r4, hl4, _⟩ := lex_free_inv hfr hl
      exact absurd hl4 (hn2 _ _)
    · rename_i tok r2 hl
      obtain ⟨r4, hl4, _⟩ := lex_free_inv hfr hl
      exact absurd hl4 (hn3 _ _)
    · rfl

/-- The parser of an `if` does not look beyond what it leaves over. -/
theorem parseIf_free {d1 d2 : DefParser} {x : Text} (hd : d1.Extends d2 x)
    (hs : d1.Sound) {f : Follow} {r : Text} {t : Tree} {c : Cont} {r1 : Text}
    (h : parseIf d1 f r = some (t, c, r1)) (hf : Free x r1) :
    parseIf d2 f (r ++ x) = some (t, c, r1 ++ x) := by
  unfold parseIf at h ⊢
  split at h
  · rename_i a ca r2 ha
    split at h
    · rename_i b cb r3 hb
      obtain ⟨u, hu, _⟩ := hs _ _ _ _ _ _ hb
      split at h
      · rename_i hif
        cases h
        rw [hd _ _ _ _ _ _ ha (free_of_eq hf hu)]
        simp only
        rw [hd _ _ _ _ _ _ hb hf]
        simp only [hif, if_true]
      · rename_i hif
        split at h
        · rename_i tok r4 hl
          split at h
          · rename_i z cz r5 hz
            cases h
            obtain ⟨w, hw, _⟩ := hs _ _ _ _ _ _ hz
            obtain ⟨_, _, ws, _, hr3⟩ := lex_sound hl
            have hf4 : Free x r4 := free_of_eq hf hw
            have hf3 : Free x r3 := free_of_eq hf4 hr3
            rw [hd _ _ _ _ _ _ ha (free_of_eq hf3 hu)]
            simp only
            rw [hd _ _ _ _ _ _ hb hf3]
            simp only [hif]
            rw [lex_free_some hl hf3]
            simp only
            rw [hd _ _ _ _ _ _ hz hf]
            simp
          · cases h
        · rename_i hn
          cases h
          rw [hd _ _ _ _ _ _ ha (free_of_eq hf hu)]
          simp only
          rw [hd _ _ _ _ _ _ hb hf]
          simp only [hif]
          split
          · rename_i hc; cases hc
          · split
            · rename_i tok r4 hl
              obtain ⟨r6, hl6, _⟩ := lex_free_inv hf hl
              exact absurd hl6 (hn _ _)
            · rfl
    · cases h
  · cases h

/-- The parser of a definition does not look beyond what it leaves over when a `)` is
left over, and more fuel does not change what it returns. -/
theorem parseDefinition_free (x : Text) (n n2 : Nat) (hn : n ≤ n2) :
    (parseDefinition n).Extends (parseDefinition n2) x := by
  induction n generalizing n2 with
  | zero => intro f valid s t c r h; cases h
  | succ n ih =>
    obtain ⟨n3, rfl⟩ : ∃ n3, n2 = n3 + 1 := ⟨n2 - 1, by omega⟩
    have ih2 := ih n3 (by omega)
    have hs := parseDefinition_sound n
    intro f valid s t c r h hf
    have hfs : Free x s := by
      obtain ⟨a, ha, _⟩ := parseDefinition_sound (n + 1) _ _ _ _ _ _ h
      exact free_of_eq hf ha
    simp only [parseDefinition] at h ⊢
    split at h
    · rename_i tok r1 hl
      split at h
      · rename_i k tok2 r2 hl2
        split at h
        · rename_i p c2 r3 hp
          cases h
          obtain ⟨a, ha, _⟩ := parsePrimary_sound hs hl2 hp
          rw [lex_free_some hl hfs]
          simp only
          rw [lex_free_some hl2 (free_of_eq hf ha)]
          simp only
          rw [parsePrimary_free ih2 hs hp (Or.inl hf)]
        · cases h
      · cases h
    · rename_i tok r1 hl
      rw [lex_free_some hl hfs]
      simp only
      exact parseIf_free ih2 hs h hf
    · rename_i k tok r1 hn1 hn2 hl
      split at h
      · rename_i p c2 r2 hp
        obtain ⟨b, hb, _⟩ := parseAfterPrimary_sound hs h
        rw [lex_free_some hl hfs]
        split
        · rename_i tok3 r3 heq
          simp only [Option.some.injEq, Prod.mk.injEq] at heq
          obtain ⟨rfl, _, _⟩ := heq
          exact (hn1 rfl).elim
        · rename_i tok3 r3 heq
          simp only [Option.some.injEq, Prod.mk.injEq] at heq
          obtain ⟨rfl, _, _⟩ := heq
          exact (hn2 rfl).elim
        · rename_i k4 tok4 r4 _ _ heq
          simp only [Option.some.injEq, Prod.mk.injEq] at heq
          obtain ⟨rfl, rfl, rfl⟩ := heq
          rw [parsePrimary_free ih2 hs hp (Or.inl (free_of_eq hf hb))]
          simp only
          exact parseAfterPrimary_free ih2 hs h hf
        · rename_i heq
          cases heq
      · cases h
    · cases h

theorem parseDefinitions_nil_inv {d : DefParser} {f : Follow} {k : Nat} {valid : List Kind}
    {s r : Text} (h : parseDefinitions d f k valid s = some ([], r)) :
    ∃ e tok, lex valid s = some (e, tok, r) ∧ (e = .block_end ∨ e = .eof) := by
  cases k with
  | zero => cases h
  | succ k =>
    simp only [parseDefinitions] at h
    split at h
    · rename_i tok r1 hl
      cases h
      exact ⟨_, _, hl, Or.inl rfl⟩
    · rename_i tok r1 hl
      cases h
      exact ⟨_, _, hl, Or.inr rfl⟩
    · split at h
      · split at h
        · cases h
        · cases h
      · cases h

theorem parseDefinitions_nil {d : DefParser} {f : Follow} {k : Nat} {valid : List Kind}
    {s r tok : Text} {e : Kind} (hl : lex valid s = some (e, tok, r))
    (he : e = .block_end ∨ e = .eof) : parseDefinitions d f (k + 1) valid s = some ([], r) := by
  simp only [parseDefinitions]
  rcases he with rfl | rfl <;> rw [hl]

/-- A text accepted as one definition: the parser of a definition returns it, and the
end of the text follows. -/
theorem parseFile_single_inv {s : Text} {y : Tree} (h : parseFile s = some [y]) :
    ∃ c r, parseDefinition (s.length + 1) Follow.top (firstOfDefinition ++ [.eof]) s =
        some (y, c, r) ∧
      ∃ e tok r2, lex (c.valid ++ Follow.top.valid) r = some (e, tok, r2) ∧
        (e = .block_end ∨ e = .eof) := by
  unfold parseFile at h
  split at h
  · rename_i ts r hp
    cases h
    simp only [parseDefinitions] at hp
    split at hp
    · cases hp
    · cases hp
    · split at hp
      · rename_i t c r1 hd1
        split at hp
        · rename_i ts1 r2 hrec
          simp only [Option.some.injEq, Prod.mk.injEq, List.cons.injEq] at hp
          obtain ⟨⟨rfl, rfl⟩, rfl⟩ := hp
          obtain ⟨e, tok, hl, he⟩ := parseDefinitions_nil_inv hrec
          exact ⟨c, r1, hd1, e, tok, _, hl, he⟩
        · cases hp
      · cases hp
  · cases h

theorem parseIf_ifNode {d : DefParser} {f : Follow} {r : Text} {t : Tree} {c : Cont}
    {r1 : Text} (h : parseIf d f r = some (t, c, r1)) : Tree.isInitable t = false := by
  unfold parseIf at h
  split at h
  · split at h
    · split at h
      · cases h; rfl
      · split at h
        · split at h
          · cases h; rfl
          · cases h
        · cases h; rfl
    · cases h
  · cases h

theorem parseAfterPrimary_initable {d : DefParser} {f : Follow} {p : Tree} {c : Cont}
    {r : Text} {t : Tree} {c1 : Cont} {r1 : Text}
    (h : parseAfterPrimary d f p c r = some (t, c1, r1)) (ht : Tree.isInitable t = true) :
    t = p ∧ c1 = c ∧ r1 = r := by
  unfold parseAfterPrimary at h
  split at h
  · split at h
    · cases h; cases ht
    · cases h
  · split at h
    · cases h; cases ht
    · cases h
  · split at h
    · cases h; cases ht
    · cases h
  · cases h
    exact ⟨rfl, rfl, rfl⟩

theorem parsePrimary_initable {d : DefParser} {k : Kind} {tok r : Text} {p : Tree} {c : Cont}
    {r1 : Text} (h : parsePrimary d k tok r = some (p, c, r1))
    (hp : Tree.isInitable p = true) :
    c = .initable ∧ ((k = .variable ∧ p = .variable tok ∧ r1 = r) ∨ k = .tuple_start) := by
  cases k <;> simp only [parsePrimary] at h
  case quote =>
    split at h
    · rename_i t r2 hq
      cases h
      obtain ⟨tok1, rfl⟩ := parseString_string hq
      cases hp
    · cases h
  case block_start =>
    split at h
    · cases h; cases hp
    · cases h
  case tuple_start =>
    split at h
    · cases h; exact ⟨rfl, Or.inr rfl⟩
    · cases h
  all_goals first | (cases h; first | exact ⟨rfl, Or.inl ⟨rfl, rfl, rfl⟩⟩ | cases hp) | cases h

/-- A definition the parser returns that is a variable or a tuple is a primary that no
`:=`, `=` or `->` follows. -/
theorem parseDefinition_initable_inv {n : Nat} {f : Follow} {valid : List Kind} {s : Text}
    {x : Tree} {c : Cont} {r : Text} (h : parseDefinition (n + 1) f valid s = some (x, c, r))
    (hx : Tree.isInitable x = true) :
    ∃ k tok r0, lex valid s = some (k, tok, r0) ∧
      parsePrimary (parseDefinition n) k tok r0 = some (x, c, r) ∧ c = .initable ∧
      ((k = .variable ∧ x = .variable tok ∧ r = r0) ∨ k = .tuple_start) := by
  simp only [parseDefinition] at h
  split at h
  · split at h
    · split at h
      · cases h; cases hx
      · cases h
    · cases h
  · rw [parseIf_ifNode h] at hx
    cases hx
  · rename_i k tok r1 _ _ hl
    split at h
    · rename_i p c2 r2 hp
      obtain ⟨rfl, rfl, rfl⟩ := parseAfterPrimary_initable h hx
      obtain ⟨hc, hk⟩ := parsePrimary_initable hp hx
      exact ⟨k, tok, r1, hl, hp, hc, hk⟩
    · cases h
  · cases h

theorem dropWhile_allSpace {w : Text} (hw : allSpace w = true) {c : Char} (z : Text)
    (hc : isSpace c = false) : (w ++ c :: z).dropWhile isSpace = c :: z := by
  induction w with
  | nil => simp [List.dropWhile_cons, hc]
  | cons a w ih =>
    simp only [allSpace, List.all_cons, Bool.and_eq_true] at hw
    simp only [List.cons_append, List.dropWhile_cons, hw.1, if_true]
    exact ih hw.2

/-- After a variable or a tuple and whitespace, `:=` is read as the token `:=`. -/
theorem lex_colonequals {w : Text} (hw : allSpace w = true) (s : Text) :
    lex (Cont.initable.valid ++ Follow.top.valid) (w ++ " := ".toList ++ s) =
      some (.init_colonequals, ":=".toList, ' ' :: s) := by
  have h1 : lex (Cont.initable.valid ++ Follow.top.valid) (w ++ " :=".toList) =
      some (.init_colonequals, ":=".toList, []) := by
    have hts : tokenStart (Cont.initable.valid ++ Follow.top.valid) (w ++ " :=".toList) =
        ":=".toList := by
      have hw2 : (w ++ [' ']).all isSpace = true := by
        simp only [allSpace] at hw
        have h3 : isSpace ' ' = true := by decide
        simp [List.all_append, hw, h3]
      have := dropWhile_allSpace (w := w ++ [' ']) hw2 (c := ':') ['='] (by decide)
      simp only [List.append_assoc, List.singleton_append] at this
      simp only [tokenStart]
      exact this
    rw [lex_eq, hts]
    decide
  have h2 : w ++ " := ".toList ++ s = (w ++ " :=".toList) ++ ' ' :: s := by simp
  rw [h2, lex_append (lex_start_ne_nil h1 (by decide)), h1]
  · rfl
  · intro k hk hne
    refine bounded_of_space hne ?_ (by decide)
    rintro rfl
    revert hk
    decide

theorem candidates_eof (valid : List Kind) (u : Text) :
    candidates (valid ++ [.eof]) u = candidates valid u := by
  unfold candidates
  congr 1
  apply List.filter_congr
  intro k hk
  have hne : k ≠ .eof := by
    rintro rfl
    revert hk
    decide
  simp [hne]

/-- The parser of a definition skips a blank before it, and expecting the end of the
text as well makes no difference to it. -/
theorem parseDefinition_space (n : Nat) (f : Follow) (s : Text) :
    parseDefinition n f firstOfDefinition (' ' :: s) =
      parseDefinition n f (firstOfDefinition ++ [.eof]) s := by
  cases n with
  | zero => rfl
  | succ n =>
    have hts : tokenStart firstOfDefinition (' ' :: s) =
        tokenStart (firstOfDefinition ++ [.eof]) s := by
      have h1 : firstOfDefinition.contains Kind.tuple_separator = false := by decide
      have h2 : (firstOfDefinition ++ [Kind.eof]).contains Kind.tuple_separator = false := by
        decide
      have h3 : isSpace ' ' = true := by decide
      simp only [tokenStart, h1, h2, List.dropWhile_cons, h3, if_true]
      simp
    simp only [parseDefinition]
    rw [lex_eq, lex_eq, hts, candidates_eof]
    cases tokenStart (firstOfDefinition ++ [.eof]) s with
    | nil =>
      have h1 : firstOfDefinition.contains Kind.eof = false := by decide
      have h2 : (firstOfDefinition ++ [Kind.eof]).contains Kind.eof = true := by decide
      simp only [h1, h2, if_true]
      simp [parsePrimary]
    | cons c cs => rfl

theorem parseDefinitions_nil_pos {d : DefParser} {f : Follow} {k : Nat} {valid : List Kind}
    {s r tok : Text} {e : Kind} (hl : lex valid s = some (e, tok, r))
    (he : e = .block_end ∨ e = .eof) (hk : 0 < k) :
    parseDefinitions d f k valid s = some ([], r) := by
  obtain ⟨m, rfl⟩ : ∃ m, k = m + 1 := ⟨k - 1, by omega⟩
  exact parseDefinitions_nil hl he

/-- The init of a variable or tuple and a definition: when the parser accepts `t` as
one variable or tuple and `s` as one definition, it accepts `t := s` as the one Init
of the two. -/
theorem parseFile_init {t s : Text} {x y : Tree} (ht : parseFile t = some [x])
    (hx : Tree.isInitable x = true) (hs : parseFile s = some [y]) :
    parseFile (t ++ " := ".toList ++ s) = some [.init x y] := by
  obtain ⟨c, r, hdt, e, tok, r2, hlt, het⟩ := parseFile_single_inv ht
  obtain ⟨cy, ry, hds, e2, tok2, r3, hls, hes⟩ := parseFile_single_inv hs
  obtain ⟨k, tk, r0, hl0, hp, rfl, hk⟩ := parseDefinition_initable_inv hdt hx
  have hr : allSpace r = true := by
    rcases het with rfl | rfl
    · exact absurd (lex_sound hlt).1 (by decide)
    · exact (lex_eof hlt).1
  have hk2 : k = .variable ∨ k = .tuple_start := hk.imp (fun h => h.1) id
  rw [List.append_assoc]
  generalize hrest : " := ".toList ++ s = rest
  have hlen : (t ++ rest).length = t.length + s.length + 4 := by
    rw [← hrest]
    simp
    omega
  generalize hN : (t ++ rest).length = N at hlen
  have hl1 : lex (firstOfDefinition ++ [.eof]) (t ++ rest) = some (k, tk, r0 ++ rest) := by
    have hkne : k ≠ .eof := by rcases hk2 with rfl | rfl <;> decide
    have h1 : rest = ' ' :: (":= ".toList ++ s) := by rw [← hrest]; rfl
    rw [h1, lex_append (lex_start_ne_nil hl0 hkne), hl0]
    · rfl
    · intro k1 hk1 hne
      refine bounded_of_space hne ?_ (by decide)
      rintro rfl
      revert hk1
      decide
  have hp1 : parsePrimary (parseDefinition N) k tk (r0 ++ rest) =
      some (x, .initable, r ++ rest) := by
    rcases hk with ⟨rfl, rfl, rfl⟩ | rfl
    · rfl
    · exact parsePrimary_free (parseDefinition_free _ _ _ (by omega))
        (parseDefinition_sound _) hp (Or.inr rfl)
  have hy : parseDefinition N Follow.top firstOfDefinition (' ' :: s) = some (y, cy, ry) := by
    rw [parseDefinition_space]
    have := parseDefinition_free [] (s.length + 1) N (by omega) _ _ _ _ _ _ hds (Or.inl rfl)
    simpa using this
  have hla : lex (Cont.initable.valid ++ Follow.top.valid) (r ++ rest) =
      some (.init_colonequals, ":=".toList, ' ' :: s) := by
    rw [← hrest, ← List.append_assoc]
    exact lex_colonequals hr s
  have hd : parseDefinition (N + 1) Follow.top (firstOfDefinition ++ [.eof]) (t ++ rest) =
      some (.init x y, cy, ry) := by
    simp only [parseDefinition]
    rw [hl1]
    rcases hk2 with rfl | rfl <;> simp only [hp1, parseAfterPrimary, hla, hy]
  unfold parseFile
  rw [hN]
  simp only [parseDefinitions]
  rw [hl1]
  rcases hk2 with rfl | rfl <;>
    simp only [hd, parseDefinitions_nil_pos (d := parseDefinition (N + 1)) hls hes
      (show 0 < N by omega)]

/-- C9: an Init's source is the whole following definition.  For every text `t` the
parser accepts as one variable or tuple and every text `s` it accepts as one
definition, the text t ` := ` s is accepted as the single definition `Init(t, s)`.
`x := 5` is `Init(Variable(x), NumberLit(5))`.  The one syntax tree of `x := y -> z`
is `Init(Variable(x), Func(Variable(y), Variable(z)))`: the arrow binds inside the
source, the parser returns one definition and not an Init followed by siblings, and
no derivation of the grammar has a Func whose argument is the Init. -/
theorem C9_init_source_is_the_whole_definition :
    (∀ (t s : Text) (x y : Tree), parseFile t = some [x] → Tree.isInitable x = true →
      parseFile s = some [y] →
      parseFile (t ++ " := ".toList ++ s) = some [.init x y]) ∧
    parseFile "x := 5".toList =
      some [.init (.variable "x".toList) (.number "5".toList)] ∧
    parseFile "x := y -> z".toList =
      some [.init (.variable "x".toList)
        (.func (.variable "y".toList) (.variable "z".toList))] ∧
    (∀ ts, Accepts "x := y -> z".toList ts →
      ∀ a b c, Tree.func (.init a b) c ∉ Tree.nodesList ts) := by
  refine ⟨fun t s x y ht hx hs => parseFile_init ht hx hs, by decide, by decide, ?_⟩
  intro ts h a b c hn
  have h1 : (Tree.func (.init a b) c).restricted = true := derives_restricted h _ hn
  exact Bool.noConfusion h1

/-- C9 at the target `x` and the source `y -> z`. -/
theorem C9_init_source_is_the_whole_definition_witness :
    parseFile ("x".toList ++ " := ".toList ++ "y -> z".toList) =
      some [.init (.variable "x".toList)
        (.func (.variable "y".toList) (.variable "z".toList))] :=
  C9_init_source_is_the_whole_definition.1 "x".toList "y -> z".toList _ _
    (by decide) (by decide) (by decide)

/-! ## C10: the dangling else under prec.left -/

theorem accepts_else_on_outer_if :
    Accepts "if a if b c else d".toList
      [.ifNode (.variable "a".toList)
        (.ifNode (.variable "b".toList) (.variable "c".toList) Option.none)
        (some (.variable "d".toList))] :=
  accepts_if_else (c := " a".toList) (t := " if b c".toList) (w := [' ']) (e := " d".toList)
    (derives_variable [' '] "a".toList rfl (by decide))
    (.definition_if (.if_then (a := " if".toList) (b := " b".toList) (c := " c".toList)
      (lit_after "if" [' '] rfl)
      (derives_variable [' '] "b".toList rfl (by decide))
      (derives_variable [' '] "c".toList rfl (by decide)) rfl))
    rfl (derives_variable [' '] "d".toList rfl (by decide))

/-- C10, counterexample: the tree the claim gives for `if a if b c else d`, with the
else on the inner `if`, is the one `prec.left` excludes; the tree with the else on the
outer `if` is a syntax tree of the text and obeys `prec.left`. -/
theorem C10_counterexample :
    Tree.respectsPrecLeft
      (.ifNode (.variable "a".toList)
        (.ifNode (.variable "b".toList) (.variable "c".toList) (some (.variable "d".toList)))
        Option.none) = false ∧
    Accepts "if a if b c else d".toList
      [.ifNode (.variable "a".toList)
        (.ifNode (.variable "b".toList) (.variable "c".toList) Option.none)
        (some (.variable "d".toList))] ∧
    Tree.respectsPrecLeft
      (.ifNode (.variable "a".toList)
        (.ifNode (.variable "b".toList) (.variable "c".toList) Option.none)
        (some (.variable "d".toList))) = true :=
  ⟨by decide, accepts_else_on_outer_if, by decide⟩

/-- C10, amended: under the grammar's declared precedence (`prec.left` on the `if`
rule) a dangling else attaches to the outermost `if` it can end, not to the nearest.
The text `if a if b c else d` has two syntax trees that are one definition; the one
that obeys `prec.left` is `If(Variable(a), If(Variable(b), Variable(c), None),
Some(Variable(d)))`, not `If(Variable(a), If(Variable(b), Variable(c),
Some(Variable(d))), None)`. -/
theorem C10_else_attaches_to_outer_if :
    (∀ t, Accepts "if a if b c else d".toList [t] ↔
      t = .ifNode (.variable "a".toList)
        (.ifNode (.variable "b".toList) (.variable "c".toList) Option.none)
        (some (.variable "d".toList)) ∨
      t = .ifNode (.variable "a".toList)
        (.ifNode (.variable "b".toList) (.variable "c".toList) (some (.variable "d".toList)))
        Option.none) ∧
    (∀ t, Accepts "if a if b c else d".toList [t] ∧ Tree.respectsPrecLeft t = true ↔
      t = .ifNode (.variable "a".toList)
        (.ifNode (.variable "b".toList) (.variable "c".toList) Option.none)
        (some (.variable "d".toList))) := by
  have key : ∀ ts ∈ sourceFileP "if a if b c else d".toList, ∀ t, ts = [t] →
      t = .ifNode (.variable "a".toList)
        (.ifNode (.variable "b".toList) (.variable "c".toList) Option.none)
        (some (.variable "d".toList)) ∨
      t = .ifNode (.variable "a".toList)
        (.ifNode (.variable "b".toList) (.variable "c".toList) (some (.variable "d".toList)))
        Option.none := by
    have h : ∀ ts ∈ sourceFileP "if a if b c else d".toList,
        ts.length = 1 →
        ts = [.ifNode (.variable "a".toList)
          (.ifNode (.variable "b".toList) (.variable "c".toList) Option.none)
          (some (.variable "d".toList))] ∨
        ts = [.ifNode (.variable "a".toList)
          (.ifNode (.variable "b".toList) (.variable "c".toList)
            (some (.variable "d".toList))) Option.none] := by decide
    intro ts hts t e
    subst e
    rcases h _ hts rfl with h1 | h1
    · exact Or.inl (List.singleton_inj.1 h1)
    · exact Or.inr (List.singleton_inj.1 h1)
  have inner : Accepts "if a if b c else d".toList
      [.ifNode (.variable "a".toList)
        (.ifNode (.variable "b".toList) (.variable "c".toList) (some (.variable "d".toList)))
        Option.none] :=
    accepts_if (c := " a".toList) (t := " if b c else d".toList)
      (derives_variable [' '] "a".toList rfl (by decide))
      (.definition_if (.if_then_else (a := " if".toList) (b := " b".toList) (c := " c".toList)
        (d := " else".toList) (e := " d".toList)
        (lit_after "if" [' '] rfl)
        (derives_variable [' '] "b".toList rfl (by decide))
        (derives_variable [' '] "c".toList rfl (by decide))
        (lit_after "else" [' '] rfl)
        (derives_variable [' '] "d".toList rfl (by decide)) rfl))
  constructor
  · intro t
    constructor
    · intro h
      exact key _ (sourceFileP_complete h) t rfl
    · rintro (rfl | rfl)
      · exact accepts_else_on_outer_if
      · exact inner
  · intro t
    constructor
    · rintro ⟨h, hp⟩
      rcases key _ (sourceFileP_complete h) t rfl with rfl | rfl
      · rfl
      · exact absurd hp (by decide)
    · rintro rfl
      exact ⟨accepts_else_on_outer_if, by decide⟩

/-! ## C11: one syntax tree -/

/-- C11: parsing is deterministic.  The parser is a function of the text: a text is
rejected, or it is accepted with one sequence of definitions, and no text has two.  The
sequence is a derivation of the grammar from `source_file`, and it obeys `prec.left` of
the `if` rule.  Where the rules alone derive more, the parser returns one: `ab` is the
one variable `ab` (the longest match), `if a if b c else d` has the else on the outer
`if` (`prec.left`), `x := 5` is the one Init. -/
theorem C11_parsing_is_deterministic :
    (∀ (s : Text) (ts ts' : List Tree),
      parseFile s = some ts → parseFile s = some ts' → ts = ts') ∧
    (∀ (s : Text) (ts : List Tree), parseFile s = some ts →
      Accepts s ts ∧ ∀ t ∈ ts, Tree.respectsPrecLeft t = true) ∧
    parseFile "ab".toList = some [.variable "ab".toList] ∧
    parseFile "if a if b c else d".toList =
      some [.ifNode (.variable "a".toList)
        (.ifNode (.variable "b".toList) (.variable "c".toList) Option.none)
        (some (.variable "d".toList))] ∧
    parseFile "x := 5".toList =
      some [.init (.variable "x".toList) (.number "5".toList)] := by
  refine ⟨fun s ts ts' h h' => ?_, fun s ts h => ⟨parseFile_sound h, parseFile_leftAssoc h⟩,
    by decide, by decide, by decide⟩
  rw [h] at h'
  exact Option.some.inj h'

/-- C11 at the text `x := 5`: the parser's sequence is a derivation of the grammar. -/
theorem C11_parsing_is_deterministic_witness :
    Accepts "x := 5".toList [.init (.variable "x".toList) (.number "5".toList)] ∧
    ∀ t ∈ [Tree.init (.variable "x".toList) (.number "5".toList)],
      Tree.respectsPrecLeft t = true :=
  C11_parsing_is_deterministic.2.1 "x := 5".toList _ (by decide)

/-! ## C12: numbers and variables -/

/-- C12: numbers and identifiers are lexically disjoint.  No text is matched in full
by both the number pattern and the variable pattern: every text the variable pattern
matches contains no ASCII digit, and every text the number pattern matches contains
at least one. -/
theorem C12_number_and_variable_disjoint (w : Text) :
    ¬ (number.fullMatch w = true ∧ variable_pattern.fullMatch w = true) ∧
    (variable_pattern.fullMatch w = true → ∀ c ∈ w, isDigit c = false) ∧
    (number.fullMatch w = true → ∃ c ∈ w, isDigit c = true) := by
  have hv : variable_pattern.fullMatch w = true → ∀ c ∈ w, isDigit c = false :=
    fun h c hc => isVariableChar_not_digit (((variable_fullMatch_iff w).1 h).2 c hc)
  have hn : number.fullMatch w = true → ∃ c ∈ w, isDigit c = true := by
    intro h
    obtain ⟨_, u, d, rfl, hd⟩ := number_shape h
    exact ⟨d, by simp, hd⟩
  refine ⟨?_, hv, hn⟩
  rintro ⟨h1, h2⟩
  obtain ⟨c, hc, hd⟩ := hn h1
  have := hv h2 c hc
  rw [hd] at this
  exact Bool.noConfusion this

/-- C12 at the number `-12` and the variable `ab`. -/
theorem C12_number_and_variable_disjoint_witness :
    (∃ c ∈ "-12".toList, isDigit c = true) ∧ (∀ c ∈ "ab".toList, isDigit c = false) :=
  ⟨(C12_number_and_variable_disjoint "-12".toList).2.2 (by decide),
    (C12_number_and_variable_disjoint "ab".toList).2.1 (by decide)⟩

/-! ## C13: keywords -/

theorem bestToken_prefers_first {l1 l2 : List (Kind × Nat)} {k : Kind} {n : Nat}
    {a : Kind × Nat} (h : bestToken (l1 ++ l2) = some (k, n)) (ha : a ∈ l1) (hn : n ≤ a.2) :
    (k, n) ∈ l1 := by
  induction l1 generalizing k n with
  | nil => cases ha
  | cons b l1 ih =>
    obtain ⟨k0, n0⟩ := b
    simp only [List.cons_append, bestToken] at h
    split at h
    · rename_i k1 n1 h1
      split at h
      · rename_i hlt
        cases h
        rcases List.mem_cons.1 ha with rfl | ha
        · simp only at hn
          omega
        · exact List.mem_cons_of_mem _ (ih h1 ha hn)
      · cases h
        exact List.mem_cons_self _ _
    · cases h
      exact List.mem_cons_self _ _

/-- A literal wins over the variable pattern: where the keyword `w` is valid, no
variable token is the text `w`. -/
theorem lex_literal_wins {valid : List Kind} {s tok r : Text} {k : Kind} {w : String}
    (h : lex valid s = some (.variable, tok, r)) (hw : k.literal = some w)
    (hk : k ∈ valid) : tok ≠ w.toList := by
  intro htok
  rw [lex_eq] at h
  generalize tokenStart valid s = u at h
  cases u with
  | nil =>
    simp only at h
    split at h <;> cases h
  | cons c cs =>
    simp only at h
    split at h
    · rename_i k1 n hb
      simp only [Option.some.injEq, Prod.mk.injEq] at h
      obtain ⟨rfl, h2, _⟩ := h
      have hm := mem_candidates (bestToken_mem hb)
      have hlen := (matchLength_sound hm.2).2
      have hn : n = w.toList.length := by
        have := congrArg List.length (h2.trans htok)
        rw [List.length_take, Nat.min_eq_left hlen] at this
        exact this
      have hpre : w.toList <+: (c :: cs) := by
        rw [← htok, ← h2]
        exact List.take_prefix _ _
      have hall : Kind.all =
          [.block_start, .block_end, .tuple_start, .tuple_end, .chain_dot, .quote, .if_if,
            .if_else, .func_arrow, .init_colonequals, .assign_equals] ++
          [.tuple_separator, .number, .variable] := rfl
      have hkl : k ∈ [Kind.block_start, .block_end, .tuple_start, .tuple_end, .chain_dot, .quote,
          .if_if, .if_else, .func_arrow, .init_colonequals, .assign_equals] := by
        cases k <;> simp [Kind.literal] at hw ⊢
      unfold candidates at hb
      rw [hall, List.filter_append, List.filterMap_append] at hb
      have hin : (k, w.toList.length) ∈
          List.filterMap (fun k => Option.map (fun n => (k, n)) (k.matchLength (c :: cs)))
            (List.filter (fun k => valid.contains k)
              [Kind.block_start, .block_end, .tuple_start, .tuple_end, .chain_dot, .quote,
                .if_if, .if_else, .func_arrow, .init_colonequals, .assign_equals]) := by
        rw [List.mem_filterMap]
        refine ⟨k, List.mem_filter.2 ⟨hkl, by simpa using hk⟩, ?_⟩
        simp only [Kind.matchLength, hw, List.isPrefixOf_iff_prefix.2 hpre, if_true,
          Option.map_some']
      have hres := bestToken_prefers_first hb hin (by simp [hn])
      rw [List.mem_filterMap] at hres
      obtain ⟨k2, hk2, he⟩ := hres
      rw [List.mem_filter] at hk2
      simp only [Option.map_eq_some', Prod.mk.injEq] at he
      obtain ⟨_, _, rfl, _⟩ := he
      have := hk2.1
      simp at this
    · cases h

/-- C13, counterexample: the one-word text `else` is accepted, and its syntax tree is
the Variable definition whose name is exactly `else`. -/
theorem C13_counterexample :
    parseFile "else".toList = some [.variable "else".toList] := by
  decide

/-- C13, amended: a keyword wins over the variable pattern where the parser expects
the keyword, and only there.  The variable pattern matches both `if` and `else`.  In
every parse state in which `if` is expected the lexer returns no variable token `if`,
and none `else` where `else` is expected.  Where a definition may start, `if` is
expected: the one-word text `if` is read as the keyword and rejected, the `if` being
incomplete.  `else` is expected only after the then branch of an `if`: there it is the
keyword (`if a b else c` is one If with an else branch); the one-word text `else` is
accepted as the definition `Variable(else)`. -/
theorem C13_keyword_wins_where_expected :
    variable_pattern.fullMatch "if".toList = true ∧
    variable_pattern.fullMatch "else".toList = true ∧
    (∀ (valid : List Kind) (s tok r : Text), lex valid s = some (.variable, tok, r) →
      (Kind.if_if ∈ valid → tok ≠ "if".toList) ∧
      (Kind.if_else ∈ valid → tok ≠ "else".toList)) ∧
    parseFile "if".toList = Option.none ∧
    parseFile "else".toList = some [.variable "else".toList] ∧
    parseFile "if a b else c".toList =
      some [.ifNode (.variable "a".toList) (.variable "b".toList)
        (some (.variable "c".toList))] := by
  refine ⟨by decide, by decide, fun valid s tok r h => ?_, by decide, by decide, by decide⟩
  exact ⟨fun hv => lex_literal_wins h (k := .if_if) rfl hv,
    fun hv => lex_literal_wins h (k := .if_else) rfl hv⟩

/-- C13, the amended claim at the text `else` where a definition may start: the
variable token is `else`, and `else` is not expected there. -/
theorem C13_keyword_wins_where_expected_witness :
    (Kind.if_if ∈ firstOfDefinition → "else".toList ≠ "if".toList) ∧
    (Kind.if_else ∈ firstOfDefinition → "else".toList ≠ "else".toList) :=
  C13_keyword_wins_where_expected.2.2.1 firstOfDefinition "else".toList "else".toList []
    (by decide)

/-! ## C14: targets and links -/

/-- C14: target and link restrictions are invariants of every derived tree.  In every
syntax tree the grammar derives from `source_file`, each Init target is a Variable or
a Tuple, each Assign target is one of Variable, Tuple, Block, StringLit, NumberLit,
and each chain link is one of Block, Tuple, StringLit, NumberLit, Variable: never a
chain, an If, a Func, an Init or an Assign. -/
theorem C14_targets_and_links_restricted (s : Text) (ts : List Tree) (h : Accepts s ts) :
    (∀ a b, Tree.init a b ∈ Tree.nodesList ts → a.isInitable = true) ∧
    (∀ a b, Tree.assign a b ∈ Tree.nodesList ts → a.isAssignable = true) ∧
    (∀ l, Tree.chain l ∈ Tree.nodesList ts →
      l.isLink = true ∧ (∀ x, l ≠ .chain x) ∧ (∀ c t e, l ≠ .ifNode c t e) ∧
      (∀ a b, l ≠ .func a b) ∧ (∀ a b, l ≠ .init a b) ∧ (∀ a b, l ≠ .assign a b)) := by
  refine ⟨fun a b hn => derives_restricted h _ hn, fun a b hn => derives_restricted h _ hn, ?_⟩
  intro l hl
  have h1 : l.isLink = true := derives_restricted h _ hl
  refine ⟨h1, ?_, ?_, ?_, ?_, ?_⟩
  · rintro x rfl; exact Bool.noConfusion h1
  · rintro c t e rfl; exact Bool.noConfusion h1
  · rintro a b rfl; exact Bool.noConfusion h1
  · rintro a b rfl; exact Bool.noConfusion h1
  · rintro a b rfl; exact Bool.noConfusion h1

/-- C14 at `a.( x := 1 )`: the Init target `x` is a Variable. -/
theorem C14_targets_and_links_restricted_witness :
    Accepts "a.( x := 1 )".toList
      [.variable "a".toList,
        .chain (.tuple [.init (.variable "x".toList) (.number "1".toList)])] ∧
    (Tree.variable "x".toList).isInitable = true :=
  ⟨accepts_paren_init_link,
    (C14_targets_and_links_restricted "a.( x := 1 )".toList _ accepts_paren_init_link).1
      (.variable "x".toList) (.number "1".toList) (by decide)⟩

/-! ## C15: the texts of the tuple rule -/

/-- C15, counterexample: `(a,)` is `(`, the definition `a`, the separator `,`, `)`:
every element is followed by a separator.  The parser rejects it: the variable pattern
matches `a,` and the longest match wins, so no separator follows the element. -/
theorem C15_counterexample :
    Derives .definition "a".toList [.variable "a".toList] ∧ IsSeparator ",".toList ∧
    "(a,)".toList =
      '(' :: elemsText [("a".toList, ",".toList, Tree.variable "a".toList)] ++ [')'] ∧
    parseFile "(a,)".toList = Option.none :=
  ⟨derives_variable [] "a".toList rfl (by decide), Or.inl ⟨[], [], rfl, rfl, rfl⟩, rfl,
    by decide⟩

/-- C15, amended: the tuple rule accepts only texts `(` (definition separator)* `)` in
which every element, the last included, is followed by a separator (a comma with
optional whitespace, or one or more whitespace characters; whitespace before `(`, a
comma or `)` is skipped as before every token), and so does the parser for a text it
accepts as one tuple.  Not every such text is accepted: a comma right after a name is
read as part of the name.  The empty tuple `()` is accepted and yields a Tuple with zero
elements; `(a )` yields a Tuple with the element `a`; `(a)` is rejected. -/
theorem C15_tuple_elements_are_followed_by_separators :
    (∀ (s : Text) (ts : List Tree), Derives .tuple s ts →
      ∃ (w0 w1 : Text) (elems : List (Text × Text × Tree)),
        allSpace w0 = true ∧ allSpace w1 = true ∧
        (∀ x ∈ elems, Derives .definition x.1 [x.2.2] ∧ IsSeparator x.2.1) ∧
        s = w0 ++ '(' :: elemsText elems ++ w1 ++ [')'] ∧
        ts = [.tuple (elems.map fun x => x.2.2)]) ∧
    (∀ (s : Text) (xs : List Tree), parseFile s = some [.tuple xs] →
      ∃ (w0 w1 w2 : Text) (elems : List (Text × Text × Tree)),
        allSpace w0 = true ∧ allSpace w1 = true ∧ allSpace w2 = true ∧
        (∀ x ∈ elems, Derives .definition x.1 [x.2.2] ∧ IsSeparator x.2.1) ∧
        s = w0 ++ '(' :: elemsText elems ++ w1 ++ [')'] ++ w2 ∧
        xs = elems.map fun x => x.2.2) ∧
    parseFile "()".toList = some [.tuple []] ∧
    parseFile "(a )".toList = some [.tuple [.variable "a".toList]] ∧
    parseFile "(a)".toList = Option.none := by
  refine ⟨fun s ts h => tuple_shape h, fun s xs h => ?_, by decide, by decide, by decide⟩
  obtain ⟨a, w2, hw2, rfl, ha⟩ := accepts_tuple_inv (parseFile_sound h)
  obtain ⟨w0, w1, elems, hw0, hw1, h1, rfl, h2⟩ := tuple_shape ha
  simp only [List.cons.injEq, Tree.tuple.injEq, and_true] at h2
  exact ⟨w0, w1, w2, elems, hw0, hw1, hw2, h1, rfl, h2⟩

/-- C15, the amended claim at the one-element tuple `(a )`: the element `a` is
followed by the separator ` `. -/
theorem C15_tuple_elements_are_followed_by_separators_witness :
    ∃ (w0 w1 w2 : Text) (elems : List (Text × Text × Tree)),
      allSpace w0 = true ∧ allSpace w1 = true ∧ allSpace w2 = true ∧
      (∀ x ∈ elems, Derives .definition x.1 [x.2.2] ∧ IsSeparator x.2.1) ∧
      "(a )".toList = w0 ++ '(' :: elemsText elems ++ w1 ++ [')'] ++ w2 ∧
      [Tree.variable "a".toList] = elems.map fun x => x.2.2 :=
  C15_tuple_elements_are_followed_by_separators.2.1 "(a )".toList [.variable "a".toList]
    (by decide)

/-! ## C16: no empty definition -/

theorem length_le_nodesList (ts : List Tree) : ts.length ≤ (Tree.nodesList ts).length := by
  induction ts with
  | nil => simp [Tree.nodesList]
  | cons t ts ih =>
    have h1 : 1 ≤ (Tree.nodes t).length := by
      cases t <;> simp [Tree.nodes]
    simp only [Tree.nodesList, List.length_append, List.length_cons]
    omega

/-- A derived text has at least as many characters as its trees have nodes: every
node owns a token. -/
theorem derives_nodes_le {X : Sym} {s : Text} {ts : List Tree} (h : Derives X s ts) :
    (Tree.nodesList ts).length ≤ s.length := by
  induction h with
  | source_file _ _ hs ih =>
    subst hs
    simp only [List.length_append]
    omega
  | definitions_nil => simp [Tree.nodesList]
  | tuple_elems_nil => simp [Tree.nodesList]
  | definitions_cons _ _ hs iha ihb =>
    subst hs
    simp only [Tree.nodesList, List.length_append, List.length_nil] at iha ihb ⊢
    omega
  | tuple_elems_cons _ _ _ hs iha ihc =>
    subst hs
    simp only [Tree.nodesList, List.length_append, List.length_nil] at iha ihc ⊢
    omega
  | block ha _ _ hs ih | tuple ha _ _ hs ih =>
    subst hs
    have := lit_length_pos ha (by decide)
    simp only [Tree.nodesList, Tree.nodes, List.length_append, List.length_cons,
      List.length_nil] at ih ⊢
    omega
  | if_then ha _ _ hs ihb ihc =>
    subst hs
    have := lit_length_pos ha (by decide)
    simp only [Tree.nodesList, Tree.nodes, Tree.nodesOpt, List.length_append, List.length_cons,
      List.length_nil] at ihb ihc ⊢
    omega
  | if_then_else ha _ _ _ _ hs ihb ihc ihe =>
    subst hs
    have := lit_length_pos ha (by decide)
    simp only [Tree.nodesList, Tree.nodes, Tree.nodesOpt, List.length_append, List.length_cons,
      List.length_nil] at ihb ihc ihe ⊢
    omega
  | func _ hb _ hs iha ihc | init _ hb _ hs iha ihc | assign _ hb _ hs iha ihc =>
    subst hs
    have := lit_length_pos hb (by decide)
    simp only [Tree.nodesList, Tree.nodes, List.length_append, List.length_cons,
      List.length_nil] at iha ihc ⊢
    omega
  | chain ha _ hs ihb =>
    subst hs
    have := lit_length_pos ha (by decide)
    simp only [Tree.nodesList, Tree.nodes, List.length_append, List.length_cons,
      List.length_nil] at ihb ⊢
    omega
  | number hp | variable_ hp =>
    have := pat_length_pos hp (by decide)
    simp only [Tree.nodesList, Tree.nodes, List.length_append, List.length_cons,
      List.length_nil]
    omega
  | string ha _ _ hs =>
    subst hs
    have := lit_length_pos ha (by decide)
    simp only [Tree.nodesList, Tree.nodes, List.length_append, List.length_cons,
      List.length_nil]
    omega
  | _ _ ih => exact ih

/-- C16: no definition is empty.  Every text derived by the definition rule, and by
each of its ten alternatives (and by every rule but the repetitions), has length at
least 1; so each iteration of `repeat($.definition)` consumes input, and a derivation
of a text of length `n` holds at most `n` definitions: at most `n` in a repetition, at
most `n` at top level, and at most `n` nodes in all. -/
theorem C16_no_definition_is_empty :
    (∀ (X : Sym) (s : Text) (ts : List Tree), Derives X s ts →
      X ≠ .source_file → X ≠ .definitions → X ≠ .tuple_elems → 1 ≤ s.length) ∧
    (∀ (s : Text) (ts : List Tree), Derives .definitions s ts → ts.length ≤ s.length) ∧
    (∀ (s : Text) (ts : List Tree), Accepts s ts →
      ts.length ≤ s.length ∧ (Tree.nodesList ts).length ≤ s.length) :=
  ⟨fun _ _ _ h h1 h2 h3 => derives_length_pos h h1 h2 h3,
    fun _ ts h => Nat.le_trans (length_le_nodesList ts) (derives_nodes_le h),
    fun _ ts h => ⟨Nat.le_trans (length_le_nodesList ts) (derives_nodes_le h),
      derives_nodes_le h⟩⟩

/-- C16 at the definition `a`. -/
theorem C16_no_definition_is_empty_witness : 1 ≤ "a".toList.length :=
  C16_no_definition_is_empty.1 .definition "a".toList [.variable "a".toList]
    (derives_variable [] "a".toList rfl (by decide)) (by decide) (by decide) (by decide)

/-! ## C17: a chain without a base -/

theorem in_chain_of_variable (tok : Text) (h : variable_pattern.fullMatch tok = true) :
    Derives .definition_in_chain tok [.variable tok] :=
  .in_chain_variable (.variable_ (pat_self h))

theorem accepts_three_siblings :
    Accepts "a.b.c".toList
      [.variable "a".toList, .chain (.variable "b".toList), .chain (.variable "c".toList)] :=
  accepts_of_definitions (.definitions_cons (a := "a".toList) (b := ".b.c".toList)
    (derives_variable [] "a".toList rfl (by decide))
    (derives_links [("b".toList, .variable "b".toList), ("c".toList, .variable "c".toList)]
      (by
        intro x hx
        simp only [List.mem_cons, List.mem_singleton, List.not_mem_nil, or_false] at hx
        rcases hx with rfl | rfl
        · exact in_chain_of_variable "b".toList (by decide)
        · exact in_chain_of_variable "c".toList (by decide))) rfl)

/-- C17: a chain needs no base.  The chain rule derives only a dot followed by one
link, and chain is an alternative of definition: the text `.a` alone is accepted by
`source_file` as a single definition, and `a.b.c` as the three sibling top-level
definitions `Variable(a)`, `chain(.b)`, `chain(.c)`. -/
theorem C17_chain_needs_no_base :
    (∀ (s : Text) (ts : List Tree), Derives .chain s ts ↔
      ∃ a l x, Lit "." a ∧ Derives .definition_in_chain l [x] ∧ s = a ++ l ∧
        ts = [.chain x]) ∧
    (∀ (s : Text) (ts : List Tree), Derives .chain s ts → Derives .definition s ts) ∧
    Accepts ".a".toList [.chain (.variable "a".toList)] ∧
    Accepts "a.b.c".toList
      [.variable "a".toList, .chain (.variable "b".toList), .chain (.variable "c".toList)] := by
  refine ⟨fun s ts => ⟨fun h => ?_, fun h => ?_⟩, fun _ _ h => .definition_chain h, ?_,
    accepts_three_siblings⟩
  · cases h with
    | @chain _ a l x ha hl hs => exact ⟨a, l, x, ha, hl, hs, rfl⟩
  · obtain ⟨a, l, x, ha, hl, hs, rfl⟩ := h
    exact .chain ha hl hs
  · exact accepts_single (.definition_chain (.chain (a := ".".toList) (b := "a".toList)
      (lit_self ".") (in_chain_of_variable "a".toList (by decide)) rfl))

/-- C17 at the chain `.a`: a chain is a definition. -/
theorem C17_chain_needs_no_base_witness :
    Derives .definition ".a".toList [.chain (.variable "a".toList)] :=
  C17_chain_needs_no_base.2.1 ".a".toList _ (.chain (a := ".".toList) (b := "a".toList)
    (lit_self ".") (in_chain_of_variable "a".toList (by decide)) rfl)

/-! ## C18: the variable pattern and the connectives -/

/-- C18: the variable pattern overlaps the grammar's connectives.  The texts `,`,
`->`, `a,` and `a->b` are each matched in full by the variable pattern; `,` is matched
by the tuple separator pattern too, so the two languages are not disjoint, and the
func arrow is a well-formed variable name; none of `:=`, `=`, `.`, the braces and the
parentheses is matched by the variable pattern. -/
theorem C18_variable_overlaps_connectives :
    variable_pattern.fullMatch ",".toList = true ∧
    variable_pattern.fullMatch "->".toList = true ∧
    variable_pattern.fullMatch "a,".toList = true ∧
    variable_pattern.fullMatch "a->b".toList = true ∧
    (∃ w, tuple_separator.fullMatch w = true ∧ variable_pattern.fullMatch w = true) ∧
    variable_pattern.fullMatch ":=".toList = false ∧
    variable_pattern.fullMatch "=".toList = false ∧
    variable_pattern.fullMatch ".".toList = false ∧
    variable_pattern.fullMatch ['{'] = false ∧
    variable_pattern.fullMatch ['}'] = false ∧
    variable_pattern.fullMatch "(".toList = false ∧
    variable_pattern.fullMatch ")".toList = false :=
  ⟨by decide, by decide, by decide, by decide, ⟨",".toList, by decide, by decide⟩,
    by decide, by decide, by decide, by decide, by decide, by decide, by decide⟩

/-! ## C19: the empty string literal -/

/-- In every derived tree the text of every string, number and variable node is
matched in full by the pattern of its rule. -/
theorem derives_tokenMatched {X : Sym} {s : Text} {ts : List Tree} (h : Derives X s ts) :
    ∀ x ∈ Tree.nodesList ts, x.tokenMatched = true := by
  induction h with
  | source_file _ _ _ ih => exact ih
  | definitions_nil => intro x hx; simp [Tree.nodesList] at hx
  | definitions_cons _ _ _ iha ihb =>
    intro x hx
    simp only [Tree.nodesList, List.mem_append, List.append_nil] at hx iha
    rcases hx with hx | hx
    · exact iha x hx
    · exact ihb x hx
  | tuple_elems_nil => intro x hx; simp [Tree.nodesList] at hx
  | tuple_elems_cons _ _ _ _ iha ihb =>
    intro x hx
    simp only [Tree.nodesList, List.mem_append, List.append_nil] at hx iha
    rcases hx with hx | hx
    · exact iha x hx
    · exact ihb x hx
  | block _ _ _ _ ih =>
    intro x hx
    simp only [Tree.nodesList, Tree.nodes, List.append_nil, List.mem_cons] at hx
    rcases hx with rfl | hx
    · rfl
    · exact ih x hx
  | tuple _ _ _ _ ih =>
    intro x hx
    simp only [Tree.nodesList, Tree.nodes, List.append_nil, List.mem_cons] at hx
    rcases hx with rfl | hx
    · rfl
    · exact ih x hx
  | if_then _ _ _ _ ihb ihc =>
    intro x hx
    simp only [Tree.nodesList, Tree.nodes, Tree.nodesOpt, List.append_nil, List.mem_cons,
      List.mem_append] at hx ihb ihc
    rcases hx with rfl | hx | hx
    · rfl
    · exact ihb x hx
    · exact ihc x hx
  | if_then_else _ _ _ _ _ _ ihb ihc ihe =>
    intro x hx
    simp only [Tree.nodesList, Tree.nodes, Tree.nodesOpt, List.append_nil, List.mem_cons,
      List.mem_append] at hx ihb ihc ihe
    rcases hx with rfl | (hx | hx) | hx
    · rfl
    · exact ihb x hx
    · exact ihc x hx
    · exact ihe x hx
  | func _ _ _ _ iha ihc | init _ _ _ _ iha ihc | assign _ _ _ _ iha ihc =>
    intro x hx
    simp only [Tree.nodesList, Tree.nodes, List.append_nil, List.mem_cons,
      List.mem_append] at hx iha ihc
    rcases hx with rfl | hx | hx
    · rfl
    · exact iha x hx
    · exact ihc x hx
  | chain _ _ _ ihb =>
    intro x hx
    simp only [Tree.nodesList, Tree.nodes, List.append_nil, List.mem_cons] at hx ihb
    rcases hx with rfl | hx
    · rfl
    · exact ihb x hx
  | number hp | variable_ hp =>
    intro x hx
    simp only [Tree.nodesList, Tree.nodes, List.append_nil, List.mem_singleton] at hx
    subst hx
    obtain ⟨_, _, hm, _⟩ := hp
    exact hm
  | string _ hp _ _ =>
    intro x hx
    simp only [Tree.nodesList, Tree.nodes, List.append_nil, List.mem_singleton] at hx
    subst hx
    obtain ⟨_, _, hm, _⟩ := hp
    exact hm
  | _ _ ih => exact ih

/-- C19: the empty string literal is not a string.  The string content pattern
matches no empty text and no text with a double quote in it, so the two-character
text `""` is not derived by the string rule, and the content of every StringLit of
every derived tree is a non-empty text with no double quote. -/
theorem C19_string_content_not_empty :
    string_content.fullMatch [] = false ∧
    (∀ w, string_content.fullMatch w = true → w ≠ [] ∧ '"' ∉ w) ∧
    (¬ ∃ ts, Derives .string ['"', '"'] ts) ∧
    (∀ (X : Sym) (s : Text) (ts : List Tree), Derives X s ts →
      ∀ c, Tree.string c ∈ Tree.nodesList ts → c ≠ [] ∧ '"' ∉ c) := by
  have hw : ∀ w, string_content.fullMatch w = true → w ≠ [] ∧ '"' ∉ w := by
    intro w h
    obtain ⟨h1, h2⟩ := (string_content_fullMatch_iff w).1 h
    exact ⟨h1, fun hq => h2 _ hq rfl⟩
  refine ⟨by decide, hw, ?_, ?_⟩
  · rintro ⟨ts, h⟩
    obtain ⟨t, _, ht⟩ := stringP_complete h
    have h2 : stringP ['"', '"'] = [] := by decide
    rw [h2] at ht
    exact List.not_mem_nil _ ht
  · intro X s ts h c hc
    exact hw c (derives_tokenMatched h _ hc)

/-- C19 at the string literal `"ab"`, whose content is `ab`. -/
theorem C19_string_content_not_empty_witness :
    "ab".toList ≠ [] ∧ '"' ∉ "ab".toList :=
  C19_string_content_not_empty.2.2.2 .string ['"', 'a', 'b', '"'] [.string "ab".toList]
    (.string (a := ['"']) (b := "ab".toList) (c := ['"']) (lit_self "\"")
      (pat_self (by decide)) (lit_self "\"") rfl)
    "ab".toList (by decide)


end Mers
